import Mathlib

/-!
# Verification of the strict-schema normalizer and the JSON repair pipeline

This file embeds, in Lean 4, the two core subsystems of the repository:

* `src/agents/strict_schema.py` — `ensure_strict_json_schema`,
  `_ensure_strict_json_schema`, `resolve_ref`, `inline_all_refs`;
* `src/agents/util/_json_repair.py` — `JsonRepairResult`,
  `repair_and_validate_json`, `_attempt_json_repair`,
  `validate_json_with_repair`.

Python JSON-like documents become the inductive type `JVal`; Python `dict`s
become ordered association lists with Python's update semantics (replacing a
key keeps its position, a new key is appended).  The Python code mutates the
schema tree in place while resolving `$ref` pointers against the (partially
mutated) root document; the embedding `strictAux` renders this faithfully by
threading a context function `ctx : JVal → JVal` that rebuilds the current
state of the whole root document from the current state of the node being
processed, exactly as the aliasing in the source does.  All recursion is
fuel-based, so every function is total and executable; the Python functions
can only diverge by exhausting the (unbounded) interpreter stack, which the
embedding renders as the distinguished `Err.fuel` outcome.
-/

/-- A JSON value: the data manipulated by both subsystems.  Objects are
ordered association lists, mirroring CPython's insertion-ordered `dict`. -/
inductive JVal where
  | null
  | bool (b : Bool)
  | num (n : Int)
  | str (s : String)
  | arr (elems : List JVal)
  | obj (members : List (String × JVal))
deriving Repr

mutual
/-- Structural equality test on `JVal` (Python `==` on parsed JSON trees). -/
def JVal.beq : JVal → JVal → Bool
  | .null, .null => true
  | .bool a, .bool b => a == b
  | .num a, .num b => a == b
  | .str a, .str b => a == b
  | .arr a, .arr b => JVal.beqList a b
  | .obj a, .obj b => JVal.beqMembers a b
  | _, _ => false
def JVal.beqList : List JVal → List JVal → Bool
  | [], [] => true
  | a :: as, b :: bs => JVal.beq a b && JVal.beqList as bs
  | _, _ => false
def JVal.beqMembers : List (String × JVal) → List (String × JVal) → Bool
  | [], [] => true
  | (k, a) :: as, (l, b) :: bs => k == l && JVal.beq a b && JVal.beqMembers as bs
  | _, _ => false
end

mutual
theorem JVal.beq_iff : ∀ a b : JVal, JVal.beq a b = true ↔ a = b
  | .null, b => by cases b <;> simp [JVal.beq]
  | .bool x, b => by cases b <;> simp [JVal.beq]
  | .num x, b => by cases b <;> simp [JVal.beq]
  | .str x, b => by cases b <;> simp [JVal.beq]
  | .arr xs, b => by
      cases b <;> simp [JVal.beq]
      exact JVal.beqList_iff xs _
  | .obj xs, b => by
      cases b <;> simp [JVal.beq]
      exact JVal.beqMembers_iff xs _
theorem JVal.beqList_iff : ∀ a b : List JVal, JVal.beqList a b = true ↔ a = b
  | [], b => by cases b <;> simp [JVal.beqList]
  | x :: xs, b => by
      cases b with
      | nil => simp [JVal.beqList]
      | cons y ys =>
          simp [JVal.beqList, Bool.and_eq_true, JVal.beq_iff x y, JVal.beqList_iff xs ys]
theorem JVal.beqMembers_iff :
    ∀ a b : List (String × JVal), JVal.beqMembers a b = true ↔ a = b
  | [], b => by cases b <;> simp [JVal.beqMembers]
  | (k, x) :: xs, b => by
      cases b with
      | nil => simp [JVal.beqMembers]
      | cons y ys =>
          obtain ⟨l, v⟩ := y
          simp [JVal.beqMembers, Bool.and_eq_true, JVal.beq_iff x v,
            JVal.beqMembers_iff xs ys, and_assoc]
end

instance : DecidableEq JVal := fun a b =>
  decidable_of_iff (JVal.beq a b = true) (JVal.beq_iff a b)

/-! ## Ordered-dictionary operations (CPython `dict` semantics) -/

/-- Look up a key in an association list (first binding wins; Python
`d.get(k)` / `d[k]`). -/
def jgetL (kvs : List (String × JVal)) (k : String) : Option JVal :=
  match kvs with
  | [] => none
  | (k', v) :: rest => if k' = k then some v else jgetL rest k

/-- Python `d[k] = v`: replacing an existing key keeps its position, a new
key is appended at the end. -/
def jsetL (kvs : List (String × JVal)) (k : String) (v : JVal) :
    List (String × JVal) :=
  match kvs with
  | [] => [(k, v)]
  | (k', v') :: rest =>
      if k' = k then (k', v) :: rest else (k', v') :: jsetL rest k v

/-- Python `d.pop(k, None)`: remove the binding for `k`. -/
def jeraseL (kvs : List (String × JVal)) (k : String) : List (String × JVal) :=
  kvs.filter (fun kv => kv.1 ≠ k)

/-- `jgetL` lifted to a `JVal` (returns `none` on non-objects). -/
def jget (j : JVal) (k : String) : Option JVal :=
  match j with
  | .obj kvs => jgetL kvs k
  | _ => none

/-- `jsetL` lifted to a `JVal` (identity on non-objects). -/
def jset (j : JVal) (k : String) (v : JVal) : JVal :=
  match j with
  | .obj kvs => .obj (jsetL kvs k v)
  | _ => j

/-- `jeraseL` lifted to a `JVal` (identity on non-objects). -/
def jerase (j : JVal) (k : String) : JVal :=
  match j with
  | .obj kvs => .obj (jeraseL kvs k)
  | _ => j

/-- Python `a.update(b)` on dicts, and equally the `{**a, **b}` merge: fold
`b`'s bindings into `a` with `jsetL` semantics.  Identity when either side is
not a dict (the source only ever applies it to dicts). -/
def pyUpdate (a b : JVal) : JVal :=
  match a, b with
  | .obj xs, .obj ys => .obj (ys.foldl (fun acc kv => jsetL acc kv.1 kv.2) xs)
  | _, _ => a

/-- Python truthiness of a JSON value (`if ref:` etc.). -/
def jTruthy : JVal → Bool
  | .null => false
  | .bool b => b
  | .num n => n ≠ 0
  | .str s => s ≠ ""
  | .arr xs => ¬xs.isEmpty
  | .obj kvs => ¬kvs.isEmpty

/-- `is_dict` from the source. -/
def isDictB : JVal → Bool
  | .obj _ => true
  | _ => false

/-- `is_list` from the source. -/
def isListB : JVal → Bool
  | .arr _ => true
  | _ => false

/-- `has_more_than_n_keys(obj, 1)` from the source: the dict has at least two
keys. -/
def hasMoreThanOneKey : JVal → Bool
  | .obj kvs => 1 < kvs.length
  | _ => false

/-! ## Errors raised by the normalizer

Each constructor corresponds to one `raise`/`assert`/builtin-exception site in
`strict_schema.py`; `fuel` stands for the Python stack overflowing on the
(unbounded) recursions of the source, which is the only way they can fail to
terminate. -/

/-- Failure outcomes of the schema normalizer. -/
inductive Err where
  /-- `TypeError(f"Expected {json_schema} to be a dictionary")` in
  `_ensure_strict_json_schema`. -/
  | typeErr
  /-- `UserError("additionalProperties should not be set for object types …")`. -/
  | addlPropsErr
  /-- `assert isinstance(ref, str)` failing (non-string truthy `$ref`). -/
  | nonStringRef
  /-- `ValueError(f"Expected `$ref: {ref}` to resolve(d) to a dictionary …")`. -/
  | refNotDict (ref : String)
  /-- `ValueError(f"Unexpected $ref format {ref!r}; Does not start with #/")`. -/
  | badRefFormat (ref : String)
  /-- `KeyError` from `resolved[key]` on a missing path segment. -/
  | keyErr
  /-- `assert is_dict(value)` failing inside `resolve_ref`'s loop. -/
  | nonDictEntry
  /-- `ValueError(f"Circular reference detected: {ref}")` in `inline_all_refs`. -/
  | circularRef (ref : String)
  /-- Recursion-limit overflow of the source (no result is produced). -/
  | fuel
deriving DecidableEq, Repr

/-! ## `resolve_ref` -/

/-- Split a character list on a separator character, Python
`str.split(sep)` style (no collapsing of empty segments). -/
def splitOnChar (c : Char) : List Char → List (List Char)
  | [] => [[]]
  | x :: xs =>
      match splitOnChar c xs with
      | [] => if x = c then [[], []] else [[x]]
      | h :: t => if x = c then [] :: h :: t else (x :: h) :: t

/-- `ref[2:].split("/")` guarded by `ref.startswith("#/")`: the path segments
of a pointer, or `none` when the pointer does not begin with `#/`. -/
def refSegs (ref : String) : Option (List String) :=
  match ref.data with
  | '#' :: '/' :: rest => some ((splitOnChar '/' rest).map (fun cs => ⟨cs⟩))
  | _ => none

/-- `resolve_ref(root=root, ref=ref)` from the source: walk the pointer's
path segments from the root, requiring every traversed value to be a dict. -/
def resolve_ref (root : JVal) (ref : String) : Except Err JVal :=
  match refSegs ref with
  | none => .error (.badRefFormat ref)
  | some segs =>
      segs.foldlM
        (fun cur k =>
          match jget cur k with
          | some v => if isDictB v then pure v else .error .nonDictEntry
          | none => .error .keyErr)
        root

/-! ## The strict pass (`_ensure_strict_json_schema`)

The Python function mutates the dict it receives in place and resolves
`$ref` pointers against `root`, which aliases the whole (partially mutated)
top-level schema.  On tree-shaped documents (no aliasing between siblings,
which is what `model_json_schema` produces and what the spec's ownership
rules stipulate), in-place mutation of a subtree is a functional update, and
the only cross-tree interaction is `resolve_ref(root=root, …)` reading the
current state of the whole document.  `strictAux fuel ctx j` processes the
node `j`; `ctx j'` rebuilds the current whole document from the current
state `j'` of the node, so `resolve_ref (ctx j) ref` sees exactly what the
Python code sees. -/

/-- Process the values of an association list in order, left to right,
threading the context: while entry `k` is being processed, the list seen by
the context holds the already-processed entries before `k` and the original
entries after it, exactly like Python's in-place mutation during iteration
over `dict.items()`. -/
def mapMWithCtx (f : (JVal → JVal) → JVal → Except Err JVal)
    (ctx : List (String × JVal) → JVal) :
    List (String × JVal) → Except Err (List (String × JVal))
  | [] => pure []
  | (k, v) :: rest => do
      let v' ← f (fun x => ctx ((k, x) :: rest)) v
      let rest' ← mapMWithCtx f (fun r => ctx ((k, v') :: r)) rest
      pure ((k, v') :: rest')

/-- `mapMWithCtx` for plain lists (`anyOf` / `allOf` members). -/
def mapMWithCtxL (f : (JVal → JVal) → JVal → Except Err JVal)
    (ctx : List JVal → JVal) :
    List JVal → Except Err (List JVal)
  | [] => pure []
  | v :: rest => do
      let v' ← f (fun x => ctx (x :: rest)) v
      let rest' ← mapMWithCtxL f (fun r => ctx (v' :: r)) rest
      pure (v' :: rest')

/-- The `$defs` / `definitions` stage of `_ensure_strict_json_schema`
(lines 53–63): recurse into every definition value.  The Python code ignores
the recursive calls' return values because they mutate in place; here the
processed values are written back, which is the same thing on trees. -/
def stageDefs (f : (JVal → JVal) → JVal → Except Err JVal)
    (ctx : JVal → JVal) (j : JVal) (key : String) : Except Err JVal :=
  match jget j key with
  | some (.obj ds) => do
      let ds' ← mapMWithCtx f (fun r => ctx (jset j key (.obj r))) ds
      pure (jset j key (.obj ds'))
  | _ => pure j

/-- The `type`/`additionalProperties` stage (lines 65–78). -/
def stageType (j : JVal) : Except Err JVal :=
  if jget j "type" = some (.str "object") then
    match jget j "additionalProperties" with
    | none => pure (jset j "additionalProperties" (.bool false))
    | some ap => if jTruthy ap then .error .addlPropsErr else pure j
  else pure j

/-- The `properties` stage (lines 82–88): set `required` to the key list,
then recurse into every property value. -/
def stageProps (f : (JVal → JVal) → JVal → Except Err JVal)
    (ctx : JVal → JVal) (j : JVal) : Except Err JVal :=
  match jget j "properties" with
  | some (.obj ps) => do
      let j := jset j "required" (.arr (ps.map (fun kv => .str kv.1)))
      let ps' ← mapMWithCtx f (fun r => ctx (jset j "properties" (.obj r))) ps
      pure (jset j "properties" (.obj ps'))
  | _ => pure j

/-- The `items` stage (lines 92–94). -/
def stageItems (f : (JVal → JVal) → JVal → Except Err JVal)
    (ctx : JVal → JVal) (j : JVal) : Except Err JVal :=
  match jget j "items" with
  | some it =>
      if isDictB it then do
        let it' ← f (fun x => ctx (jset j "items" x)) it
        pure (jset j "items" it')
      else pure j
  | none => pure j

/-- The `anyOf` stage (lines 97–102). -/
def stageAnyOf (f : (JVal → JVal) → JVal → Except Err JVal)
    (ctx : JVal → JVal) (j : JVal) : Except Err JVal :=
  match jget j "anyOf" with
  | some (.arr vs) => do
      let vs' ← mapMWithCtxL f (fun r => ctx (jset j "anyOf" (.arr r))) vs
      pure (jset j "anyOf" (.arr vs'))
  | _ => pure j

/-- The `allOf` stage (lines 105–116): a singleton member is spliced into
the node (`json_schema.update(…)` then `pop("allOf")`); otherwise recurse
into each member. -/
def stageAllOf (f : (JVal → JVal) → JVal → Except Err JVal)
    (ctx : JVal → JVal) (j : JVal) : Except Err JVal :=
  match jget j "allOf" with
  | some (.arr [a]) => do
      let a' ← f (fun x => ctx (jset j "allOf" (.arr [x]))) a
      pure (jerase (pyUpdate j a') "allOf")
  | some (.arr vs) => do
      let vs' ← mapMWithCtxL f (fun r => ctx (jset j "allOf" (.arr r))) vs
      pure (jset j "allOf" (.arr vs'))
  | _ => pure j

/-- The `default` stripping stage (lines 121–122). -/
def stageDefault (j : JVal) : JVal :=
  if jget j "default" = some .null then jerase j "default" else j

/-- The `$ref` unraveling stage (lines 129–144): a truthy string `$ref`
with at least one sibling key is resolved against the current root
(`ctx j`), the node's own keys are merged over the resolved dict
(`json_schema.update({**resolved, **json_schema})`), the `$ref` key is
popped, and the node is reprocessed from the top. -/
def stageRef (f : (JVal → JVal) → JVal → Except Err JVal)
    (ctx : JVal → JVal) (j : JVal) : Except Err JVal :=
  match jget j "$ref" with
  | some rv =>
      if jTruthy rv then
        match rv with
        | .str r =>
            if hasMoreThanOneKey j then do
              let resolved ← resolve_ref (ctx j) r
              if isDictB resolved then
                f ctx (jerase (pyUpdate j (pyUpdate resolved j)) "$ref")
              else .error (.refNotDict r)
            else pure j
        | _ => .error .nonStringRef
      else pure j
  | none => pure j

/-- `_ensure_strict_json_schema(json_schema, path, root)`: the recursive
strict-mode pass.  Stages appear in source order: `$defs`, `definitions`,
`type`/`additionalProperties`, `properties` (set `required`, then recurse),
`items`, `anyOf`, `allOf` (splice singletons), `default` stripping, and
finally `$ref` unraveling for refs with sibling keys. -/
def strictAux : Nat → (JVal → JVal) → JVal → Except Err JVal
  | 0, _, _ => .error .fuel
  | fuel + 1, ctx, j₀ =>
    match j₀ with
    | .obj _ => do
      let j ← stageDefs (strictAux fuel) ctx j₀ "$defs"
      let j ← stageDefs (strictAux fuel) ctx j "definitions"
      let j ← stageType j
      let j ← stageProps (strictAux fuel) ctx j
      let j ← stageItems (strictAux fuel) ctx j
      let j ← stageAnyOf (strictAux fuel) ctx j
      let j ← stageAllOf (strictAux fuel) ctx j
      stageRef (strictAux fuel) ctx (stageDefault j)
    | _ => .error .typeErr

/-! ## `inline_all_refs` and the public entry point -/

/-- Inline every value of an association list in order (non-dict values are
replaced by `{}` before the recursive call, as in the source's
comprehensions). -/
def mapMKV (f : JVal → Except Err JVal) :
    List (String × JVal) → Except Err (List (String × JVal))
  | [] => pure []
  | (k, v) :: rest => do
      let v' ← f (if isDictB v then v else .obj [])
      let rest' ← mapMKV f rest
      pure ((k, v') :: rest')

/-- Inline every element of a list in order. -/
def mapMJ (f : JVal → Except Err JVal) : List JVal → Except Err (List JVal)
  | [] => pure []
  | v :: rest => do
      let v' ← f (if isDictB v then v else .obj [])
      let rest' ← mapMJ f rest
      pure (v' :: rest')

/-- One dict-valued recursion key of `inline_all_refs`'s structural body
(`properties`, `$defs`, `definitions`): inline each entry. -/
def inlineMapStage (f : JVal → Except Err JVal) (key : String) (res : JVal) :
    Except Err JVal :=
  match jget res key with
  | some (.obj ds) => do
      let ds' ← mapMKV f ds
      pure (jset res key (.obj ds'))
  | _ => pure res

def inlineItemsStage (f : JVal → Except Err JVal) (res : JVal) : Except Err JVal :=
  match jget res "items" with
  | some it =>
      if isDictB it then do
        let it' ← f it
        pure (jset res "items" it')
      else pure res
  | none => pure res

def inlineListStage (f : JVal → Except Err JVal) (key : String) (res : JVal) :
    Except Err JVal :=
  match jget res key with
  | some (.arr vs) => do
      let vs' ← mapMJ f vs
      pure (jset res key (.arr vs'))
  | _ => pure res

/-- The non-`$ref` body of `inline_all_refs` (lines 242–298): recurse into
`properties`, `items`, `anyOf`, `allOf`, `$defs` and `definitions`,
re-reading each key from the progressively rebuilt `result` dict. -/
def inlineStructural (f : JVal → Except Err JVal) (schema : JVal) :
    Except Err JVal := do
  let res ← inlineMapStage f "properties" schema
  let res ← inlineItemsStage f res
  let res ← inlineListStage f "anyOf" res
  let res ← inlineListStage f "allOf" res
  let res ← inlineMapStage f "$defs" res
  let res ← inlineMapStage f "definitions" res
  pure res

/-- `inline_all_refs(schema, root=root, visited=visited)`: recursively
replace every `$ref` node by its fully inlined target; the node's own
non-`$ref` keys override the inlined target's keys (`{**inlined, **{k: v for
k, v in schema.items() if k != "$ref"}}`); `visited` is the path-scoped set
of pointers on the current resolution path, and meeting a pointer already in
it raises `ValueError("Circular reference detected: …")`.  Non-dict input
returns `{}`. -/
def inline_all_refs : Nat → JVal → JVal → List String → Except Err JVal
  | 0, _, _, _ => .error .fuel
  | fuel + 1, schema, root, visited =>
    match schema with
    | .obj _ =>
      match jget schema "$ref" with
      | some rv =>
          if jTruthy rv then
            match rv with
            | .str r =>
                if r ∈ visited then .error (.circularRef r)
                else do
                  let resolved ← resolve_ref root r
                  if isDictB resolved then do
                    let inlined ← inline_all_refs fuel resolved root (r :: visited)
                    pure (pyUpdate inlined (jerase schema "$ref"))
                  else .error (.refNotDict r)
            | _ => .error .nonStringRef
          else inlineStructural (fun x => inline_all_refs fuel x root visited) schema
      | none => inlineStructural (fun x => inline_all_refs fuel x root visited) schema
    | _ => pure (.obj [])

/-- The module-level `_EMPTY_SCHEMA` constant. -/
def EMPTY_SCHEMA : JVal :=
  .obj [("additionalProperties", .bool false), ("type", .str "object"),
    ("properties", .obj []), ("required", .arr [])]

/-- `ensure_strict_json_schema(schema)`: the public normalizer.  Empty input
maps to `_EMPTY_SCHEMA`; otherwise run the strict pass (with the schema
itself as root, `ctx = id`), fully inline `$ref`s, and pop the top-level
`$defs` / `definitions` containers. -/
def ensure_strict_json_schema (fuel : Nat) (schema : JVal) : Except Err JVal :=
  if schema = .obj [] then pure EMPTY_SCHEMA
  else do
    let s ← strictAux fuel id schema
    let i ← inline_all_refs fuel s s []
    pure (jerase (jerase i "$defs") "definitions")

/-- `ensure_strict_json_schema` instrumented with the final state of its
argument.  The source's docstring reads "Mutates the given JSON schema …":
`_ensure_strict_json_schema` writes into the dict it receives (e.g. lines
67, 84–85, 108), so after the call the caller's schema object holds the
strict pass's result, while the returned dict is the fresh top-level dict
built by `inline_all_refs` (minus the popped definition containers).  The
first component is the argument's post-call value, the second the return
value. -/
def ensure_strict_mut (fuel : Nat) (schema : JVal) :
    Except Err (JVal × JVal) :=
  if schema = .obj [] then pure (schema, EMPTY_SCHEMA)
  else do
    let s ← strictAux fuel id schema
    let i ← inline_all_refs fuel s s []
    pure (s, jerase (jerase i "$defs") "definitions")

/-! ## The JSON repair pipeline (`_json_repair.py`)

The pipeline is parameterized by its external collaborators: `json.loads`,
`json.dumps`, the optional Pydantic `TypeAdapter`, and the three `json_repair`
entry points.  Parsed values are an abstract type `V`; every fallible
collaborator returns `Except String` (the error being the exception the
Python call would raise: `json.JSONDecodeError` for `loads`,
`pydantic.ValidationError` for `validate_python`, arbitrary exceptions for
the repair library). -/

/-- The external capabilities `_json_repair.py` calls into. -/
structure RepairEnv (V : Type) where
  /-- `json.loads`. -/
  loads : String → Except String V
  /-- `json.dumps(obj, ensure_ascii=False)`. -/
  dumps : V → String
  /-- `json_repair.repair_json(s)`. -/
  repairJson : String → Except String String
  /-- `json_repair.loads(s)`. -/
  repairLoads : String → Except String V
  /-- `json_repair.repair_json(s, return_objects=True)`; `none` models the
  call returning Python `None`. -/
  repairObjects : String → Except String (Option V)
  /-- The optional `type_adapter`; `validate_python` either returns the
  validated (possibly coerced) value or raises `ValidationError`. -/
  validate : Option (V → Except String V)
  /-- `JSON_REPAIR_AVAILABLE`: whether `import json_repair` succeeded. -/
  available : Bool

/-- `JsonRepairResult` from the source, with its constructor defaults. -/
structure JsonRepairResult (V : Type) where
  success : Bool
  repaired_json : Option String := none
  parsed_object : Option V := none
  original_error : Option String := none
  repair_applied : Bool := false
  repair_details : Option String := none
deriving DecidableEq, Repr

/-- Python `str.strip()` on ASCII whitespace, used by the
`repaired_json.strip() == ""` emptiness check. -/
def pyStrip (s : String) : String :=
  let ws := fun c : Char => c = ' ' ∨ c = '\t' ∨ c = '\n' ∨ c = '\r'
  ⟨((s.data.dropWhile ws).reverse.dropWhile ws).reverse⟩

/-- One repair tier's candidate production (`_attempt_json_repair` lines
142–169): the repaired text plus the strategy name, or `brk` when the loop
`break`s (tier ≥ 3 yielding `None` or raising), or `exn` when the tier
raises and the outer `except` advances the loop (`continue`). -/
inductive CandOutcome where
  | cand (text : String) (method : String)
  | brk
  | exn
deriving DecidableEq, Repr

/-- The candidate text produced at a given attempt number: attempt 1 is
`repair_json`, attempt 2 is `json_repair.loads` re-serialized (falling back
to `repair_json` when `loads` raises), and attempts ≥ 3 use
`repair_json(…, return_objects=True)`. -/
def candidateAt {V : Type} (env : RepairEnv V) (s : String) (attempt : Nat) :
    CandOutcome :=
  if attempt = 1 then
    match env.repairJson s with
    | .ok c => .cand c "基本修复"
    | .error _ => .exn
  else if attempt = 2 then
    match env.repairLoads s with
    | .ok o => .cand (env.dumps o) "loads 方法修复"
    | .error _ =>
        match env.repairJson s with
        | .ok c => .cand c "基本修复（loads 失败后回退）"
        | .error _ => .exn
  else
    match env.repairObjects s with
    | .ok (some o) => .cand (env.dumps o) "返回对象模式修复"
    | .ok none => .brk
    | .error _ => .brk

/-- The result `_attempt_json_repair` returns when every attempt is spent
(or the loop `break`s): lines 219–224 of the source. -/
def exhaustedResult {V : Type} (original_error : String) (maxAttempts : Nat) :
    JsonRepairResult V :=
  { success := false
    original_error := some original_error
    repair_applied := true
    repair_details := some ("修复失败，已尝试 " ++ toString maxAttempts ++ " 次") }

/-- The `for attempt in range(1, max_attempts + 1)` loop of
`_attempt_json_repair`: `remaining` counts the attempts left, `attempt` is
the current attempt number.  A candidate that is empty (or whitespace), or
fails to parse, or parses but fails type validation, advances to the next
attempt; a `brk` outcome exits the loop; success returns immediately. -/
def attemptLoop {V : Type} (env : RepairEnv V) (json_str original_error : String)
    (maxAttempts : Nat) : Nat → Nat → JsonRepairResult V
  | 0, _ => exhaustedResult original_error maxAttempts
  | remaining + 1, attempt =>
    match candidateAt env json_str attempt with
    | .exn => attemptLoop env json_str original_error maxAttempts remaining (attempt + 1)
    | .brk => exhaustedResult original_error maxAttempts
    | .cand c method =>
        if c = "" ∨ pyStrip c = "" then
          attemptLoop env json_str original_error maxAttempts remaining (attempt + 1)
        else
          match env.loads c with
          | .error _ =>
              attemptLoop env json_str original_error maxAttempts remaining (attempt + 1)
          | .ok parsed =>
              match env.validate with
              | some va =>
                  match va parsed with
                  | .ok validated =>
                      { success := true
                        repaired_json := some c
                        parsed_object := some validated
                        repair_applied := true
                        repair_details :=
                          some (method ++ "（第" ++ toString attempt ++ "次尝试）") }
                  | .error _ =>
                      attemptLoop env json_str original_error maxAttempts remaining
                        (attempt + 1)
              | none =>
                  { success := true
                    repaired_json := some c
                    parsed_object := some parsed
                    repair_applied := true
                    repair_details :=
                      some (method ++ "（第" ++ toString attempt ++ "次尝试）") }

/-- `_attempt_json_repair(json_str, type_adapter, original_error,
max_attempts)`. -/
def attempt_json_repair {V : Type} (env : RepairEnv V)
    (json_str original_error : String) (maxAttempts : Nat) : JsonRepairResult V :=
  attemptLoop env json_str original_error maxAttempts maxAttempts 1

/-- `repair_and_validate_json(json_str, type_adapter, enable_repair,
max_repair_attempts)`: try a direct parse (validating when an adapter is
supplied); on a parse failure, repair only when enabled and available. -/
def repair_and_validate_json {V : Type} (env : RepairEnv V) (json_str : String)
    (enable_repair : Bool := true) (max_repair_attempts : Nat := 3) :
    JsonRepairResult V :=
  match env.loads json_str with
  | .ok parsed =>
      match env.validate with
      | some va =>
          match va parsed with
          | .ok validated =>
              { success := true
                repaired_json := some json_str
                parsed_object := some validated
                repair_applied := false }
          | .error e =>
              { success := false
                original_error := some e
                repair_applied := false }
      | none =>
          { success := true
            repaired_json := some json_str
            parsed_object := some parsed
            repair_applied := false }
  | .error original_error =>
      if ¬enable_repair ∨ ¬env.available then
        { success := false
          original_error := some original_error
          repair_applied := false }
      else attempt_json_repair env json_str original_error max_repair_attempts

/-- `validate_json_with_repair(json_str, type_adapter, enable_repair,
partial)`.  When the `partial` flag (here `pMode`) is set, the function
delegates to the plain `_json.validate_json(json_str, type_adapter,
partial=True)` — code that lives outside this repository's sources, so it is
the abstract function `partialValidate`.  Otherwise it runs the repair
pipeline, returning the parsed object on success and raising
`ModelBehaviorError` (the `.error` case) on failure. -/
def validate_json_with_repair {V : Type} (env : RepairEnv V)
    (partialValidate : String → Except String V) (json_str : String)
    (enable_repair : Bool := true) (pMode : Bool := false) :
    Except String (Option V) :=
  if pMode then (partialValidate json_str).map some
  else
    let result := repair_and_validate_json env json_str enable_repair 3
    if result.success then .ok result.parsed_object
    else
      let base := "JSON 解析失败，原始错误: " ++
        (match result.original_error with
         | some e => e
         | none => "None")
      let msg :=
        if result.repair_applied then
          base ++ "，修复尝试也失败: " ++
            (match result.repair_details with
             | some d => d
             | none => "None")
        else base
      .error msg

/-! ## Repair-pipeline lemmas and claim theorems -/

/-- Every result the attempt loop can produce has `repair_applied = true`,
and carries a parsed object whenever it reports success. -/
theorem attemptLoop_inv {V : Type} (env : RepairEnv V) (s oe : String) (ma : Nat) :
    ∀ rem att, ((attemptLoop env s oe ma rem att).repair_applied = true ∧
      ((attemptLoop env s oe ma rem att).success = true →
        ((attemptLoop env s oe ma rem att).parsed_object).isSome = true))
  | 0, att => by simp [attemptLoop, exhaustedResult]
  | rem + 1, att => by
      have ih := attemptLoop_inv env s oe ma rem (att + 1)
      rw [attemptLoop]
      split
      · exact ih
      · simp [exhaustedResult]
      · split
        · exact ih
        · split
          · exact ih
          · split
            · split
              · simp
              · exact ih
            · simp

/-- C7: every `JsonRepairResult` returned by `repair_and_validate_json`
satisfies the data-model invariant: `success = true` implies the parsed
value is present, and `repair_applied = false` implies the repaired text,
when present, is the original input string verbatim. -/
theorem repair_result_invariant {V : Type} (env : RepairEnv V) (s : String)
    (er : Bool) (ma : Nat) :
    ((repair_and_validate_json env s er ma).success = true →
      ((repair_and_validate_json env s er ma).parsed_object).isSome = true) ∧
    ((repair_and_validate_json env s er ma).repair_applied = false →
      ∀ t, (repair_and_validate_json env s er ma).repaired_json = some t → t = s) := by
  rw [repair_and_validate_json]
  split
  · split
    · split
      · simp
      · simp
    · simp
  · split
    · simp
    · rename_i e he hcond
      have h := attemptLoop_inv env s e ma ma 1
      rw [attempt_json_repair]
      refine ⟨h.2, ?_⟩
      intro hra
      rw [h.1] at hra
      cases hra

/-- A concrete collaborator environment over `Nat` values, used to witness
the repair-pipeline theorems on closed inputs. -/
def envParses : RepairEnv Nat :=
  { loads := fun s => if s = "1" then .ok 1 else .error "Expecting value"
    dumps := fun n => toString n
    repairJson := fun _ => .ok "1"
    repairLoads := fun _ => .ok 1
    repairObjects := fun _ => .ok (some 1)
    validate := none
    available := true }

theorem repair_result_invariant_witness :
    ((repair_and_validate_json envParses "1" true 3).parsed_object).isSome = true ∧
    ((repair_and_validate_json envParses "1" true 3).repaired_json = some "1" → True) :=
  ⟨(repair_result_invariant envParses "1" true 3).1 (by decide), fun _ => trivial⟩

/-- C8: when the input parses on the first direct attempt but fails the
supplied type contract, the pipeline terminates immediately with
`success = false`, `repair_applied = false`, `original_error` the validation
error, and no other field set — no repair tier is consulted (the result does
not depend on the repair collaborators at all). -/
theorem direct_validation_failure_is_terminal {V : Type} (env : RepairEnv V)
    (s : String) (er : Bool) (ma : Nat) (v : V) (va : V → Except String V)
    (e : String) (h1 : env.loads s = .ok v) (h2 : env.validate = some va)
    (h3 : va v = .error e) :
    repair_and_validate_json env s er ma =
      { success := false, original_error := some e, repair_applied := false } := by
  simp [repair_and_validate_json, h1, h2, h3]

/-- A concrete environment whose type contract rejects every value. -/
def envRejects : RepairEnv Nat :=
  { envParses with validate := some (fun _ => .error "1 validation error") }

theorem direct_validation_failure_is_terminal_witness :
    repair_and_validate_json envRejects "1" true 3 =
      { success := false, original_error := some "1 validation error",
        repair_applied := false } :=
  direct_validation_failure_is_terminal envRejects "1" true 3 1
    (fun _ => .error "1 validation error") "1 validation error" (by rfl) rfl rfl

/-- When no string parses, every attempt of the loop falls through to the
next one (or `break`s at tier ≥ 3), and the loop ends in the exhausted
result. -/
theorem attemptLoop_exhausts {V : Type} (env : RepairEnv V) (s oe : String)
    (ma : Nat) (hall : ∀ t, ∃ er, env.loads t = .error er) :
    ∀ rem att, attemptLoop env s oe ma rem att = exhaustedResult oe ma
  | 0, att => by simp [attemptLoop]
  | rem + 1, att => by
      have ih := attemptLoop_exhausts env s oe ma hall rem (att + 1)
      rw [attemptLoop]
      split
      · exact ih
      · rfl
      · split
        · exact ih
        · rename_i c m hcand hne
          obtain ⟨er, her⟩ := hall c
          rw [her]
          exact ih

/-- C9, part one: a first-parse failure followed by exhaustion of every
repair tier yields `success = false`, `repair_applied = true`, a diagnostic
stating the total number of attempts, and `original_error` preserved from
the very first parse attempt.  Part two: a candidate that parses but fails
type validation at an intermediate tier advances the loop to the next
attempt instead of terminating it. -/
theorem repair_exhaustion_and_tier_advancement {V : Type} :
    (∀ (env : RepairEnv V) (s e₀ : String) (ma : Nat),
      env.available = true → env.loads s = .error e₀ →
      (∀ t, ∃ er, env.loads t = .error er) →
      repair_and_validate_json env s true ma =
        { success := false
          original_error := some e₀
          repair_applied := true
          repair_details := some ("修复失败，已尝试 " ++ toString ma ++ " 次") }) ∧
    (∀ (env : RepairEnv V) (s e₀ : String) (ma rem att : Nat) (c m : String)
      (p : V) (va : V → Except String V) (err : String),
      candidateAt env s att = .cand c m →
      (c = "" ∨ pyStrip c = "") = False →
      env.loads c = .ok p → env.validate = some va → va p = .error err →
      attemptLoop env s e₀ ma (rem + 1) att =
        attemptLoop env s e₀ ma rem (att + 1)) := by
  constructor
  · intro env s e₀ ma hav hs hall
    rw [repair_and_validate_json, hs]
    simp only [hav, not_true_eq_false, or_self, if_false, Bool.not_eq_true]
    rw [attempt_json_repair, attemptLoop_exhausts env s e₀ ma hall ma 1]
    rfl
  · intro env s e₀ ma rem att c m p va err hcand hne hload hva herr
    rw [attemptLoop, hcand]
    simp only []
    rw [if_neg (of_eq_false hne)]
    rw [hload, hva]
    simp [herr]

/-- An environment in which no text parses: every repair tier's candidate
fails the re-parse, so the pipeline exhausts. -/
def envFails : RepairEnv Nat :=
  { loads := fun _ => .error "Expecting value"
    dumps := fun n => toString n
    repairJson := fun _ => .ok "1"
    repairLoads := fun _ => .ok 1
    repairObjects := fun _ => .ok (some 1)
    validate := none
    available := true }

/-- An environment whose tier-1 candidate parses but fails validation. -/
def envAdvance : RepairEnv Nat :=
  { loads := fun t => if t = "c" then .ok 2 else .error "Expecting value"
    dumps := fun n => toString n
    repairJson := fun _ => .ok "c"
    repairLoads := fun _ => .ok 2
    repairObjects := fun _ => .ok (some 2)
    validate := some (fun _ => .error "1 validation error")
    available := true }

theorem repair_exhaustion_and_tier_advancement_witness :
    (repair_and_validate_json envFails "not json" true 3 =
      { success := false
        original_error := some "Expecting value"
        repair_applied := true
        repair_details := some ("修复失败，已尝试 " ++ toString 3 ++ " 次") }) ∧
    attemptLoop envAdvance "x" "e0" 3 3 1 = attemptLoop envAdvance "x" "e0" 3 2 2 :=
  ⟨(repair_exhaustion_and_tier_advancement (V := Nat)).1 envFails "not json" "Expecting value" 3
      rfl rfl (fun _ => ⟨"Expecting value", rfl⟩),
    (repair_exhaustion_and_tier_advancement (V := Nat)).2 envAdvance "x" "e0" 3 2 1 "c"
      "基本修复" 2 (fun _ => .error "1 validation error") "1 validation error" rfl
      (eq_false (by decide)) (by rfl) rfl rfl⟩

/-- C10: with `partial=True`, `validate_json_with_repair` delegates to the
plain partial validator: the result is exactly the partial validator's, and
it is independent of the repair environment and of the `enable_repair` flag
— the repair machinery is never invoked, so a syntactically malformed input
in partial mode fails without any repair attempt. -/
theorem partial_mode_bypasses_repair {V : Type} (env env' : RepairEnv V)
    (partialValidate : String → Except String V) (s : String) (er er' : Bool) :
    validate_json_with_repair env partialValidate s er true =
      (partialValidate s).map some ∧
    validate_json_with_repair env partialValidate s er true =
      validate_json_with_repair env' partialValidate s er' true := by
  constructor <;> simp [validate_json_with_repair]

/-! ## Sorting property keys (Python `sorted` on strings) -/

deriving instance DecidableEq for Except

/-- Code-point lexicographic `≤` on character lists: Python's string
ordering, used by `sorted`. -/
def lexLeChars : List Char → List Char → Bool
  | [], _ => true
  | _ :: _, [] => false
  | a :: as, b :: bs =>
      if a.toNat < b.toNat then true
      else if b.toNat < a.toNat then false
      else lexLeChars as bs

/-- Insert a string into a sorted list of strings. -/
def insertSortedStr (s : String) : List String → List String
  | [] => [s]
  | t :: ts =>
      if lexLeChars s.data t.data then s :: t :: ts else t :: insertSortedStr s ts

/-- Python `sorted(keys)`: insertion sort under code-point order. -/
def sortStrings : List String → List String
  | [] => []
  | s :: ss => insertSortedStr s (sortStrings ss)

/-! ## Concrete schemas used in counterexamples and witnesses -/

/-- A well-formed object schema whose property keys are not declared in
sorted order (`b` before `a`). -/
def schemaBA : JVal :=
  .obj [("type", .str "object"),
    ("properties", .obj [("b", .obj [("type", .str "string")]),
      ("a", .obj [("type", .str "string")])])]

/-- A minimal well-formed object schema. -/
def schemaA : JVal :=
  .obj [("type", .str "object"),
    ("properties", .obj [("a", .obj [("type", .str "string")])])]

/-- C1 (counterexample): the normalizer sets `required` to
`list(properties.keys())` — declaration order — not to the sorted key list.
On `schemaBA` the (root) object node of the output carries
`required == ["b", "a"]`, while the sorted key list is `["a", "b"]`. -/
theorem required_not_sorted_counterexample :
    ensure_strict_json_schema 20 schemaBA = .ok (.obj
      [("type", .str "object"),
       ("properties", .obj [("b", .obj [("type", .str "string")]),
         ("a", .obj [("type", .str "string")])]),
       ("additionalProperties", .bool false),
       ("required", .arr [.str "b", .str "a"])]) ∧
    sortStrings ["b", "a"] = ["a", "b"] ∧
    (JVal.arr [.str "b", .str "a"]) ≠ .arr [.str "a", .str "b"] := by
  refine ⟨by decide, by decide, by decide⟩

/-- C3 (counterexample): `normalize` does not leave its input unchanged.
`ensure_strict_mut` pairs the return value with the final state of the
argument (the source mutates the dict it is given, as its docstring states);
on `schemaA` the post-call input has gained `additionalProperties` and
`required` keys, so it differs from the original. -/
theorem normalize_mutates_input_counterexample :
    ¬((ensure_strict_mut 20 schemaA).map Prod.fst = .ok schemaA) := by
  decide

/-- The post-call state of `schemaA` (equal, here, to the returned
document): the strict pass added `additionalProperties` and `required`. -/
def schemaAPost : JVal :=
  .obj [("type", .str "object"),
    ("properties", .obj [("a", .obj [("type", .str "string")])]),
    ("additionalProperties", .bool false),
    ("required", .arr [.str "a"])]

/-- C3 (amended): the strict pass rewrites the input in place — after a
successful non-empty call the argument holds exactly the strict pass's
result (in general different from its original value, as `schemaA` shows),
while the returned top-level document is the fresh dict built by the
inliner. -/
theorem normalize_mutates_input_to_strict_result :
    (∀ (fuel : Nat) (S P O : JVal), ensure_strict_mut fuel S = .ok (P, O) →
      S ≠ .obj [] → strictAux fuel id S = .ok P) ∧
    (ensure_strict_mut 20 schemaA = .ok (schemaAPost, schemaAPost) ∧
      schemaAPost ≠ schemaA) := by
  refine ⟨?_, by decide, by decide⟩
  intro fuel S P O h hne
  rw [ensure_strict_mut, if_neg hne] at h
  cases hs : strictAux fuel id S with
  | error e =>
      rw [hs] at h
      simp only [Bind.bind, Except.bind] at h
      cases h
  | ok s =>
      rw [hs] at h
      simp only [Bind.bind, Except.bind, Functor.map, Except.map] at h
      cases hi : inline_all_refs fuel s s [] with
      | error e => rw [hi] at h; cases h
      | ok i =>
          rw [hi] at h
          cases h
          rfl

theorem normalize_mutates_input_to_strict_result_witness :
    strictAux 20 id schemaA = .ok schemaAPost :=
  normalize_mutates_input_to_strict_result.1 20 schemaA schemaAPost schemaAPost
    (by decide) (by decide)

/-! ## Association-list lemmas -/

def keysL (l : List (String × JVal)) : List String := l.map Prod.fst

def nodupKeys (l : List (String × JVal)) : Prop := (keysL l).Nodup

instance (l : List (String × JVal)) : Decidable (nodupKeys l) :=
  List.nodupDecidable (keysL l)

theorem jgetL_jsetL : ∀ (l : List (String × JVal)) (k k' : String) (v : JVal),
    jgetL (jsetL l k v) k' = if k = k' then some v else jgetL l k'
  | [], k, k', v => by
      simp only [jsetL, jgetL]
  | (k0, v0) :: t, k, k', v => by
      by_cases h0 : k0 = k
      · subst h0
        by_cases h : k0 = k'
        · subst h
          simp [jsetL, jgetL]
        · simp [jsetL, jgetL, h]
      · by_cases h : k0 = k'
        · subst h
          have hk : ¬(k = k0) := fun hh => h0 hh.symm
          simp [jsetL, jgetL, h0, hk]
        · simp [jsetL, jgetL, h0, h, jgetL_jsetL t k k' v]

theorem jgetL_eq_none_iff : ∀ (l : List (String × JVal)) (k : String),
    jgetL l k = none ↔ k ∉ keysL l
  | [], k => by simp [jgetL, keysL]
  | (k0, v0) :: t, k => by
      by_cases h : k0 = k
      · subst h
        simp [jgetL, keysL]
      · have hk : ¬(k = k0) := fun hh => h hh.symm
        have hrec := jgetL_eq_none_iff t k
        simp [jgetL, keysL, h, hk] at *
        exact hrec

theorem jgetL_jeraseL : ∀ (l : List (String × JVal)) (k k' : String),
    jgetL (jeraseL l k') k = if k = k' then none else jgetL l k
  | [], k, k' => by simp [jeraseL, jgetL]
  | (k0, v0) :: t, k, k' => by
      by_cases h1 : k0 = k'
      · subst h1
        have hstep : jeraseL ((k0, v0) :: t) k0 = jeraseL t k0 := by
          simp [jeraseL]
        rw [hstep, jgetL_jeraseL t k k0]
        by_cases h : k = k0
        · simp [h]
        · have hk : ¬(k0 = k) := fun hh => h hh.symm
          simp [jgetL, h, hk]
      · have hstep : jeraseL ((k0, v0) :: t) k' = (k0, v0) :: jeraseL t k' := by
          simp [jeraseL, h1]
        rw [hstep]
        by_cases h : k0 = k
        · subst h
          have hk : ¬(k0 = k') := h1
          simp [jgetL, hk]
        · simp [jgetL, h, jgetL_jeraseL t k k']

def updL (a b : List (String × JVal)) : List (String × JVal) :=
  b.foldl (fun acc kv => jsetL acc kv.1 kv.2) a

theorem pyUpdate_obj (a b : List (String × JVal)) :
    pyUpdate (.obj a) (.obj b) = .obj (updL a b) := rfl

theorem updL_nil (a : List (String × JVal)) : updL a [] = a := rfl

theorem updL_cons (a : List (String × JVal)) (kv : String × JVal)
    (b : List (String × JVal)) :
    updL a (kv :: b) = updL (jsetL a kv.1 kv.2) b := rfl

/-- Python-merge lookup: with duplicate-free `b` (true of any dict), a
key's value after `a.update(b)` is `b`'s when `b` has the key, else `a`'s. -/
theorem jgetL_updL : ∀ (b : List (String × JVal)), nodupKeys b →
    ∀ (a : List (String × JVal)) (k : String),
    jgetL (updL a b) k =
      match jgetL b k with
      | some v => some v
      | none => jgetL a k
  | [], _, a, k => by simp [updL_nil, jgetL]
  | (k0, v0) :: t, hb, a, k => by
      have hb2 := List.nodup_cons.mp hb
      rw [updL_cons, jgetL_updL t hb2.2]
      by_cases h : k0 = k
      · subst h
        have hnone : jgetL t k0 = none := (jgetL_eq_none_iff t k0).mpr hb2.1
        simp [hnone, jgetL, jgetL_jsetL]
      · simp only [jgetL, if_neg h]
        cases hgt : jgetL t k
        · simp [jgetL_jsetL, h]
        · simp

theorem jsetL_of_jgetL_eq : ∀ (l : List (String × JVal)) (k : String) (v : JVal),
    jgetL l k = some v → jsetL l k v = l
  | [], k, v => by intro h; simp [jgetL] at h
  | (k0, v0) :: t, k, v => by
      intro h
      by_cases h0 : k0 = k
      · subst h0
        simp only [jgetL, if_pos rfl] at h
        cases h
        simp [jsetL]
      · simp only [jgetL, if_neg h0] at h
        simp [jsetL, h0, jsetL_of_jgetL_eq t k v h]

/-! ## Stage-skip lemmas and the reference-merge theorems -/

theorem stageDefs_skip (f : (JVal → JVal) → JVal → Except Err JVal)
    (ctx : JVal → JVal) (j : JVal) (key : String) (h : jget j key = none) :
    stageDefs f ctx j key = pure j := by
  simp [stageDefs, h]

theorem stageType_skip (j : JVal) (h : jget j "type" = none) :
    stageType j = pure j := by
  simp [stageType, h]

theorem stageProps_skip (f : (JVal → JVal) → JVal → Except Err JVal)
    (ctx : JVal → JVal) (j : JVal) (h : jget j "properties" = none) :
    stageProps f ctx j = pure j := by
  simp [stageProps, h]

theorem stageItems_skip (f : (JVal → JVal) → JVal → Except Err JVal)
    (ctx : JVal → JVal) (j : JVal) (h : jget j "items" = none) :
    stageItems f ctx j = pure j := by
  simp [stageItems, h]

theorem stageAnyOf_skip (f : (JVal → JVal) → JVal → Except Err JVal)
    (ctx : JVal → JVal) (j : JVal) (h : jget j "anyOf" = none) :
    stageAnyOf f ctx j = pure j := by
  simp [stageAnyOf, h]

theorem stageAllOf_skip (f : (JVal → JVal) → JVal → Except Err JVal)
    (ctx : JVal → JVal) (j : JVal) (h : jget j "allOf" = none) :
    stageAllOf f ctx j = pure j := by
  simp [stageAllOf, h]

theorem stageDefault_skip (j : JVal) (h : jget j "default" = none) :
    stageDefault j = j := by
  simp [stageDefault, h]

/-- Unraveling step of the strict pass: under a truthy string `$ref` with a
sibling key (and no structural keys that would fire the earlier stages), the
pass rewrites the node to the reprocessed merge
`(json_schema ∪ ({**resolved, **json_schema})) minus $ref`. -/
theorem strict_ref_step (fuel : Nat) (ctx : JVal → JVal)
    (kvs : List (String × JVal)) (r : String) (d : JVal)
    (hside : ∀ kv ∈ kvs, kv.1 = "$ref" ∨
      kv.1 ∉ (["$defs", "definitions", "type", "properties", "items",
        "anyOf", "allOf", "default"] : List String))
    (hget : jgetL kvs "$ref" = some (.str r)) (hr : r ≠ "")
    (hlen : 1 < kvs.length)
    (hres : resolve_ref (ctx (.obj kvs)) r = .ok d) (hd : isDictB d = true) :
    strictAux (fuel + 1) ctx (.obj kvs) =
      strictAux fuel ctx (jerase (pyUpdate (.obj kvs) (pyUpdate d (.obj kvs))) "$ref") := by
  have hnone : ∀ key ∈ (["$defs", "definitions", "type", "properties", "items",
      "anyOf", "allOf", "default"] : List String), jget (.obj kvs) key = none := by
    intro key hkey
    show jgetL kvs key = none
    rw [jgetL_eq_none_iff]
    intro hmem
    obtain ⟨kv, hkv, hfst⟩ := List.mem_map.mp hmem
    rcases hside kv hkv with h1 | h1
    · rw [h1] at hfst
      subst hfst
      simp at hkey
    · exact h1 (hfst ▸ hkey)
  rw [strictAux]
  rw [stageDefs_skip _ _ _ _ (hnone "$defs" (by simp)), pure_bind]
  rw [stageDefs_skip _ _ _ _ (hnone "definitions" (by simp)), pure_bind]
  rw [stageType_skip _ (hnone "type" (by simp)), pure_bind]
  rw [stageProps_skip _ _ _ (hnone "properties" (by simp)), pure_bind]
  rw [stageItems_skip _ _ _ (hnone "items" (by simp)), pure_bind]
  rw [stageAnyOf_skip _ _ _ (hnone "anyOf" (by simp)), pure_bind]
  rw [stageAllOf_skip _ _ _ (hnone "allOf" (by simp)), pure_bind]
  rw [stageDefault_skip _ (hnone "default" (by simp))]
  rw [stageRef]
  have : jget (.obj kvs) "$ref" = some (.str r) := hget
  rw [this]
  simp only [jTruthy, hr, ne_eq, not_false_eq_true]
  have hmore : hasMoreThanOneKey (.obj kvs) = true := by
    simpa [hasMoreThanOneKey] using hlen
  rw [if_pos hmore]
  rw [hres]
  simp only [Bind.bind, Except.bind, hd, if_true]
  simp

theorem nodupKeys_jsetL : ∀ (l : List (String × JVal)) (k : String) (v : JVal),
    nodupKeys l → nodupKeys (jsetL l k v)
  | [], k, v, _ => by simp [jsetL, nodupKeys, keysL]
  | (k0, v0) :: t, k, v, h => by
      have h2 := List.nodup_cons.mp h
      by_cases h0 : k0 = k
      · subst h0
        simpa [jsetL, nodupKeys, keysL] using h
      · have ht := nodupKeys_jsetL t k v h2.2
        have hk0 : k0 ∉ keysL (jsetL t k v) := by
          intro hmem
          have hne : ¬jgetL (jsetL t k v) k0 = none := by
            rw [jgetL_eq_none_iff]
            exact fun hcon => hcon hmem
          rw [jgetL_jsetL, if_neg (fun hh : k = k0 => h0 hh.symm)] at hne
          exact hne ((jgetL_eq_none_iff t k0).mpr h2.1)
        have hstep : jsetL ((k0, v0) :: t) k v = (k0, v0) :: jsetL t k v := by
          simp [jsetL, h0]
        rw [hstep]
        show (k0 :: keysL (jsetL t k v)).Nodup
        exact List.nodup_cons.mpr ⟨hk0, ht⟩

theorem nodupKeys_updL (a b : List (String × JVal)) (ha : nodupKeys a) :
    nodupKeys (updL a b) := by
  induction b generalizing a with
  | nil => simpa [updL_nil] using ha
  | cons kv t ih => exact updL_cons a kv t ▸ ih _ (nodupKeys_jsetL a kv.1 kv.2 ha)

theorem nodupKeys_jeraseL (l : List (String × JVal)) (k : String)
    (h : nodupKeys l) : nodupKeys (jeraseL l k) := by
  have hs : List.Sublist (keysL (jeraseL l k)) (keysL l) :=
    List.Sublist.map Prod.fst (List.filter_sublist l)
  exact List.Nodup.sublist hs h

/-- Inlining step of the ref inliner: a truthy string `$ref` not on the
visited path resolves, inlines the target, and merges the node's non-`$ref`
keys over the inlined result. -/
theorem inline_ref_step (fuel : Nat) (kvs : List (String × JVal)) (root : JVal)
    (visited : List String) (r : String) (d : JVal)
    (hget : jgetL kvs "$ref" = some (.str r)) (hr : r ≠ "")
    (hvis : r ∉ visited) (hres : resolve_ref root r = .ok d)
    (hd : isDictB d = true) :
    inline_all_refs (fuel + 1) (.obj kvs) root visited =
      (inline_all_refs fuel d root (r :: visited)).map
        (fun inl => pyUpdate inl (jerase (.obj kvs) "$ref")) := by
  rw [inline_all_refs]
  have h1 : jget (.obj kvs) "$ref" = some (.str r) := hget
  rw [h1]
  simp only [jTruthy, hr, ne_eq, not_false_eq_true, if_true]
  rw [if_neg hvis, hres]
  simp only [Bind.bind, Except.bind, hd, if_true]
  cases inline_all_refs fuel d root (r :: visited) <;> simp only [Except.map] <;> rfl

/-- Lookup facts about the Python merge `{**inlined, **siblings}` with the
`$ref` key removed from the siblings: a sibling key's own value wins, and a
key absent from the siblings falls through to the inlined target's value. -/
theorem merge_lookup (im kvs : List (String × JVal)) (hn : nodupKeys kvs) :
    (∀ k v, k ≠ "$ref" → jgetL kvs k = some v →
      jget (pyUpdate (.obj im) (jerase (.obj kvs) "$ref")) k = some v) ∧
    (∀ k, jgetL kvs k = none →
      jget (pyUpdate (.obj im) (jerase (.obj kvs) "$ref")) k = jgetL im k) := by
  have hne : nodupKeys (jeraseL kvs "$ref") := nodupKeys_jeraseL kvs "$ref" hn
  constructor
  · intro k v hk hkv
    show jgetL (updL im (jeraseL kvs "$ref")) k = some v
    rw [jgetL_updL _ hne, jgetL_jeraseL, if_neg hk, hkv]
  · intro k hkv
    show jgetL (updL im (jeraseL kvs "$ref")) k = jgetL im k
    rw [jgetL_updL _ hne, jgetL_jeraseL]
    by_cases hk : k = "$ref" <;> simp [hk, hkv]

/-- Lookup facts about the strict pass's unravel merge
`(json_schema.update({**resolved, **json_schema})).pop("$ref")`: the node's
own sibling values win over the resolved target's, and keys only in the
resolved target are added. -/
theorem unravel_lookup (dm kvs : List (String × JVal)) (hn : nodupKeys kvs)
    (hdn : nodupKeys dm) :
    (∀ k v, k ≠ "$ref" → jgetL kvs k = some v →
      jget (jerase (pyUpdate (.obj kvs) (pyUpdate (.obj dm) (.obj kvs))) "$ref") k
        = some v) ∧
    (∀ k w, k ≠ "$ref" → jgetL kvs k = none → jgetL dm k = some w →
      jget (jerase (pyUpdate (.obj kvs) (pyUpdate (.obj dm) (.obj kvs))) "$ref") k
        = some w) := by
  have hB : nodupKeys (updL dm kvs) := nodupKeys_updL dm kvs hdn
  constructor
  · intro k v hk hkv
    show jgetL (jeraseL (updL kvs (updL dm kvs)) "$ref") k = some v
    rw [jgetL_jeraseL, if_neg hk, jgetL_updL _ hB, jgetL_updL _ hn, hkv]
  · intro k w hk hkv hdw
    show jgetL (jeraseL (updL kvs (updL dm kvs)) "$ref") k = some w
    rw [jgetL_jeraseL, if_neg hk, jgetL_updL _ hB, jgetL_updL _ hn, hkv, hdw]

theorem bind_ok_iff {α β : Type} (x : Except Err α) (f : α → Except Err β) (b : β) :
    (x >>= f) = .ok b ↔ ∃ a, x = .ok a ∧ f a = .ok b := by
  cases x <;> simp [Bind.bind, Except.bind]

theorem pure_ok {α : Type} (a b : α) :
    (pure a : Except Err α) = .ok b ↔ a = b := by
  constructor
  · intro h; cases h; rfl
  · intro h; cases h; rfl

theorem isDictB_jset (j : JVal) (k : String) (v : JVal)
    (h : isDictB j = true) : isDictB (jset j k v) = true := by
  cases j <;> simp [jset, isDictB] at *

theorem inlineMapStage_isDict (f : JVal → Except Err JVal) (key : String)
    (res res' : JVal) (h : inlineMapStage f key res = .ok res')
    (hres : isDictB res = true) : isDictB res' = true := by
  rw [inlineMapStage] at h
  split at h
  · rw [bind_ok_iff] at h
    obtain ⟨ds', _, h2⟩ := h
    rw [pure_ok] at h2
    exact h2 ▸ isDictB_jset _ _ _ hres
  · rw [pure_ok] at h
    exact h ▸ hres

theorem inlineItemsStage_isDict (f : JVal → Except Err JVal)
    (res res' : JVal) (h : inlineItemsStage f res = .ok res')
    (hres : isDictB res = true) : isDictB res' = true := by
  rw [inlineItemsStage] at h
  split at h
  · split at h
    · rw [bind_ok_iff] at h
      obtain ⟨it', _, h2⟩ := h
      rw [pure_ok] at h2
      exact h2 ▸ isDictB_jset _ _ _ hres
    · rw [pure_ok] at h
      exact h ▸ hres
  · rw [pure_ok] at h
    exact h ▸ hres

theorem inlineListStage_isDict (f : JVal → Except Err JVal) (key : String)
    (res res' : JVal) (h : inlineListStage f key res = .ok res')
    (hres : isDictB res = true) : isDictB res' = true := by
  rw [inlineListStage] at h
  split at h
  · rw [bind_ok_iff] at h
    obtain ⟨vs', _, h2⟩ := h
    rw [pure_ok] at h2
    exact h2 ▸ isDictB_jset _ _ _ hres
  · rw [pure_ok] at h
    exact h ▸ hres

theorem inlineStructural_isDict (f : JVal → Except Err JVal)
    (schema res : JVal) (h : inlineStructural f schema = .ok res)
    (hs : isDictB schema = true) : isDictB res = true := by
  rw [inlineStructural] at h
  rw [bind_ok_iff] at h
  obtain ⟨r1, h1, h⟩ := h
  rw [bind_ok_iff] at h
  obtain ⟨r2, h2, h⟩ := h
  rw [bind_ok_iff] at h
  obtain ⟨r3, h3, h⟩ := h
  rw [bind_ok_iff] at h
  obtain ⟨r4, h4, h⟩ := h
  rw [bind_ok_iff] at h
  obtain ⟨r5, h5, h⟩ := h
  rw [bind_ok_iff] at h
  obtain ⟨r6, h6, h⟩ := h
  rw [pure_ok] at h
  subst h
  exact inlineMapStage_isDict _ _ _ _ h6
    (inlineMapStage_isDict _ _ _ _ h5
      (inlineListStage_isDict _ _ _ _ h4
        (inlineListStage_isDict _ _ _ _ h3
          (inlineItemsStage_isDict _ _ _ h2
            (inlineMapStage_isDict _ _ _ _ h1 hs)))))

/-- `inline_all_refs` only ever returns a dict. -/
theorem inline_returns_obj : ∀ (fuel : Nat) (s root : JVal) (v : List String)
    (o : JVal), inline_all_refs fuel s root v = .ok o → isDictB o = true := by
  intro fuel
  induction fuel with
  | zero => intro s root v o h; rw [inline_all_refs] at h; cases h
  | succ n ih =>
      intro s root v o h
      rcases s with _ | _ | _ | _ | xs | kvs
      case obj =>
        rw [inline_all_refs] at h
        cases hr : jget (.obj kvs) "$ref" with
        | none =>
            rw [hr] at h
            exact inlineStructural_isDict _ _ _ h rfl
        | some rv =>
            rw [hr] at h
            by_cases htr : jTruthy rv = true
            · simp only [htr, if_true] at h
              cases rv with
              | str r =>
                  rw [show (match JVal.str r with
                    | JVal.str r =>
                        if r ∈ v then Except.error (Err.circularRef r)
                        else do
                          let resolved ← resolve_ref root r
                          if isDictB resolved = true then do
                            let inlined ← inline_all_refs n resolved root (r :: v)
                            pure (pyUpdate inlined (jerase (JVal.obj kvs) "$ref"))
                          else Except.error (Err.refNotDict r)
                    | _ => Except.error Err.nonStringRef) =
                    (if r ∈ v then Except.error (Err.circularRef r)
                     else do
                       let resolved ← resolve_ref root r
                       if isDictB resolved = true then do
                         let inlined ← inline_all_refs n resolved root (r :: v)
                         pure (pyUpdate inlined (jerase (JVal.obj kvs) "$ref"))
                       else Except.error (Err.refNotDict r)) from rfl] at h
                  by_cases hv : r ∈ v
                  · rw [if_pos hv] at h
                    cases h
                  · rw [if_neg hv] at h
                    rw [bind_ok_iff] at h
                    obtain ⟨resolved, hres, h⟩ := h
                    by_cases hd : isDictB resolved = true
                    · rw [if_pos hd] at h
                      rw [bind_ok_iff] at h
                      obtain ⟨inlined, hin, h⟩ := h
                      rw [pure_ok] at h
                      subst h
                      have hio := ih _ _ _ _ hin
                      rcases inlined with _ | _ | _ | _ | _ | im
                      · simp [isDictB] at hio
                      · simp [isDictB] at hio
                      · simp [isDictB] at hio
                      · simp [isDictB] at hio
                      · simp [isDictB] at hio
                      · rfl
                    · rw [if_neg hd] at h
                      cases h
              | null => simp at h
              | bool b => simp at h
              | num nn => simp at h
              | arr ys => simp at h
              | obj ms => simp at h
            · have hf : jTruthy rv = false := by simpa using htr
              simp only [hf, Bool.false_eq_true, if_false] at h
              exact inlineStructural_isDict _ _ _ h rfl
      all_goals
        first
        | (have h2 : (pure (JVal.obj []) : Except Err JVal) = .ok o := h
           rw [pure_ok] at h2
           subst h2
           rfl)

/-- C6: when a `$ref` carrying sibling keys is resolved — unraveled by the
strict walker or inlined by the ref inliner — every key present on both the
referencing node and the resolved target keeps the referencing node's local
value in the merged result, and keys present only in the resolved target are
added.  First conjunct: the inliner's merge; second: the strict pass's
unravel (which hands the merged node to reprocessing). -/
theorem ref_sibling_merge_local_wins :
    (∀ (fuel : Nat) (kvs : List (String × JVal)) (root : JVal)
      (visited : List String) (r : String) (d inl : JVal),
      nodupKeys kvs →
      jgetL kvs "$ref" = some (.str r) → r ≠ "" → r ∉ visited →
      resolve_ref root r = .ok d → isDictB d = true →
      inline_all_refs fuel d root (r :: visited) = .ok inl →
      inline_all_refs (fuel + 1) (.obj kvs) root visited =
        .ok (pyUpdate inl (jerase (.obj kvs) "$ref")) ∧
      (∀ k v, k ≠ "$ref" → jgetL kvs k = some v →
        jget (pyUpdate inl (jerase (.obj kvs) "$ref")) k = some v) ∧
      (∀ k, jgetL kvs k = none →
        jget (pyUpdate inl (jerase (.obj kvs) "$ref")) k = jget inl k)) ∧
    (∀ (fuel : Nat) (ctx : JVal → JVal) (kvs dm : List (String × JVal)) (r : String),
      nodupKeys kvs → nodupKeys dm →
      (∀ kv ∈ kvs, kv.1 = "$ref" ∨ kv.1 ∉ (["$defs", "definitions", "type",
        "properties", "items", "anyOf", "allOf", "default"] : List String)) →
      jgetL kvs "$ref" = some (.str r) → r ≠ "" → 1 < kvs.length →
      resolve_ref (ctx (.obj kvs)) r = .ok (.obj dm) →
      strictAux (fuel + 1) ctx (.obj kvs) =
        strictAux fuel ctx
          (jerase (pyUpdate (.obj kvs) (pyUpdate (.obj dm) (.obj kvs))) "$ref") ∧
      (∀ k v, k ≠ "$ref" → jgetL kvs k = some v →
        jget (jerase (pyUpdate (.obj kvs) (pyUpdate (.obj dm) (.obj kvs))) "$ref") k
          = some v) ∧
      (∀ k w, k ≠ "$ref" → jgetL kvs k = none → jgetL dm k = some w →
        jget (jerase (pyUpdate (.obj kvs) (pyUpdate (.obj dm) (.obj kvs))) "$ref") k
          = some w)) := by
  constructor
  · intro fuel kvs root visited r d inl hn hget hr hvis hres hd hin
    have hobj := inline_returns_obj fuel d root (r :: visited) inl hin
    rcases inl with _ | _ | _ | _ | _ | im
    · simp [isDictB] at hobj
    · simp [isDictB] at hobj
    · simp [isDictB] at hobj
    · simp [isDictB] at hobj
    · simp [isDictB] at hobj
    · refine ⟨?_, ?_, ?_⟩
      · rw [inline_ref_step fuel kvs root visited r d hget hr hvis hres hd, hin]
        rfl
      · exact (merge_lookup im kvs hn).1
      · intro k hk
        exact (merge_lookup im kvs hn).2 k hk
  · intro fuel ctx kvs dm r hn hdn hside hget hr hlen hres
    refine ⟨strict_ref_step fuel ctx kvs r (.obj dm) hside hget hr hlen hres rfl,
      (unravel_lookup dm kvs hn hdn).1, (unravel_lookup dm kvs hn hdn).2⟩

/-- A decorated reference node and a root document defining `D`. -/
def refWitnessNode : List (String × JVal) :=
  [("$ref", .str "#/$defs/D"), ("description", .str "dd")]

/-- The root document for the merge witnesses. -/
def refWitnessRoot : JVal :=
  .obj [("$defs", .obj [("D", .obj [("type", .str "string")])])]

theorem ref_sibling_merge_local_wins_witness :
    (inline_all_refs 11 (.obj refWitnessNode) refWitnessRoot [] =
      .ok (pyUpdate (.obj [("type", .str "string")])
        (jerase (.obj refWitnessNode) "$ref"))) ∧
    (strictAux 11 (fun _ => refWitnessRoot) (.obj refWitnessNode) =
      strictAux 10 (fun _ => refWitnessRoot)
        (jerase (pyUpdate (.obj refWitnessNode)
          (pyUpdate (.obj [("type", .str "string")]) (.obj refWitnessNode)))
          "$ref")) :=
  ⟨(ref_sibling_merge_local_wins.1 10 refWitnessNode refWitnessRoot []
      "#/$defs/D" (.obj [("type", .str "string")]) (.obj [("type", .str "string")])
      (by decide) (by decide) (by decide) (by decide) (by decide) rfl (by decide)).1,
    (ref_sibling_merge_local_wins.2 10 (fun _ => refWitnessRoot) refWitnessNode
      [("type", .str "string")] "#/$defs/D" (by decide) (by decide) (by decide)
      (by decide) (by decide) (by decide) (by decide)).1⟩

/-! ## Fuel monotonicity

The fuel parameter only stands for the source's recursion depth: once a run
completes with any outcome other than `Err.fuel`, every larger fuel produces
the same outcome. -/

theorem bind_mono_aux {α β : Type} {x₁ x₂ : Except Err α} {f₁ f₂ : α → Except Err β}
    {r : Except Err β} (h : x₁ >>= f₁ = r) (hr : r ≠ .error .fuel)
    (hx : ∀ r', x₁ = r' → r' ≠ .error .fuel → x₂ = r')
    (hf : ∀ a, x₁ = .ok a → f₁ a = r → f₂ a = r) :
    x₂ >>= f₂ = r := by
  cases hx1 : x₁ with
  | error e =>
      rw [hx1] at h
      simp only [Bind.bind, Except.bind] at h
      subst h
      have he : (Except.error e : Except Err α) ≠ .error .fuel := by
        intro hh
        injection hh with h2
        exact hr (by rw [h2])
      rw [hx _ hx1 he]
      rfl
  | ok a =>
      rw [hx1] at h
      simp only [Bind.bind, Except.bind] at h
      rw [hx _ hx1 (by simp)]
      simp only [Bind.bind, Except.bind]
      exact hf a hx1 h

theorem mapMWithCtx_congr {f₁ f₂ : (JVal → JVal) → JVal → Except Err JVal}
    (Hf : ∀ ctx v r, f₁ ctx v = r → r ≠ .error .fuel → f₂ ctx v = r) :
    ∀ (l : List (String × JVal)) (ctx : List (String × JVal) → JVal)
      (r : Except Err (List (String × JVal))),
    mapMWithCtx f₁ ctx l = r → r ≠ .error .fuel → mapMWithCtx f₂ ctx l = r
  | [], ctx, r => by intro h _; exact h
  | (k, v) :: rest, ctx, r => by
      intro h hr
      rw [mapMWithCtx] at h ⊢
      refine bind_mono_aux h hr (fun r' h' hr' => Hf _ _ _ h' hr') ?_
      intro v' hv' hrest
      refine bind_mono_aux hrest hr
        (fun r' h' hr' => mapMWithCtx_congr Hf rest _ _ h' hr') ?_
      intro rest' _ hpure
      exact hpure

theorem mapMWithCtxL_congr {f₁ f₂ : (JVal → JVal) → JVal → Except Err JVal}
    (Hf : ∀ ctx v r, f₁ ctx v = r → r ≠ .error .fuel → f₂ ctx v = r) :
    ∀ (l : List JVal) (ctx : List JVal → JVal) (r : Except Err (List JVal)),
    mapMWithCtxL f₁ ctx l = r → r ≠ .error .fuel → mapMWithCtxL f₂ ctx l = r
  | [], ctx, r => by intro h _; exact h
  | v :: rest, ctx, r => by
      intro h hr
      rw [mapMWithCtxL] at h ⊢
      refine bind_mono_aux h hr (fun r' h' hr' => Hf _ _ _ h' hr') ?_
      intro v' hv' hrest
      refine bind_mono_aux hrest hr
        (fun r' h' hr' => mapMWithCtxL_congr Hf rest _ _ h' hr') ?_
      intro rest' _ hpure
      exact hpure

theorem stageDefs_mono {f₁ f₂ : (JVal → JVal) → JVal → Except Err JVal}
    (Hf : ∀ ctx v r, f₁ ctx v = r → r ≠ .error .fuel → f₂ ctx v = r)
    (ctx : JVal → JVal) (j : JVal) (key : String) (r : Except Err JVal)
    (h : stageDefs f₁ ctx j key = r) (hr : r ≠ .error .fuel) :
    stageDefs f₂ ctx j key = r := by
  rw [stageDefs] at h ⊢
  cases hm : jget j key with
  | some w =>
      rw [hm] at h
      cases w with
      | obj ds =>
          refine bind_mono_aux h hr
            (fun r' h' hr' => mapMWithCtx_congr Hf ds _ _ h' hr') ?_
          intro a _ hp
          exact hp
      | null => exact h
      | bool b => exact h
      | num n => exact h
      | str s => exact h
      | arr xs => exact h
  | none => rw [hm] at h; exact h

theorem stageProps_mono {f₁ f₂ : (JVal → JVal) → JVal → Except Err JVal}
    (Hf : ∀ ctx v r, f₁ ctx v = r → r ≠ .error .fuel → f₂ ctx v = r)
    (ctx : JVal → JVal) (j : JVal) (r : Except Err JVal)
    (h : stageProps f₁ ctx j = r) (hr : r ≠ .error .fuel) :
    stageProps f₂ ctx j = r := by
  rw [stageProps] at h ⊢
  cases hm : jget j "properties" with
  | some w =>
      rw [hm] at h
      cases w with
      | obj ps =>
          refine bind_mono_aux h hr
            (fun r' h' hr' => mapMWithCtx_congr Hf ps _ _ h' hr') ?_
          intro a _ hp
          exact hp
      | null => exact h
      | bool b => exact h
      | num n => exact h
      | str s => exact h
      | arr xs => exact h
  | none => rw [hm] at h; exact h

theorem stageItems_mono {f₁ f₂ : (JVal → JVal) → JVal → Except Err JVal}
    (Hf : ∀ ctx v r, f₁ ctx v = r → r ≠ .error .fuel → f₂ ctx v = r)
    (ctx : JVal → JVal) (j : JVal) (r : Except Err JVal)
    (h : stageItems f₁ ctx j = r) (hr : r ≠ .error .fuel) :
    stageItems f₂ ctx j = r := by
  rw [stageItems] at h ⊢
  cases hm : jget j "items" with
  | some it =>
      rw [hm] at h
      have h' : (if isDictB it = true then
          (do
            let it' ← f₁ (fun x => ctx (jset j "items" x)) it
            pure (jset j "items" it'))
          else pure j) = r := h
      show (if isDictB it = true then
          (do
            let it' ← f₂ (fun x => ctx (jset j "items" x)) it
            pure (jset j "items" it'))
          else pure j) = r
      by_cases hd : isDictB it = true
      · rw [if_pos hd] at h' ⊢
        refine bind_mono_aux h' hr (fun r' h'' hr' => Hf _ _ _ h'' hr') ?_
        intro a _ hp
        exact hp
      · rw [if_neg hd] at h' ⊢
        exact h'
  | none => rw [hm] at h; exact h

theorem stageAnyOf_mono {f₁ f₂ : (JVal → JVal) → JVal → Except Err JVal}
    (Hf : ∀ ctx v r, f₁ ctx v = r → r ≠ .error .fuel → f₂ ctx v = r)
    (ctx : JVal → JVal) (j : JVal) (r : Except Err JVal)
    (h : stageAnyOf f₁ ctx j = r) (hr : r ≠ .error .fuel) :
    stageAnyOf f₂ ctx j = r := by
  rw [stageAnyOf] at h ⊢
  cases hm : jget j "anyOf" with
  | some w =>
      rw [hm] at h
      cases w with
      | arr vs =>
          refine bind_mono_aux h hr
            (fun r' h' hr' => mapMWithCtxL_congr Hf vs _ _ h' hr') ?_
          intro a _ hp
          exact hp
      | null => exact h
      | bool b => exact h
      | num n => exact h
      | str s => exact h
      | obj ms => exact h
  | none => rw [hm] at h; exact h

theorem stageAllOf_mono {f₁ f₂ : (JVal → JVal) → JVal → Except Err JVal}
    (Hf : ∀ ctx v r, f₁ ctx v = r → r ≠ .error .fuel → f₂ ctx v = r)
    (ctx : JVal → JVal) (j : JVal) (r : Except Err JVal)
    (h : stageAllOf f₁ ctx j = r) (hr : r ≠ .error .fuel) :
    stageAllOf f₂ ctx j = r := by
  rw [stageAllOf] at h ⊢
  cases hm : jget j "allOf" with
  | some w =>
      rw [hm] at h
      cases w with
      | arr vs =>
          match vs with
          | [a] =>
              refine bind_mono_aux h hr (fun r' h' hr' => Hf _ _ _ h' hr') ?_
              intro a' _ hp
              exact hp
          | [] =>
              refine bind_mono_aux h hr
                (fun r' h' hr' => mapMWithCtxL_congr Hf [] _ _ h' hr') ?_
              intro a _ hp
              exact hp
          | a :: b :: t =>
              refine bind_mono_aux h hr
                (fun r' h' hr' => mapMWithCtxL_congr Hf (a :: b :: t) _ _ h' hr') ?_
              intro a' _ hp
              exact hp
      | null => exact h
      | bool b => exact h
      | num n => exact h
      | str s => exact h
      | obj ms => exact h
  | none => rw [hm] at h; exact h

theorem stageRef_mono {f₁ f₂ : (JVal → JVal) → JVal → Except Err JVal}
    (Hf : ∀ ctx v r, f₁ ctx v = r → r ≠ .error .fuel → f₂ ctx v = r)
    (ctx : JVal → JVal) (j : JVal) (r : Except Err JVal)
    (h : stageRef f₁ ctx j = r) (hr : r ≠ .error .fuel) :
    stageRef f₂ ctx j = r := by
  rw [stageRef] at h ⊢
  cases hm : jget j "$ref" with
  | some rv =>
      rw [hm] at h
      cases rv with
      | str s =>
          have h' : (if jTruthy (JVal.str s) = true then
              (if hasMoreThanOneKey j = true then
                (do
                  let resolved ← resolve_ref (ctx j) s
                  if isDictB resolved = true then
                    f₁ ctx (jerase (pyUpdate j (pyUpdate resolved j)) "$ref")
                  else .error (.refNotDict s))
              else pure j)
            else pure j) = r := h
          show (if jTruthy (JVal.str s) = true then
              (if hasMoreThanOneKey j = true then
                (do
                  let resolved ← resolve_ref (ctx j) s
                  if isDictB resolved = true then
                    f₂ ctx (jerase (pyUpdate j (pyUpdate resolved j)) "$ref")
                  else .error (.refNotDict s))
              else pure j)
            else pure j) = r
          by_cases ht : jTruthy (JVal.str s) = true
          · rw [if_pos ht] at h' ⊢
            by_cases hk : hasMoreThanOneKey j = true
            · rw [if_pos hk] at h' ⊢
              refine bind_mono_aux h' hr (fun r' h'' _ => h'') ?_
              intro a _ hbody
              by_cases hd : isDictB a = true
              · rw [if_pos hd] at hbody ⊢
                exact Hf _ _ _ hbody hr
              · rw [if_neg hd] at hbody ⊢
                exact hbody
            · rw [if_neg hk] at h' ⊢
              exact h'
          · rw [if_neg ht] at h' ⊢
            exact h'
      | null => exact h
      | bool b => exact h
      | num n => exact h
      | arr xs => exact h
      | obj ms => exact h
  | none => rw [hm] at h; exact h

/-- Fuel monotonicity of the strict pass: a non-fuel outcome is stable under
increasing fuel. -/
theorem strictAux_mono : ∀ (f : Nat), ∀ (g : Nat), f ≤ g →
    ∀ (ctx : JVal → JVal) (j : JVal) (r : Except Err JVal),
    strictAux f ctx j = r → r ≠ .error .fuel → strictAux g ctx j = r := by
  intro f
  induction f with
  | zero =>
      intro g hg ctx j r h hr
      rw [strictAux] at h
      subst h
      exact absurd rfl hr
  | succ n ih =>
      intro g hg ctx j r h hr
      obtain ⟨g', rfl⟩ : ∃ g', g = g' + 1 := ⟨g - 1, by omega⟩
      have Hf : ∀ ctx' v r', strictAux n ctx' v = r' → r' ≠ .error .fuel →
          strictAux g' ctx' v = r' := fun ctx' v r' => ih g' (by omega) ctx' v r'
      cases j with
      | obj kvs =>
          rw [strictAux] at h ⊢
          refine bind_mono_aux h hr (fun r' h' hr' => stageDefs_mono Hf _ _ _ _ h' hr') ?_
          intro j1 _ h
          refine bind_mono_aux h hr (fun r' h' hr' => stageDefs_mono Hf _ _ _ _ h' hr') ?_
          intro j2 _ h
          refine bind_mono_aux h hr (fun r' h' _ => h') ?_
          intro j3 _ h
          refine bind_mono_aux h hr (fun r' h' hr' => stageProps_mono Hf _ _ _ h' hr') ?_
          intro j4 _ h
          refine bind_mono_aux h hr (fun r' h' hr' => stageItems_mono Hf _ _ _ h' hr') ?_
          intro j5 _ h
          refine bind_mono_aux h hr (fun r' h' hr' => stageAnyOf_mono Hf _ _ _ h' hr') ?_
          intro j6 _ h
          refine bind_mono_aux h hr (fun r' h' hr' => stageAllOf_mono Hf _ _ _ h' hr') ?_
          intro j7 _ h
          exact stageRef_mono Hf _ _ _ h hr
      | null => exact h
      | bool b => exact h
      | num nn => exact h
      | str s => exact h
      | arr xs => exact h

theorem mapMKV_congr {f₁ f₂ : JVal → Except Err JVal}
    (Hf : ∀ v r, f₁ v = r → r ≠ .error .fuel → f₂ v = r) :
    ∀ (l : List (String × JVal)) (r : Except Err (List (String × JVal))),
    mapMKV f₁ l = r → r ≠ .error .fuel → mapMKV f₂ l = r
  | [], r => by intro h _; exact h
  | (k, v) :: rest, r => by
      intro h hr
      rw [mapMKV] at h ⊢
      refine bind_mono_aux h hr (fun r' h' hr' => Hf _ _ h' hr') ?_
      intro v' _ hrest
      refine bind_mono_aux hrest hr
        (fun r' h' hr' => mapMKV_congr Hf rest _ h' hr') ?_
      intro rest' _ hp
      exact hp

theorem mapMJ_congr {f₁ f₂ : JVal → Except Err JVal}
    (Hf : ∀ v r, f₁ v = r → r ≠ .error .fuel → f₂ v = r) :
    ∀ (l : List JVal) (r : Except Err (List JVal)),
    mapMJ f₁ l = r → r ≠ .error .fuel → mapMJ f₂ l = r
  | [], r => by intro h _; exact h
  | v :: rest, r => by
      intro h hr
      rw [mapMJ] at h ⊢
      refine bind_mono_aux h hr (fun r' h' hr' => Hf _ _ h' hr') ?_
      intro v' _ hrest
      refine bind_mono_aux hrest hr
        (fun r' h' hr' => mapMJ_congr Hf rest _ h' hr') ?_
      intro rest' _ hp
      exact hp

theorem inlineMapStage_mono {f₁ f₂ : JVal → Except Err JVal}
    (Hf : ∀ v r, f₁ v = r → r ≠ .error .fuel → f₂ v = r)
    (key : String) (res : JVal) (r : Except Err JVal)
    (h : inlineMapStage f₁ key res = r) (hr : r ≠ .error .fuel) :
    inlineMapStage f₂ key res = r := by
  rw [inlineMapStage] at h ⊢
  cases hm : jget res key with
  | some w =>
      rw [hm] at h
      cases w with
      | obj ds =>
          refine bind_mono_aux h hr (fun r' h' hr' => mapMKV_congr Hf ds _ h' hr') ?_
          intro a _ hp
          exact hp
      | null => exact h
      | bool b => exact h
      | num n => exact h
      | str s => exact h
      | arr xs => exact h
  | none => rw [hm] at h; exact h

theorem inlineItemsStage_mono {f₁ f₂ : JVal → Except Err JVal}
    (Hf : ∀ v r, f₁ v = r → r ≠ .error .fuel → f₂ v = r)
    (res : JVal) (r : Except Err JVal)
    (h : inlineItemsStage f₁ res = r) (hr : r ≠ .error .fuel) :
    inlineItemsStage f₂ res = r := by
  rw [inlineItemsStage] at h ⊢
  cases hm : jget res "items" with
  | some it =>
      rw [hm] at h
      have h' : (if isDictB it = true then
          (do
            let it' ← f₁ it
            pure (jset res "items" it'))
          else pure res) = r := h
      show (if isDictB it = true then
          (do
            let it' ← f₂ it
            pure (jset res "items" it'))
          else pure res) = r
      by_cases hd : isDictB it = true
      · rw [if_pos hd] at h' ⊢
        refine bind_mono_aux h' hr (fun r' h'' hr' => Hf _ _ h'' hr') ?_
        intro a _ hp
        exact hp
      · rw [if_neg hd] at h' ⊢
        exact h'
  | none => rw [hm] at h; exact h

theorem inlineListStage_mono {f₁ f₂ : JVal → Except Err JVal}
    (Hf : ∀ v r, f₁ v = r → r ≠ .error .fuel → f₂ v = r)
    (key : String) (res : JVal) (r : Except Err JVal)
    (h : inlineListStage f₁ key res = r) (hr : r ≠ .error .fuel) :
    inlineListStage f₂ key res = r := by
  rw [inlineListStage] at h ⊢
  cases hm : jget res key with
  | some w =>
      rw [hm] at h
      cases w with
      | arr vs =>
          refine bind_mono_aux h hr (fun r' h' hr' => mapMJ_congr Hf vs _ h' hr') ?_
          intro a _ hp
          exact hp
      | null => exact h
      | bool b => exact h
      | num n => exact h
      | str s => exact h
      | obj ms => exact h
  | none => rw [hm] at h; exact h

theorem inlineStructural_mono {f₁ f₂ : JVal → Except Err JVal}
    (Hf : ∀ v r, f₁ v = r → r ≠ .error .fuel → f₂ v = r)
    (schema : JVal) (r : Except Err JVal)
    (h : inlineStructural f₁ schema = r) (hr : r ≠ .error .fuel) :
    inlineStructural f₂ schema = r := by
  rw [inlineStructural] at h ⊢
  refine bind_mono_aux h hr (fun r' h' hr' => inlineMapStage_mono Hf _ _ _ h' hr') ?_
  intro r1 _ h
  refine bind_mono_aux h hr (fun r' h' hr' => inlineItemsStage_mono Hf _ _ h' hr') ?_
  intro r2 _ h
  refine bind_mono_aux h hr (fun r' h' hr' => inlineListStage_mono Hf _ _ _ h' hr') ?_
  intro r3 _ h
  refine bind_mono_aux h hr (fun r' h' hr' => inlineListStage_mono Hf _ _ _ h' hr') ?_
  intro r4 _ h
  refine bind_mono_aux h hr (fun r' h' hr' => inlineMapStage_mono Hf _ _ _ h' hr') ?_
  intro r5 _ h
  refine bind_mono_aux h hr (fun r' h' hr' => inlineMapStage_mono Hf _ _ _ h' hr') ?_
  intro r6 _ hp
  exact hp

/-- Fuel monotonicity of the ref inliner. -/
theorem inline_all_refs_mono : ∀ (f : Nat), ∀ (g : Nat), f ≤ g →
    ∀ (schema root : JVal) (visited : List String) (r : Except Err JVal),
    inline_all_refs f schema root visited = r → r ≠ .error .fuel →
    inline_all_refs g schema root visited = r := by
  intro f
  induction f with
  | zero =>
      intro g hg schema root visited r h hr
      rw [inline_all_refs] at h
      subst h
      exact absurd rfl hr
  | succ n ih =>
      intro g hg schema root visited r h hr
      obtain ⟨g', rfl⟩ : ∃ g', g = g' + 1 := ⟨g - 1, by omega⟩
      have Hf : ∀ v r', inline_all_refs n v root visited = r' →
          r' ≠ .error .fuel → inline_all_refs g' v root visited = r' :=
        fun v r' => ih g' (by omega) v root visited r'
      cases schema with
      | obj kvs =>
          rw [inline_all_refs] at h ⊢
          cases hm : jget (JVal.obj kvs) "$ref" with
          | some rv =>
              rw [hm] at h
              cases rv with
              | str s =>
                  have h' : (if jTruthy (JVal.str s) = true then
                      (if s ∈ visited then .error (.circularRef s)
                       else do
                         let resolved ← resolve_ref root s
                         if isDictB resolved = true then do
                           let inlined ← inline_all_refs n resolved root (s :: visited)
                           pure (pyUpdate inlined (jerase (JVal.obj kvs) "$ref"))
                         else .error (.refNotDict s))
                    else inlineStructural
                      (fun x => inline_all_refs n x root visited) (JVal.obj kvs)) = r := h
                  show (if jTruthy (JVal.str s) = true then
                      (if s ∈ visited then .error (.circularRef s)
                       else do
                         let resolved ← resolve_ref root s
                         if isDictB resolved = true then do
                           let inlined ← inline_all_refs g' resolved root (s :: visited)
                           pure (pyUpdate inlined (jerase (JVal.obj kvs) "$ref"))
                         else .error (.refNotDict s))
                    else inlineStructural
                      (fun x => inline_all_refs g' x root visited) (JVal.obj kvs)) = r
                  by_cases ht : jTruthy (JVal.str s) = true
                  · rw [if_pos ht] at h' ⊢
                    by_cases hv : s ∈ visited
                    · rw [if_pos hv] at h' ⊢
                      exact h'
                    · rw [if_neg hv] at h' ⊢
                      refine bind_mono_aux h' hr (fun r' h'' _ => h'') ?_
                      intro resolved _ hbody
                      by_cases hd : isDictB resolved = true
                      · rw [if_pos hd] at hbody ⊢
                        refine bind_mono_aux hbody hr
                          (fun r' h'' hr' => ih g' (by omega) _ _ _ _ h'' hr') ?_
                        intro inl _ hp
                        exact hp
                      · rw [if_neg hd] at hbody ⊢
                        exact hbody
                  · rw [if_neg ht] at h' ⊢
                    exact inlineStructural_mono Hf _ _ h' hr
              | null =>
                  have h' : (if jTruthy (JVal.null) = true then
                      (Except.error Err.nonStringRef : Except Err JVal)
                    else inlineStructural
                      (fun x => inline_all_refs n x root visited) (JVal.obj kvs)) = r := h
                  show (if jTruthy (JVal.null) = true then
                      (Except.error Err.nonStringRef : Except Err JVal)
                    else inlineStructural
                      (fun x => inline_all_refs g' x root visited) (JVal.obj kvs)) = r
                  by_cases ht : jTruthy (JVal.null) = true
                  · rw [if_pos ht] at h' ⊢
                    exact h'
                  · rw [if_neg ht] at h' ⊢
                    exact inlineStructural_mono Hf _ _ h' hr
              | bool b =>
                  have h' : (if jTruthy (JVal.bool b) = true then
                      (Except.error Err.nonStringRef : Except Err JVal)
                    else inlineStructural
                      (fun x => inline_all_refs n x root visited) (JVal.obj kvs)) = r := h
                  show (if jTruthy (JVal.bool b) = true then
                      (Except.error Err.nonStringRef : Except Err JVal)
                    else inlineStructural
                      (fun x => inline_all_refs g' x root visited) (JVal.obj kvs)) = r
                  by_cases ht : jTruthy (JVal.bool b) = true
                  · rw [if_pos ht] at h' ⊢
                    exact h'
                  · rw [if_neg ht] at h' ⊢
                    exact inlineStructural_mono Hf _ _ h' hr
              | num nn =>
                  have h' : (if jTruthy (JVal.num nn) = true then
                      (Except.error Err.nonStringRef : Except Err JVal)
                    else inlineStructural
                      (fun x => inline_all_refs n x root visited) (JVal.obj kvs)) = r := h
                  show (if jTruthy (JVal.num nn) = true then
                      (Except.error Err.nonStringRef : Except Err JVal)
                    else inlineStructural
                      (fun x => inline_all_refs g' x root visited) (JVal.obj kvs)) = r
                  by_cases ht : jTruthy (JVal.num nn) = true
                  · rw [if_pos ht] at h' ⊢
                    exact h'
                  · rw [if_neg ht] at h' ⊢
                    exact inlineStructural_mono Hf _ _ h' hr
              | arr xs =>
                  have h' : (if jTruthy (JVal.arr xs) = true then
                      (Except.error Err.nonStringRef : Except Err JVal)
                    else inlineStructural
                      (fun x => inline_all_refs n x root visited) (JVal.obj kvs)) = r := h
                  show (if jTruthy (JVal.arr xs) = true then
                      (Except.error Err.nonStringRef : Except Err JVal)
                    else inlineStructural
                      (fun x => inline_all_refs g' x root visited) (JVal.obj kvs)) = r
                  by_cases ht : jTruthy (JVal.arr xs) = true
                  · rw [if_pos ht] at h' ⊢
                    exact h'
                  · rw [if_neg ht] at h' ⊢
                    exact inlineStructural_mono Hf _ _ h' hr
              | obj ms =>
                  have h' : (if jTruthy (JVal.obj ms) = true then
                      (Except.error Err.nonStringRef : Except Err JVal)
                    else inlineStructural
                      (fun x => inline_all_refs n x root visited) (JVal.obj kvs)) = r := h
                  show (if jTruthy (JVal.obj ms) = true then
                      (Except.error Err.nonStringRef : Except Err JVal)
                    else inlineStructural
                      (fun x => inline_all_refs g' x root visited) (JVal.obj kvs)) = r
                  by_cases ht : jTruthy (JVal.obj ms) = true
                  · rw [if_pos ht] at h' ⊢
                    exact h'
                  · rw [if_neg ht] at h' ⊢
                    exact inlineStructural_mono Hf _ _ h' hr
          | none =>
              rw [hm] at h
              exact inlineStructural_mono Hf _ _ h hr
      | null => exact h
      | bool b => exact h
      | num nn => exact h
      | str s => exact h
      | arr xs => exact h

/-- Fuel monotonicity of the public normalizer. -/
theorem ensure_strict_json_schema_mono (f g : Nat) (hg : f ≤ g) (schema : JVal)
    (r : Except Err JVal) (h : ensure_strict_json_schema f schema = r)
    (hr : r ≠ .error .fuel) : ensure_strict_json_schema g schema = r := by
  rw [ensure_strict_json_schema] at h ⊢
  by_cases he : schema = .obj []
  · rw [if_pos he] at h ⊢
    exact h
  · rw [if_neg he] at h ⊢
    refine bind_mono_aux h hr (fun r' h' hr' => strictAux_mono f g hg _ _ _ h' hr') ?_
    intro s _ h
    refine bind_mono_aux h hr
      (fun r' h' hr' => inline_all_refs_mono f g hg _ _ _ _ h' hr') ?_
    intro i _ hp
    exact hp

/-- The spec's canonical cyclic schema: definition `Node` whose subtree
references itself through `#/$defs/Node`, reached from a root property. -/
def schemaCycle : JVal :=
  .obj [("type", .str "object"),
    ("properties", .obj [("node", .obj [("$ref", .str "#/$defs/Node")])]),
    ("$defs", .obj [("Node", .obj [("type", .str "object"),
      ("properties", .obj [("next", .obj [("$ref", .str "#/$defs/Node")])])])])]

/-- The spec's diamond schema: two sibling properties referencing the same
definition. -/
def schemaDiamond : JVal :=
  .obj [("type", .str "object"),
    ("properties", .obj [
      ("l", .obj [("$ref", .str "#/$defs/D")]),
      ("r", .obj [("$ref", .str "#/$defs/D")])]),
    ("$defs", .obj [("D", .obj [("type", .str "string")])])]

/-- `normalize(schemaDiamond)`: both branches independently inlined. -/
def diamondOut : JVal :=
  .obj [("type", .str "object"),
    ("properties", .obj [
      ("l", .obj [("type", .str "string")]),
      ("r", .obj [("type", .str "string")])]),
    ("additionalProperties", .bool false),
    ("required", .arr [.str "l", .str "r"])]

/-- A decorated self-referential definition: `$defs.Node` carries its own
`$ref: #/$defs/Node` together with a sibling key, so the `$ref` pointer
occurs on its own resolution path. -/
def decoratedCycle : JVal :=
  .obj [("type", .str "object"),
    ("properties", .obj [("node", .obj [("$ref", .str "#/$defs/Node")])]),
    ("$defs", .obj [("Node", .obj [("$ref", .str "#/$defs/Node"),
      ("description", .str "d")])])]

/-- `normalize(decoratedCycle)`: the strict pass unravels the decorated ref
(merging the node over its own resolved target and dropping `$ref`), so the
definition collapses to `{description: "d"}` and normalization succeeds. -/
def decoratedCycleOut : JVal :=
  .obj [("type", .str "object"),
    ("properties", .obj [("node", .obj [("description", .str "d")])]),
    ("additionalProperties", .bool false),
    ("required", .arr [.str "node"])]

/-- C4: cycle detection lives in the ref inliner and its `visited` set is
path-scoped.  First, universally: whenever `inline_all_refs` reaches a node
whose (truthy) `$ref` pointer is already on the current resolution path, it
fails with the circular-reference error naming that pointer — for every
document, root, visited path and positive recursion budget.  Hence the
canonical bare self-reference `Node → #/$defs/Node`, whose single-key ref
node survives the strict pass untouched, makes `normalize` fail with
`Circular reference detected: #/$defs/Node` at every sufficient budget
(deterministically — the outcome is stable in the fuel); and because
`visited` is passed by value down each branch, the diamond schema (two
sibling references to the same definition) normalizes with both branches
fully inlined. -/
theorem cycle_check_is_inliner_path_scoped :
    (∀ fuel root visited kvs r,
      jgetL kvs "$ref" = some (.str r) → r ≠ "" → r ∈ visited →
      inline_all_refs (fuel + 1) (.obj kvs) root visited =
        .error (.circularRef r)) ∧
    (∀ fuel, 20 ≤ fuel →
      ensure_strict_json_schema fuel schemaCycle =
        .error (.circularRef "#/$defs/Node")) ∧
    (∀ fuel, 20 ≤ fuel →
      ensure_strict_json_schema fuel schemaDiamond = .ok diamondOut) := by
  refine ⟨?_, ?_, ?_⟩
  · intro fuel root visited kvs r hget hr hmem
    rw [inline_all_refs]
    have h1 : jget (.obj kvs) "$ref" = some (.str r) := hget
    rw [h1]
    simp only [jTruthy, hr, ne_eq, not_false_eq_true, if_true, hmem]
    simp
  · intro fuel h
    exact ensure_strict_json_schema_mono 20 fuel h _ _ (by decide) (by decide)
  · intro fuel h
    exact ensure_strict_json_schema_mono 20 fuel h _ _ (by decide) (by decide)

theorem cycle_check_is_inliner_path_scoped_witness :
    inline_all_refs 5 (.obj [("$ref", .str "#/$defs/Node")]) schemaCycle
        ["#/$defs/Node"] = .error (.circularRef "#/$defs/Node") ∧
    ensure_strict_json_schema 20 schemaCycle =
      .error (.circularRef "#/$defs/Node") ∧
    ensure_strict_json_schema 20 schemaDiamond = .ok diamondOut :=
  ⟨cycle_check_is_inliner_path_scoped.1 4 schemaCycle ["#/$defs/Node"]
      [("$ref", .str "#/$defs/Node")] "#/$defs/Node" (by decide) (by decide)
      (by decide),
    cycle_check_is_inliner_path_scoped.2.1 20 le_rfl,
    cycle_check_is_inliner_path_scoped.2.2 20 le_rfl⟩

/-! ## Well-formedness and output invariants

`tame` is the class of documents the claims quantify over ("well-formed"
per the spec's §3 data model, rendered on the JSON encoding), and is also
the invariant every intermediate state of the strict pass maintains; the
flag is `true` only where `$defs` / `definitions` containers may appear
(the document root).  `sout` is the strict pass's output invariant, and
`sout` plus `$ref`-freedom is the normalizer's output invariant. -/

mutual
/-- No dict anywhere inside: the shape of pass-through annotation values
(descriptions, enums, defaults, required lists…), which no stage of either
pass ever recurses into. -/
def NoDictV : JVal → Bool
  | .obj _ => false
  | .arr xs => NoDictL xs
  | _ => true
def NoDictL : List JVal → Bool
  | [] => true
  | x :: xs => NoDictV x && NoDictL xs
end

mutual
/-- No dict at any depth carries the given key. -/
def noKeyDeep (key : String) : JVal → Bool
  | .obj kvs => noKeyDeepKVs key kvs
  | .arr xs => noKeyDeepL key xs
  | _ => true
def noKeyDeepKVs (key : String) : List (String × JVal) → Bool
  | [] => true
  | (k, v) :: rest => !(k == key) && noKeyDeep key v && noKeyDeepKVs key rest
def noKeyDeepL (key : String) : List JVal → Bool
  | [] => true
  | v :: rest => noKeyDeep key v && noKeyDeepL key rest
end

mutual
/-- Nesting depth of a value. -/
def jdepth : JVal → Nat
  | .obj kvs => 1 + jdepthKVs kvs
  | .arr xs => 1 + jdepthL xs
  | _ => 0
def jdepthKVs : List (String × JVal) → Nat
  | [] => 0
  | (_, v) :: rest => max (jdepth v) (jdepthKVs rest)
def jdepthL : List JVal → Nat
  | [] => 0
  | v :: rest => max (jdepth v) (jdepthL rest)
end

/-- Duplicate-free keys, as a boolean. -/
def keysNodupB (l : List (String × JVal)) : Bool := decide (nodupKeys l)

/-- The node declares `type: object` (the strict pass's object test). -/
def isObjTyped (kvs : List (String × JVal)) : Bool :=
  decide (jgetL kvs "type" = some (.str "object"))

/-- A pointer of the document-model shape `#/$defs/<name>` or
`#/definitions/<name>` (the name being slash-free). -/
def refOk (r : String) : Bool :=
  match refSegs r with
  | some [dk, _] => dk == "$defs" || dk == "definitions"
  | _ => false

/-- An object-typed node carries a `properties` dict (§3: `Object` owns its
properties map). -/
def hasPropsIfObject (kvs : List (String × JVal)) : Bool :=
  !isObjTyped kvs ||
    (match jgetL kvs "properties" with
     | some (.obj _) => true
     | _ => false)

/-- A `required` list only ever accompanies a `properties` dict. -/
def reqImpliesProps (kvs : List (String × JVal)) : Bool :=
  match jgetL kvs "required" with
  | none => true
  | some _ =>
      match jgetL kvs "properties" with
      | some (.obj _) => true
      | _ => false

/-- Strict-output closure at one node: an object-typed node carries
`additionalProperties: false`. -/
def stClosed (kvs : List (String × JVal)) : Bool :=
  !isObjTyped kvs ||
    decide (jgetL kvs "additionalProperties" = some (.bool false))

/-- Strict-output `required` exactness: `required` is the `properties` key
list (declaration order) when `properties` is present, and absent
otherwise. -/
def propReqExact (kvs : List (String × JVal)) : Bool :=
  match jgetL kvs "properties" with
  | some (.obj ps) =>
      decide (jgetL kvs "required" = some (.arr (ps.map (fun kv => JVal.str kv.1))))
  | _ => decide (jgetL kvs "required" = none)

/-- Strict-output `$ref` shape: any remaining reference is bare. -/
def bareRefOnly (kvs : List (String × JVal)) : Bool :=
  match jgetL kvs "$ref" with
  | some _ => decide (kvs.length = 1)
  | none => true

/-- Strict output carries no `default: null`. -/
def noNullDefault (kvs : List (String × JVal)) : Bool :=
  decide (jgetL kvs "default" ≠ some .null)

/-- Strict output carries no single-member `allOf` (they are spliced). -/
def allOfLenOk (kvs : List (String × JVal)) : Bool :=
  match jgetL kvs "allOf" with
  | some (.arr vs) => decide (vs.length ≠ 1)
  | some _ => false
  | none => true

mutual
/-- Well-formed schema nodes away from the document root (no definition
containers): the spec's §3 data model on the JSON encoding, which is also
the invariant every intermediate state of the strict pass maintains. -/
def tame0 : JVal → Bool
  | .obj kvs =>
      keysNodupB kvs && hasPropsIfObject kvs && reqImpliesProps kvs && tameKVs0 kvs
  | _ => false
def tameKVs0 : List (String × JVal) → Bool
  | [] => true
  | (k, v) :: rest =>
      (if k = "$ref" then
        match v with
        | .str r => refOk r
        | _ => false
      else if k = "properties" then tameDict0 v
      else if k = "items" then (if isDictB v then tame0 v else NoDictV v)
      else if k = "anyOf" then tameList0 v
      else if k = "allOf" then tameList0 v
      else if k = "additionalProperties" then decide (v = .bool false)
      else if k = "$defs" then false && tameDict0 v
      else if k = "definitions" then false && tameDict0 v
      else NoDictV v) && tameKVs0 rest
def tameDict0 : JVal → Bool
  | .obj ds => tameVals0 ds
  | _ => false
def tameVals0 : List (String × JVal) → Bool
  | [] => true
  | (_, v) :: rest => tame0 v && tameVals0 rest
def tameList0 : JVal → Bool
  | .arr vs => tameElems0 vs
  | _ => false
def tameElems0 : List JVal → Bool
  | [] => true
  | v :: rest => tame0 v && tameElems0 rest
end

/-- One entry's well-formedness condition; `b` tells whether definition
containers are allowed here (only at the document root). -/
def tameEntryB (b : Bool) (k : String) (v : JVal) : Bool :=
  if k = "$ref" then
    match v with
    | .str r => refOk r
    | _ => false
  else if k = "properties" then tameDict0 v
  else if k = "items" then (if isDictB v then tame0 v else NoDictV v)
  else if k = "anyOf" then tameList0 v
  else if k = "allOf" then tameList0 v
  else if k = "additionalProperties" then decide (v = .bool false)
  else if k = "$defs" then b && tameDict0 v
  else if k = "definitions" then b && tameDict0 v
  else NoDictV v

def tameKVsB : Bool → List (String × JVal) → Bool
  | _, [] => true
  | b, (k, v) :: rest => tameEntryB b k v && tameKVsB b rest

/-- Well-formed documents: `tameB true` at the root (definition containers
allowed), `tameB false` below. -/
def tameB (b : Bool) (j : JVal) : Bool :=
  match j with
  | .obj kvs =>
      keysNodupB kvs && hasPropsIfObject kvs && reqImpliesProps kvs && tameKVsB b kvs
  | _ => false

mutual
/-- The strict pass's per-node output invariant away from the root. -/
def sout0 : JVal → Bool
  | .obj kvs =>
      keysNodupB kvs && hasPropsIfObject kvs && stClosed kvs && propReqExact kvs &&
        bareRefOnly kvs && noNullDefault kvs && allOfLenOk kvs && soutKVs0 kvs
  | _ => false
def soutKVs0 : List (String × JVal) → Bool
  | [] => true
  | (k, v) :: rest =>
      (if k = "$ref" then
        match v with
        | .str r => refOk r
        | _ => false
      else if k = "properties" then soutDict0 v
      else if k = "items" then (if isDictB v then sout0 v else NoDictV v)
      else if k = "anyOf" then soutList0 v
      else if k = "allOf" then soutList0 v
      else if k = "additionalProperties" then decide (v = .bool false)
      else if k = "$defs" then false && soutDict0 v
      else if k = "definitions" then false && soutDict0 v
      else NoDictV v) && soutKVs0 rest
def soutDict0 : JVal → Bool
  | .obj ds => soutVals0 ds
  | _ => false
def soutVals0 : List (String × JVal) → Bool
  | [] => true
  | (_, v) :: rest => sout0 v && soutVals0 rest
def soutList0 : JVal → Bool
  | .arr vs => soutElems0 vs
  | _ => false
def soutElems0 : List JVal → Bool
  | [] => true
  | v :: rest => sout0 v && soutElems0 rest
end

/-- One entry's strict-output condition. -/
def soutEntryB (b : Bool) (k : String) (v : JVal) : Bool :=
  if k = "$ref" then
    match v with
    | .str r => refOk r
    | _ => false
  else if k = "properties" then soutDict0 v
  else if k = "items" then (if isDictB v then sout0 v else NoDictV v)
  else if k = "anyOf" then soutList0 v
  else if k = "allOf" then soutList0 v
  else if k = "additionalProperties" then decide (v = .bool false)
  else if k = "$defs" then b && soutDict0 v
  else if k = "definitions" then b && soutDict0 v
  else NoDictV v

def soutKVsB : Bool → List (String × JVal) → Bool
  | _, [] => true
  | b, (k, v) :: rest => soutEntryB b k v && soutKVsB b rest

/-- The strict pass's output invariant; `b` allows definition containers
(at the root only). -/
def soutB (b : Bool) (j : JVal) : Bool :=
  match j with
  | .obj kvs =>
      keysNodupB kvs && hasPropsIfObject kvs && stClosed kvs && propReqExact kvs &&
        bareRefOnly kvs && noNullDefault kvs && allOfLenOk kvs && soutKVsB b kvs
  | _ => false


/-! ## Membership and characterization lemmas for the invariants -/

theorem jgetL_some_mem : ∀ (l : List (String × JVal)) (k : String) (v : JVal),
    jgetL l k = some v → (k, v) ∈ l
  | [], k, v => by intro h; simp [jgetL] at h
  | (k0, v0) :: t, k, v => by
      intro h
      by_cases h0 : k0 = k
      · subst h0
        simp only [jgetL, if_pos rfl] at h
        cases h
        exact List.mem_cons_self _ _
      · simp only [jgetL, if_neg h0] at h
        exact List.mem_cons_of_mem _ (jgetL_some_mem t k v h)

theorem mem_jgetL : ∀ (l : List (String × JVal)), nodupKeys l →
    ∀ (k : String) (v : JVal), (k, v) ∈ l → jgetL l k = some v
  | [], _, k, v => by intro h; simp at h
  | (k0, v0) :: t, hn, k, v => by
      intro h
      have hn2 := List.nodup_cons.mp hn
      rcases List.mem_cons.mp h with h1 | h1
      · cases h1; simp [jgetL]
      · have hk : k0 ≠ k := by
          intro he
          subst he
          exact hn2.1 (List.mem_map.mpr ⟨(k0, v), h1, rfl⟩)
        simp only [jgetL, if_neg hk]
        exact mem_jgetL t hn2.2 k v h1

theorem mem_jsetL : ∀ (l : List (String × JVal)) (k : String) (v : JVal)
    (kv : String × JVal), kv ∈ jsetL l k v → kv = (k, v) ∨ kv ∈ l
  | [], k, v, kv => by
      intro h
      have h' : kv ∈ [(k, v)] := h
      simp at h'
      exact Or.inl h'
  | (k0, v0) :: t, k, v, kv => by
      intro h
      have h' : kv ∈ (if k0 = k then (k0, v) :: t else (k0, v0) :: jsetL t k v) := h
      by_cases h0 : k0 = k
      · rw [if_pos h0] at h'
        rcases List.mem_cons.mp h' with h1 | h1
        · rw [h0] at h1
          exact Or.inl h1
        · exact Or.inr (List.mem_cons_of_mem _ h1)
      · rw [if_neg h0] at h'
        rcases List.mem_cons.mp h' with h1 | h1
        · right
          rw [h1]
          exact List.mem_cons_self _ _
        · rcases mem_jsetL t k v kv h1 with h2 | h2
          · exact Or.inl h2
          · exact Or.inr (List.mem_cons_of_mem _ h2)

theorem mem_jeraseL (l : List (String × JVal)) (k : String)
    (kv : String × JVal) (h : kv ∈ jeraseL l k) : kv ∈ l ∧ kv.1 ≠ k := by
  have h' := List.mem_filter.mp h
  refine ⟨h'.1, ?_⟩
  simpa using h'.2

theorem mem_updL : ∀ (b a : List (String × JVal)) (kv : String × JVal),
    kv ∈ updL a b → kv ∈ a ∨ kv ∈ b
  | [], a, kv => fun h => Or.inl h
  | x :: t, a, kv => by
      intro h
      rw [updL_cons] at h
      rcases mem_updL t (jsetL a x.1 x.2) kv h with h1 | h1
      · rcases mem_jsetL a x.1 x.2 kv h1 with h2 | h2
        · right
          rw [h2]
          exact List.mem_cons_self _ _
        · exact Or.inl h2
      · exact Or.inr (List.mem_cons_of_mem _ h1)

theorem tameKVs0_eq : ∀ l : List (String × JVal), tameKVs0 l = tameKVsB false l
  | [] => rfl
  | (k, v) :: t => by
      rw [show tameKVs0 ((k, v) :: t) = (tameEntryB false k v && tameKVs0 t) from rfl]
      rw [show tameKVsB false ((k, v) :: t) = (tameEntryB false k v && tameKVsB false t) from rfl]
      rw [tameKVs0_eq t]

theorem tame0_eq : ∀ j : JVal, tame0 j = tameB false j
  | .obj kvs => by
      rw [show tame0 (.obj kvs) = (keysNodupB kvs && hasPropsIfObject kvs &&
        reqImpliesProps kvs && tameKVs0 kvs) from rfl]
      rw [show tameB false (.obj kvs) = (keysNodupB kvs && hasPropsIfObject kvs &&
        reqImpliesProps kvs && tameKVsB false kvs) from rfl]
      rw [tameKVs0_eq]
  | .null => rfl
  | .bool _ => rfl
  | .num _ => rfl
  | .str _ => rfl
  | .arr _ => rfl

theorem soutKVs0_eq : ∀ l : List (String × JVal), soutKVs0 l = soutKVsB false l
  | [] => rfl
  | (k, v) :: t => by
      rw [show soutKVs0 ((k, v) :: t) = (soutEntryB false k v && soutKVs0 t) from rfl]
      rw [show soutKVsB false ((k, v) :: t) = (soutEntryB false k v && soutKVsB false t) from rfl]
      rw [soutKVs0_eq t]

theorem sout0_eq : ∀ j : JVal, sout0 j = soutB false j
  | .obj kvs => by
      rw [show sout0 (.obj kvs) = (keysNodupB kvs && hasPropsIfObject kvs && stClosed kvs &&
        propReqExact kvs && bareRefOnly kvs && noNullDefault kvs && allOfLenOk kvs &&
        soutKVs0 kvs) from rfl]
      rw [show soutB false (.obj kvs) = (keysNodupB kvs && hasPropsIfObject kvs && stClosed kvs &&
        propReqExact kvs && bareRefOnly kvs && noNullDefault kvs && allOfLenOk kvs &&
        soutKVsB false kvs) from rfl]
      rw [soutKVs0_eq]
  | .null => rfl
  | .bool _ => rfl
  | .num _ => rfl
  | .str _ => rfl
  | .arr _ => rfl

theorem tameKVsB_mem : ∀ (b : Bool) (l : List (String × JVal)),
    tameKVsB b l = true ↔ ∀ kv ∈ l, tameEntryB b kv.1 kv.2 = true
  | b, [] => by simp [tameKVsB]
  | b, (k, v) :: t => by
      rw [show tameKVsB b ((k, v) :: t) = (tameEntryB b k v && tameKVsB b t) from rfl,
        Bool.and_eq_true, tameKVsB_mem b t]
      constructor
      · rintro ⟨h1, h2⟩ kv hkv
        rcases List.mem_cons.mp hkv with h | h
        · rw [h]
          exact h1
        · exact h2 kv h
      · intro h
        exact ⟨h (k, v) (List.mem_cons_self _ _),
          fun kv hkv => h kv (List.mem_cons_of_mem _ hkv)⟩

theorem soutKVsB_mem : ∀ (b : Bool) (l : List (String × JVal)),
    soutKVsB b l = true ↔ ∀ kv ∈ l, soutEntryB b kv.1 kv.2 = true
  | b, [] => by simp [soutKVsB]
  | b, (k, v) :: t => by
      rw [show soutKVsB b ((k, v) :: t) = (soutEntryB b k v && soutKVsB b t) from rfl,
        Bool.and_eq_true, soutKVsB_mem b t]
      constructor
      · rintro ⟨h1, h2⟩ kv hkv
        rcases List.mem_cons.mp hkv with h | h
        · rw [h]
          exact h1
        · exact h2 kv h
      · intro h
        exact ⟨h (k, v) (List.mem_cons_self _ _),
          fun kv hkv => h kv (List.mem_cons_of_mem _ hkv)⟩

theorem tameVals0_mem : ∀ l : List (String × JVal),
    tameVals0 l = true ↔ ∀ kv ∈ l, tame0 kv.2 = true
  | [] => by simp [tameVals0]
  | (k, v) :: t => by
      rw [show tameVals0 ((k, v) :: t) = (tame0 v && tameVals0 t) from rfl,
        Bool.and_eq_true, tameVals0_mem t]
      constructor
      · rintro ⟨h1, h2⟩ kv hkv
        rcases List.mem_cons.mp hkv with h | h
        · rw [h]
          exact h1
        · exact h2 kv h
      · intro h
        exact ⟨h (k, v) (List.mem_cons_self _ _),
          fun kv hkv => h kv (List.mem_cons_of_mem _ hkv)⟩

theorem soutVals0_mem : ∀ l : List (String × JVal),
    soutVals0 l = true ↔ ∀ kv ∈ l, sout0 kv.2 = true
  | [] => by simp [soutVals0]
  | (k, v) :: t => by
      rw [show soutVals0 ((k, v) :: t) = (sout0 v && soutVals0 t) from rfl,
        Bool.and_eq_true, soutVals0_mem t]
      constructor
      · rintro ⟨h1, h2⟩ kv hkv
        rcases List.mem_cons.mp hkv with h | h
        · rw [h]
          exact h1
        · exact h2 kv h
      · intro h
        exact ⟨h (k, v) (List.mem_cons_self _ _),
          fun kv hkv => h kv (List.mem_cons_of_mem _ hkv)⟩

theorem tameElems0_mem : ∀ l : List JVal,
    tameElems0 l = true ↔ ∀ v ∈ l, tame0 v = true
  | [] => by simp [tameElems0]
  | v :: t => by
      rw [show tameElems0 (v :: t) = (tame0 v && tameElems0 t) from rfl,
        Bool.and_eq_true, tameElems0_mem t]
      simp

theorem soutElems0_mem : ∀ l : List JVal,
    soutElems0 l = true ↔ ∀ v ∈ l, sout0 v = true
  | [] => by simp [soutElems0]
  | v :: t => by
      rw [show soutElems0 (v :: t) = (sout0 v && soutElems0 t) from rfl,
        Bool.and_eq_true, soutElems0_mem t]
      simp

theorem NoDictL_mem : ∀ l : List JVal,
    NoDictL l = true ↔ ∀ v ∈ l, NoDictV v = true
  | [] => by simp [NoDictL]
  | v :: t => by
      rw [show NoDictL (v :: t) = (NoDictV v && NoDictL t) from rfl,
        Bool.and_eq_true, NoDictL_mem t]
      simp

theorem noKeyDeepKVs_mem : ∀ (key : String) (l : List (String × JVal)),
    noKeyDeepKVs key l = true ↔
      ∀ kv ∈ l, kv.1 ≠ key ∧ noKeyDeep key kv.2 = true
  | key, [] => by simp [noKeyDeepKVs]
  | key, (k, v) :: t => by
      rw [show noKeyDeepKVs key ((k, v) :: t) =
        (!(k == key) && noKeyDeep key v && noKeyDeepKVs key t) from rfl]
      simp only [Bool.and_eq_true, noKeyDeepKVs_mem key t, Bool.not_eq_true',
        beq_eq_false_iff_ne]
      constructor
      · rintro ⟨⟨h1, h2⟩, h3⟩ kv hkv
        rcases List.mem_cons.mp hkv with h | h
        · rw [h]
          exact ⟨h1, h2⟩
        · exact h3 kv h
      · intro h
        exact ⟨h (k, v) (List.mem_cons_self _ _),
          fun kv hkv => h kv (List.mem_cons_of_mem _ hkv)⟩

theorem noKeyDeepL_mem : ∀ (key : String) (l : List JVal),
    noKeyDeepL key l = true ↔ ∀ v ∈ l, noKeyDeep key v = true
  | key, [] => by simp [noKeyDeepL]
  | key, v :: t => by
      rw [show noKeyDeepL key (v :: t) =
        (noKeyDeep key v && noKeyDeepL key t) from rfl,
        Bool.and_eq_true, noKeyDeepL_mem key t]
      simp

/-! ## Per-key equations for the entry predicates -/

theorem tameEntryB_ref (b : Bool) (v : JVal) :
    tameEntryB b "$ref" v = (match v with | .str r => refOk r | _ => false) := rfl

theorem tameEntryB_props (b : Bool) (v : JVal) :
    tameEntryB b "properties" v = tameDict0 v := rfl

theorem tameEntryB_items (b : Bool) (v : JVal) :
    tameEntryB b "items" v = (if isDictB v then tame0 v else NoDictV v) := rfl

theorem tameEntryB_anyOf (b : Bool) (v : JVal) :
    tameEntryB b "anyOf" v = tameList0 v := rfl

theorem tameEntryB_allOf (b : Bool) (v : JVal) :
    tameEntryB b "allOf" v = tameList0 v := rfl

theorem tameEntryB_addl (b : Bool) (v : JVal) :
    tameEntryB b "additionalProperties" v = decide (v = .bool false) := rfl

theorem tameEntryB_defs (b : Bool) (v : JVal) :
    tameEntryB b "$defs" v = (b && tameDict0 v) := rfl

theorem tameEntryB_defns (b : Bool) (v : JVal) :
    tameEntryB b "definitions" v = (b && tameDict0 v) := rfl

theorem tameEntryB_other (b : Bool) (k : String) (v : JVal)
    (h1 : k ≠ "$ref") (h2 : k ≠ "properties") (h3 : k ≠ "items")
    (h4 : k ≠ "anyOf") (h5 : k ≠ "allOf") (h6 : k ≠ "additionalProperties")
    (h7 : k ≠ "$defs") (h8 : k ≠ "definitions") :
    tameEntryB b k v = NoDictV v := by
  simp [tameEntryB, h1, h2, h3, h4, h5, h6, h7, h8]

theorem soutEntryB_ref (b : Bool) (v : JVal) :
    soutEntryB b "$ref" v = (match v with | .str r => refOk r | _ => false) := rfl

theorem soutEntryB_props (b : Bool) (v : JVal) :
    soutEntryB b "properties" v = soutDict0 v := rfl

theorem soutEntryB_items (b : Bool) (v : JVal) :
    soutEntryB b "items" v = (if isDictB v then sout0 v else NoDictV v) := rfl

theorem soutEntryB_anyOf (b : Bool) (v : JVal) :
    soutEntryB b "anyOf" v = soutList0 v := rfl

theorem soutEntryB_allOf (b : Bool) (v : JVal) :
    soutEntryB b "allOf" v = soutList0 v := rfl

theorem soutEntryB_addl (b : Bool) (v : JVal) :
    soutEntryB b "additionalProperties" v = decide (v = .bool false) := rfl

theorem soutEntryB_defs (b : Bool) (v : JVal) :
    soutEntryB b "$defs" v = (b && soutDict0 v) := rfl

theorem soutEntryB_defns (b : Bool) (v : JVal) :
    soutEntryB b "definitions" v = (b && soutDict0 v) := rfl

theorem soutEntryB_other (b : Bool) (k : String) (v : JVal)
    (h1 : k ≠ "$ref") (h2 : k ≠ "properties") (h3 : k ≠ "items")
    (h4 : k ≠ "anyOf") (h5 : k ≠ "allOf") (h6 : k ≠ "additionalProperties")
    (h7 : k ≠ "$defs") (h8 : k ≠ "definitions") :
    soutEntryB b k v = NoDictV v := by
  simp [soutEntryB, h1, h2, h3, h4, h5, h6, h7, h8]

theorem tameEntryB_mono {k : String} {v : JVal} (b : Bool)
    (h : tameEntryB false k v = true) : tameEntryB b k v = true := by
  by_cases h1 : k = "$ref"
  · subst h1; rw [tameEntryB_ref] at h ⊢; exact h
  by_cases h2 : k = "properties"
  · subst h2; rw [tameEntryB_props] at h ⊢; exact h
  by_cases h3 : k = "items"
  · subst h3; rw [tameEntryB_items] at h ⊢; exact h
  by_cases h4 : k = "anyOf"
  · subst h4; rw [tameEntryB_anyOf] at h ⊢; exact h
  by_cases h5 : k = "allOf"
  · subst h5; rw [tameEntryB_allOf] at h ⊢; exact h
  by_cases h6 : k = "additionalProperties"
  · subst h6; rw [tameEntryB_addl] at h ⊢; exact h
  by_cases h7 : k = "$defs"
  · subst h7; rw [tameEntryB_defs] at h; simp at h
  by_cases h8 : k = "definitions"
  · subst h8; rw [tameEntryB_defns] at h; simp at h
  rw [tameEntryB_other b k v h1 h2 h3 h4 h5 h6 h7 h8]
  rw [tameEntryB_other false k v h1 h2 h3 h4 h5 h6 h7 h8] at h
  exact h

theorem soutEntryB_mono {k : String} {v : JVal} (b : Bool)
    (h : soutEntryB false k v = true) : soutEntryB b k v = true := by
  by_cases h1 : k = "$ref"
  · subst h1; rw [soutEntryB_ref] at h ⊢; exact h
  by_cases h2 : k = "properties"
  · subst h2; rw [soutEntryB_props] at h ⊢; exact h
  by_cases h3 : k = "items"
  · subst h3; rw [soutEntryB_items] at h ⊢; exact h
  by_cases h4 : k = "anyOf"
  · subst h4; rw [soutEntryB_anyOf] at h ⊢; exact h
  by_cases h5 : k = "allOf"
  · subst h5; rw [soutEntryB_allOf] at h ⊢; exact h
  by_cases h6 : k = "additionalProperties"
  · subst h6; rw [soutEntryB_addl] at h ⊢; exact h
  by_cases h7 : k = "$defs"
  · subst h7; rw [soutEntryB_defs] at h; simp at h
  by_cases h8 : k = "definitions"
  · subst h8; rw [soutEntryB_defns] at h; simp at h
  rw [soutEntryB_other b k v h1 h2 h3 h4 h5 h6 h7 h8]
  rw [soutEntryB_other false k v h1 h2 h3 h4 h5 h6 h7 h8] at h
  exact h

/-! ## The output invariant refines well-formedness -/

theorem propReqExact_reqImplies (l : List (String × JVal))
    (h : propReqExact l = true) : reqImpliesProps l = true := by
  unfold propReqExact at h
  unfold reqImpliesProps
  cases hp : jgetL l "properties" with
  | none =>
      rw [hp] at h
      simp at h
      rw [h]
  | some p =>
      rw [hp] at h
      cases p with
      | obj ps =>
          simp at h
          rw [h]
      | null => simp at h; rw [h]
      | bool x => simp at h; rw [h]
      | num x => simp at h; rw [h]
      | str x => simp at h; rw [h]
      | arr x => simp at h; rw [h]

theorem refOk_ne_empty {r : String} (h : refOk r = true) : r ≠ "" := by
  intro he
  subst he
  exact absurd h (by decide)

mutual
theorem sout_tame : ∀ j : JVal, sout0 j = true → tame0 j = true
  | .obj kvs, h => by
      have h' : (keysNodupB kvs && hasPropsIfObject kvs && stClosed kvs &&
          propReqExact kvs && bareRefOnly kvs && noNullDefault kvs && allOfLenOk kvs &&
          soutKVs0 kvs) = true := h
      simp only [Bool.and_eq_true] at h'
      obtain ⟨⟨⟨⟨⟨⟨⟨hn, hp⟩, _⟩, hx⟩, _⟩, _⟩, _⟩, hk⟩ := h'
      show (keysNodupB kvs && hasPropsIfObject kvs && reqImpliesProps kvs &&
        tameKVs0 kvs) = true
      simp only [Bool.and_eq_true]
      exact ⟨⟨⟨hn, hp⟩, propReqExact_reqImplies kvs hx⟩, sout_tameKVs kvs hk⟩
  | .null, h => nomatch h
  | .bool _, h => nomatch h
  | .num _, h => nomatch h
  | .str _, h => nomatch h
  | .arr _, h => nomatch h
theorem sout_tameKVs : ∀ l : List (String × JVal),
    soutKVs0 l = true → tameKVs0 l = true
  | [], _ => rfl
  | (k, v) :: t, h => by
      have h' : (soutEntryB false k v && soutKVs0 t) = true := h
      rw [Bool.and_eq_true] at h'
      have ht := sout_tameKVs t h'.2
      show (tameEntryB false k v && tameKVs0 t) = true
      rw [Bool.and_eq_true]
      refine ⟨?_, ht⟩
      have he := h'.1
      by_cases h1 : k = "$ref"
      · subst h1; rw [soutEntryB_ref] at he; rw [tameEntryB_ref]; exact he
      by_cases h2 : k = "properties"
      · subst h2
        rw [soutEntryB_props] at he
        rw [tameEntryB_props]
        cases v with
        | obj ds => exact sout_tameVals ds he
        | null => exact nomatch he
        | bool _ => exact nomatch he
        | num _ => exact nomatch he
        | str _ => exact nomatch he
        | arr _ => exact nomatch he
      by_cases h3 : k = "items"
      · subst h3
        rw [soutEntryB_items] at he
        rw [tameEntryB_items]
        cases v with
        | obj ds =>
            simp only [isDictB, if_true] at he ⊢
            exact sout_tame (.obj ds) he
        | null => exact he
        | bool _ => exact he
        | num _ => exact he
        | str _ => exact he
        | arr _ => exact he
      by_cases h4 : k = "anyOf"
      · subst h4
        rw [soutEntryB_anyOf] at he
        rw [tameEntryB_anyOf]
        cases v with
        | arr vs => exact sout_tameElems vs he
        | null => exact nomatch he
        | bool _ => exact nomatch he
        | num _ => exact nomatch he
        | str _ => exact nomatch he
        | obj _ => exact nomatch he
      by_cases h5 : k = "allOf"
      · subst h5
        rw [soutEntryB_allOf] at he
        rw [tameEntryB_allOf]
        cases v with
        | arr vs => exact sout_tameElems vs he
        | null => exact nomatch he
        | bool _ => exact nomatch he
        | num _ => exact nomatch he
        | str _ => exact nomatch he
        | obj _ => exact nomatch he
      by_cases h6 : k = "additionalProperties"
      · subst h6; rw [soutEntryB_addl] at he; rw [tameEntryB_addl]; exact he
      by_cases h7 : k = "$defs"
      · subst h7; rw [soutEntryB_defs] at he; simp at he
      by_cases h8 : k = "definitions"
      · subst h8; rw [soutEntryB_defns] at he; simp at he
      rw [soutEntryB_other false k v h1 h2 h3 h4 h5 h6 h7 h8] at he
      rw [tameEntryB_other false k v h1 h2 h3 h4 h5 h6 h7 h8]
      exact he
theorem sout_tameVals : ∀ l : List (String × JVal),
    soutVals0 l = true → tameVals0 l = true
  | [], _ => rfl
  | (k, v) :: t, h => by
      have h' : (sout0 v && soutVals0 t) = true := h
      rw [Bool.and_eq_true] at h'
      show (tame0 v && tameVals0 t) = true
      rw [Bool.and_eq_true]
      exact ⟨sout_tame v h'.1, sout_tameVals t h'.2⟩
theorem sout_tameElems : ∀ l : List JVal,
    soutElems0 l = true → tameElems0 l = true
  | [], _ => rfl
  | v :: t, h => by
      have h' : (sout0 v && soutElems0 t) = true := h
      rw [Bool.and_eq_true] at h'
      show (tame0 v && tameElems0 t) = true
      rw [Bool.and_eq_true]
      exact ⟨sout_tame v h'.1, sout_tameElems t h'.2⟩
end

theorem sout_entryB {b : Bool} {k : String} {v : JVal}
    (h : soutEntryB b k v = true) : tameEntryB b k v = true := by
  by_cases h1 : k = "$ref"
  · subst h1; rw [soutEntryB_ref] at h; rw [tameEntryB_ref]; exact h
  by_cases h2 : k = "properties"
  · subst h2
    rw [soutEntryB_props] at h
    rw [tameEntryB_props]
    cases v with
    | obj ds => exact sout_tameVals ds h
    | null => exact nomatch h
    | bool _ => exact nomatch h
    | num _ => exact nomatch h
    | str _ => exact nomatch h
    | arr _ => exact nomatch h
  by_cases h3 : k = "items"
  · subst h3
    rw [soutEntryB_items] at h
    rw [tameEntryB_items]
    cases v with
    | obj ds =>
        simp only [isDictB, if_true] at h ⊢
        exact sout_tame (.obj ds) h
    | null => exact h
    | bool _ => exact h
    | num _ => exact h
    | str _ => exact h
    | arr _ => exact h
  by_cases h4 : k = "anyOf"
  · subst h4
    rw [soutEntryB_anyOf] at h
    rw [tameEntryB_anyOf]
    cases v with
    | arr vs => exact sout_tameElems vs h
    | null => exact nomatch h
    | bool _ => exact nomatch h
    | num _ => exact nomatch h
    | str _ => exact nomatch h
    | obj _ => exact nomatch h
  by_cases h5 : k = "allOf"
  · subst h5
    rw [soutEntryB_allOf] at h
    rw [tameEntryB_allOf]
    cases v with
    | arr vs => exact sout_tameElems vs h
    | null => exact nomatch h
    | bool _ => exact nomatch h
    | num _ => exact nomatch h
    | str _ => exact nomatch h
    | obj _ => exact nomatch h
  by_cases h6 : k = "additionalProperties"
  · subst h6; rw [soutEntryB_addl] at h; rw [tameEntryB_addl]; exact h
  by_cases h7 : k = "$defs"
  · subst h7
    rw [soutEntryB_defs] at h
    rw [tameEntryB_defs]
    rw [Bool.and_eq_true] at h ⊢
    refine ⟨h.1, ?_⟩
    have hd := h.2
    cases v with
    | obj ds => exact sout_tameVals ds hd
    | null => exact nomatch hd
    | bool _ => exact nomatch hd
    | num _ => exact nomatch hd
    | str _ => exact nomatch hd
    | arr _ => exact nomatch hd
  by_cases h8 : k = "definitions"
  · subst h8
    rw [soutEntryB_defns] at h
    rw [tameEntryB_defns]
    rw [Bool.and_eq_true] at h ⊢
    refine ⟨h.1, ?_⟩
    have hd := h.2
    cases v with
    | obj ds => exact sout_tameVals ds hd
    | null => exact nomatch hd
    | bool _ => exact nomatch hd
    | num _ => exact nomatch hd
    | str _ => exact nomatch hd
    | arr _ => exact nomatch hd
  rw [soutEntryB_other b k v h1 h2 h3 h4 h5 h6 h7 h8] at h
  rw [tameEntryB_other b k v h1 h2 h3 h4 h5 h6 h7 h8]
  exact h

/-! ## Deep object closure (the C1 output property) -/

mutual
/-- Every schema node of type `object`, at every depth, carries
`additionalProperties: false`, and every node's `required` list is exactly
its `properties` key list (present if and only if `properties` is).
Definition containers and `properties` maps are walked values-only. -/
def closedDeep : JVal → Bool
  | .obj kvs => stClosed kvs && propReqExact kvs && closedKVs kvs
  | .arr xs => closedL xs
  | _ => true
def closedKVs : List (String × JVal) → Bool
  | [] => true
  | (k, v) :: rest =>
      (if k = "properties" || k = "$defs" || k = "definitions" then
        (match v with
         | .obj ds => closedVals ds
         | .arr xs => closedL xs
         | _ => true)
       else closedDeep v) && closedKVs rest
def closedVals : List (String × JVal) → Bool
  | [] => true
  | (_, v) :: rest => closedDeep v && closedVals rest
def closedL : List JVal → Bool
  | [] => true
  | v :: rest => closedDeep v && closedL rest
end

mutual
theorem NoDictV_closed : ∀ v : JVal, NoDictV v = true → closedDeep v = true
  | .obj _, h => nomatch h
  | .arr xs, h => NoDictL_closed xs h
  | .null, _ => rfl
  | .bool _, _ => rfl
  | .num _, _ => rfl
  | .str _, _ => rfl
theorem NoDictL_closed : ∀ l : List JVal, NoDictL l = true → closedL l = true
  | [], _ => rfl
  | v :: t, h => by
      have h' : (NoDictV v && NoDictL t) = true := h
      rw [Bool.and_eq_true] at h'
      show (closedDeep v && closedL t) = true
      rw [Bool.and_eq_true]
      exact ⟨NoDictV_closed v h'.1, NoDictL_closed t h'.2⟩
end

/-- The container walk of `closedKVs`, named for rewriting. -/
def closedCont (v : JVal) : Bool :=
  match v with
  | .obj ds => closedVals ds
  | .arr xs => closedL xs
  | _ => true

theorem closedKVs_cons (k : String) (v : JVal) (t : List (String × JVal)) :
    closedKVs ((k, v) :: t) =
      ((if k = "properties" || k = "$defs" || k = "definitions" then closedCont v
        else closedDeep v) && closedKVs t) := by
  cases v <;> rfl

mutual
theorem sout_closed : ∀ j : JVal, sout0 j = true → closedDeep j = true
  | .obj kvs, h => by
      have h' : (keysNodupB kvs && hasPropsIfObject kvs && stClosed kvs &&
          propReqExact kvs && bareRefOnly kvs && noNullDefault kvs && allOfLenOk kvs &&
          soutKVs0 kvs) = true := h
      simp only [Bool.and_eq_true] at h'
      obtain ⟨⟨⟨⟨⟨⟨⟨_, _⟩, hc⟩, hx⟩, _⟩, _⟩, _⟩, hk⟩ := h'
      show (stClosed kvs && propReqExact kvs && closedKVs kvs) = true
      simp only [Bool.and_eq_true]
      exact ⟨⟨hc, hx⟩, sout_closedKVs kvs hk⟩
  | .null, h => nomatch h
  | .bool _, h => nomatch h
  | .num _, h => nomatch h
  | .str _, h => nomatch h
  | .arr _, h => nomatch h
theorem sout_closedKVs : ∀ l : List (String × JVal),
    soutKVs0 l = true → closedKVs l = true
  | [], _ => rfl
  | (k, v) :: t, h => by
      have h' : (soutEntryB false k v && soutKVs0 t) = true := h
      rw [Bool.and_eq_true] at h'
      have ht := sout_closedKVs t h'.2
      rw [closedKVs_cons, Bool.and_eq_true]
      refine ⟨?_, ht⟩
      have he := h'.1
      by_cases h2 : k = "properties"
      · subst h2
        rw [soutEntryB_props] at he
        rw [if_pos (by simp)]
        cases v with
        | obj ds => exact sout_closedVals ds he
        | null => exact nomatch he
        | bool _ => exact nomatch he
        | num _ => exact nomatch he
        | str _ => exact nomatch he
        | arr _ => exact nomatch he
      by_cases h7 : k = "$defs"
      · subst h7; rw [soutEntryB_defs] at he; simp at he
      by_cases h8 : k = "definitions"
      · subst h8; rw [soutEntryB_defns] at he; simp at he
      rw [if_neg (by simp [h2, h7, h8])]
      by_cases h1 : k = "$ref"
      · subst h1
        rw [soutEntryB_ref] at he
        cases v with
        | str r => rfl
        | null => exact nomatch he
        | bool _ => exact nomatch he
        | num _ => exact nomatch he
        | arr _ => exact nomatch he
        | obj _ => exact nomatch he
      by_cases h3 : k = "items"
      · subst h3
        rw [soutEntryB_items] at he
        cases v with
        | obj ds =>
            simp only [isDictB, if_true] at he
            exact sout_closed (.obj ds) he
        | null => rfl
        | bool _ => rfl
        | num _ => rfl
        | str _ => rfl
        | arr xs =>
            simp only [isDictB, if_false] at he
            exact NoDictV_closed (.arr xs) he
      by_cases h4 : k = "anyOf"
      · subst h4
        rw [soutEntryB_anyOf] at he
        cases v with
        | arr vs => exact sout_closedL vs he
        | null => exact nomatch he
        | bool _ => exact nomatch he
        | num _ => exact nomatch he
        | str _ => exact nomatch he
        | obj _ => exact nomatch he
      by_cases h5 : k = "allOf"
      · subst h5
        rw [soutEntryB_allOf] at he
        cases v with
        | arr vs => exact sout_closedL vs he
        | null => exact nomatch he
        | bool _ => exact nomatch he
        | num _ => exact nomatch he
        | str _ => exact nomatch he
        | obj _ => exact nomatch he
      by_cases h6 : k = "additionalProperties"
      · subst h6
        rw [soutEntryB_addl] at he
        have hv : v = .bool false := by simpa using he
        subst hv
        rfl
      rw [soutEntryB_other false k v h1 h2 h3 h4 h5 h6 h7 h8] at he
      exact NoDictV_closed v he
theorem sout_closedVals : ∀ l : List (String × JVal),
    soutVals0 l = true → closedVals l = true
  | [], _ => rfl
  | (k, v) :: t, h => by
      have h' : (sout0 v && soutVals0 t) = true := h
      rw [Bool.and_eq_true] at h'
      show (closedDeep v && closedVals t) = true
      rw [Bool.and_eq_true]
      exact ⟨sout_closed v h'.1, sout_closedVals t h'.2⟩
theorem sout_closedL : ∀ l : List JVal,
    soutElems0 l = true → closedL l = true
  | [], _ => rfl
  | v :: t, h => by
      have h' : (sout0 v && soutElems0 t) = true := h
      rw [Bool.and_eq_true] at h'
      show (closedDeep v && closedL t) = true
      rw [Bool.and_eq_true]
      exact ⟨sout_closed v h'.1, sout_closedL t h'.2⟩
end

/-! ## Absence of a construct at every schema node

`noKeyDeep` above forbids a raw key in every dict at every depth, including
inside `properties` maps, where keys are arbitrary user-chosen property
names rather than schema constructs: a property *named* `$ref` is not a
reference node.  The spec's ref-freedom statements are about schema nodes,
so `cleanDeep` walks the schema grammar exactly like `closedDeep` — checking
the key at schema nodes and skipping the key sets of `properties`, `$defs`
and `definitions` containers, whose values are again schema nodes. -/

def hasKeyB (kvs : List (String × JVal)) (key : String) : Bool :=
  (jgetL kvs key).isSome

mutual
/-- No schema node, at any depth, carries the key `key`. -/
def cleanDeep (key : String) : JVal → Bool
  | .obj kvs => !hasKeyB kvs key && cleanKVs key kvs
  | .arr xs => cleanL key xs
  | _ => true
def cleanKVs (key : String) : List (String × JVal) → Bool
  | [] => true
  | (k, v) :: rest =>
      (if k = "properties" || k = "$defs" || k = "definitions" then
        (match v with
         | .obj ds => cleanVals key ds
         | .arr xs => cleanL key xs
         | _ => true)
       else cleanDeep key v) && cleanKVs key rest
def cleanVals (key : String) : List (String × JVal) → Bool
  | [] => true
  | (_, v) :: rest => cleanDeep key v && cleanVals key rest
def cleanL (key : String) : List JVal → Bool
  | [] => true
  | v :: rest => cleanDeep key v && cleanL key rest
end

/-- The container walk of `cleanKVs`, named for rewriting. -/
def cleanCont (key : String) (v : JVal) : Bool :=
  match v with
  | .obj ds => cleanVals key ds
  | .arr xs => cleanL key xs
  | _ => true

theorem cleanKVs_cons (key k : String) (v : JVal) (t : List (String × JVal)) :
    cleanKVs key ((k, v) :: t) =
      ((if k = "properties" || k = "$defs" || k = "definitions" then cleanCont key v
        else cleanDeep key v) && cleanKVs key t) := by
  cases v <;> rfl

theorem cleanVals_mem : ∀ (key : String) (l : List (String × JVal)),
    cleanVals key l = true ↔ ∀ kv ∈ l, cleanDeep key kv.2 = true
  | key, [] => by simp [cleanVals]
  | key, (k, v) :: t => by
      rw [show cleanVals key ((k, v) :: t) = (cleanDeep key v && cleanVals key t) from rfl,
        Bool.and_eq_true, cleanVals_mem key t]
      constructor
      · rintro ⟨h1, h2⟩ kv hkv
        rcases List.mem_cons.mp hkv with h | h
        · rw [h]
          exact h1
        · exact h2 kv h
      · intro h
        exact ⟨h (k, v) (List.mem_cons_self _ _),
          fun kv hkv => h kv (List.mem_cons_of_mem _ hkv)⟩

theorem cleanL_mem : ∀ (key : String) (l : List JVal),
    cleanL key l = true ↔ ∀ v ∈ l, cleanDeep key v = true
  | key, [] => by simp [cleanL]
  | key, v :: t => by
      rw [show cleanL key (v :: t) = (cleanDeep key v && cleanL key t) from rfl,
        Bool.and_eq_true, cleanL_mem key t]
      simp

mutual
theorem NoDictV_clean : ∀ (v : JVal) (key : String),
    NoDictV v = true → cleanDeep key v = true
  | .obj _, _, h => nomatch h
  | .arr xs, key, h => NoDictL_clean xs key h
  | .null, _, _ => rfl
  | .bool _, _, _ => rfl
  | .num _, _, _ => rfl
  | .str _, _, _ => rfl
theorem NoDictL_clean : ∀ (l : List JVal) (key : String),
    NoDictL l = true → cleanL key l = true
  | [], _, _ => rfl
  | v :: t, key, h => by
      have h' : (NoDictV v && NoDictL t) = true := h
      rw [Bool.and_eq_true] at h'
      show (cleanDeep key v && cleanL key t) = true
      rw [Bool.and_eq_true]
      exact ⟨NoDictV_clean v key h'.1, NoDictL_clean t key h'.2⟩
end

theorem soutKVs_no_defs (l : List (String × JVal)) (key : String)
    (hkey : key = "$defs" ∨ key = "definitions") (h : soutKVs0 l = true) :
    jgetL l key = none := by
  cases hg : jgetL l key with
  | none => rfl
  | some v =>
      have hmem := jgetL_some_mem l key v hg
      have hent := ((soutKVsB_mem false l).mp
        (by rw [← soutKVs0_eq]; exact h)) (key, v) hmem
      rcases hkey with h7 | h8
      · subst h7; rw [soutEntryB_defs] at hent; simp at hent
      · subst h8; rw [soutEntryB_defns] at hent; simp at hent

mutual
theorem sout_cleanD : ∀ (j : JVal) (key : String),
    (key = "$defs" ∨ key = "definitions") → sout0 j = true →
    cleanDeep key j = true
  | .obj kvs, key, hk, h => by
      have h' : (keysNodupB kvs && hasPropsIfObject kvs && stClosed kvs &&
          propReqExact kvs && bareRefOnly kvs && noNullDefault kvs && allOfLenOk kvs &&
          soutKVs0 kvs) = true := h
      simp only [Bool.and_eq_true] at h'
      show (!hasKeyB kvs key && cleanKVs key kvs) = true
      rw [Bool.and_eq_true]
      refine ⟨?_, sout_cleanDKVs kvs key hk h'.2⟩
      have hg := soutKVs_no_defs kvs key hk h'.2
      simp [hasKeyB, hg]
  | .null, _, _, h => nomatch h
  | .bool _, _, _, h => nomatch h
  | .num _, _, _, h => nomatch h
  | .str _, _, _, h => nomatch h
  | .arr _, _, _, h => nomatch h
theorem sout_cleanDKVs : ∀ (l : List (String × JVal)) (key : String),
    (key = "$defs" ∨ key = "definitions") → soutKVs0 l = true →
    cleanKVs key l = true
  | [], _, _, _ => rfl
  | (k, v) :: t, key, hkey, h => by
      have h' : (soutEntryB false k v && soutKVs0 t) = true := h
      rw [Bool.and_eq_true] at h'
      have ht := sout_cleanDKVs t key hkey h'.2
      rw [cleanKVs_cons, Bool.and_eq_true]
      refine ⟨?_, ht⟩
      have he := h'.1
      by_cases h2 : k = "properties"
      · subst h2
        rw [soutEntryB_props] at he
        rw [if_pos (by simp)]
        cases v with
        | obj ds => exact sout_cleanDVals ds key hkey he
        | null => exact nomatch he
        | bool _ => exact nomatch he
        | num _ => exact nomatch he
        | str _ => exact nomatch he
        | arr _ => exact nomatch he
      by_cases h7 : k = "$defs"
      · subst h7; rw [soutEntryB_defs] at he; simp at he
      by_cases h8 : k = "definitions"
      · subst h8; rw [soutEntryB_defns] at he; simp at he
      rw [if_neg (by simp [h2, h7, h8])]
      by_cases h1 : k = "$ref"
      · subst h1
        rw [soutEntryB_ref] at he
        cases v with
        | str r => rfl
        | null => exact nomatch he
        | bool _ => exact nomatch he
        | num _ => exact nomatch he
        | arr _ => exact nomatch he
        | obj _ => exact nomatch he
      by_cases h3 : k = "items"
      · subst h3
        rw [soutEntryB_items] at he
        cases v with
        | obj ds =>
            simp only [isDictB, if_true] at he
            exact sout_cleanD (.obj ds) key hkey he
        | null => rfl
        | bool _ => rfl
        | num _ => rfl
        | str _ => rfl
        | arr xs =>
            simp only [isDictB, if_false] at he
            exact NoDictV_clean (.arr xs) key he
      by_cases h4 : k = "anyOf"
      · subst h4
        rw [soutEntryB_anyOf] at he
        cases v with
        | arr vs => exact sout_cleanDL vs key hkey he
        | null => exact nomatch he
        | bool _ => exact nomatch he
        | num _ => exact nomatch he
        | str _ => exact nomatch he
        | obj _ => exact nomatch he
      by_cases h5 : k = "allOf"
      · subst h5
        rw [soutEntryB_allOf] at he
        cases v with
        | arr vs => exact sout_cleanDL vs key hkey he
        | null => exact nomatch he
        | bool _ => exact nomatch he
        | num _ => exact nomatch he
        | str _ => exact nomatch he
        | obj _ => exact nomatch he
      by_cases h6 : k = "additionalProperties"
      · subst h6
        rw [soutEntryB_addl] at he
        have hv : v = .bool false := by simpa using he
        subst hv
        rfl
      rw [soutEntryB_other false k v h1 h2 h3 h4 h5 h6 h7 h8] at he
      exact NoDictV_clean v key he
theorem sout_cleanDVals : ∀ (l : List (String × JVal)) (key : String),
    (key = "$defs" ∨ key = "definitions") → soutVals0 l = true →
    cleanVals key l = true
  | [], _, _, _ => rfl
  | (k, v) :: t, key, hkey, h => by
      have h' : (sout0 v && soutVals0 t) = true := h
      rw [Bool.and_eq_true] at h'
      show (cleanDeep key v && cleanVals key t) = true
      rw [Bool.and_eq_true]
      exact ⟨sout_cleanD v key hkey h'.1, sout_cleanDVals t key hkey h'.2⟩
theorem sout_cleanDL : ∀ (l : List JVal) (key : String),
    (key = "$defs" ∨ key = "definitions") → soutElems0 l = true →
    cleanL key l = true
  | [], _, _, _ => rfl
  | v :: t, key, hkey, h => by
      have h' : (sout0 v && soutElems0 t) = true := h
      rw [Bool.and_eq_true] at h'
      show (cleanDeep key v && cleanL key t) = true
      rw [Bool.and_eq_true]
      exact ⟨sout_cleanD v key hkey h'.1, sout_cleanDL t key hkey h'.2⟩
end

/-! ## Decompositions, pointers, and root-state conditions -/

theorem tameB_obj_iff (b : Bool) (l : List (String × JVal)) :
    tameB b (.obj l) = true ↔
      nodupKeys l ∧ hasPropsIfObject l = true ∧ reqImpliesProps l = true ∧
        tameKVsB b l = true := by
  rw [show tameB b (.obj l) = (keysNodupB l && hasPropsIfObject l &&
    reqImpliesProps l && tameKVsB b l) from rfl]
  simp only [Bool.and_eq_true, keysNodupB, decide_eq_true_eq, and_assoc]

theorem soutB_obj_iff (b : Bool) (l : List (String × JVal)) :
    soutB b (.obj l) = true ↔
      nodupKeys l ∧ hasPropsIfObject l = true ∧ stClosed l = true ∧
        propReqExact l = true ∧ bareRefOnly l = true ∧ noNullDefault l = true ∧
        allOfLenOk l = true ∧ soutKVsB b l = true := by
  rw [show soutB b (.obj l) = (keysNodupB l && hasPropsIfObject l && stClosed l &&
    propReqExact l && bareRefOnly l && noNullDefault l && allOfLenOk l &&
    soutKVsB b l) from rfl]
  simp only [Bool.and_eq_true, keysNodupB, decide_eq_true_eq, and_assoc]

theorem tameB_isObj {b : Bool} {j : JVal} (h : tameB b j = true) :
    ∃ l, j = .obj l := by
  cases j with
  | obj l => exact ⟨l, rfl⟩
  | null => exact nomatch h
  | bool _ => exact nomatch h
  | num _ => exact nomatch h
  | str _ => exact nomatch h
  | arr _ => exact nomatch h

theorem sout0_isObj {j : JVal} (h : sout0 j = true) : ∃ l, j = .obj l := by
  cases j with
  | obj l => exact ⟨l, rfl⟩
  | null => exact nomatch h
  | bool _ => exact nomatch h
  | num _ => exact nomatch h
  | str _ => exact nomatch h
  | arr _ => exact nomatch h

theorem soutB_isObj {b : Bool} {j : JVal} (h : soutB b j = true) :
    ∃ l, j = .obj l := by
  cases j with
  | obj l => exact ⟨l, rfl⟩
  | null => exact nomatch h
  | bool _ => exact nomatch h
  | num _ => exact nomatch h
  | str _ => exact nomatch h
  | arr _ => exact nomatch h

theorem tame0_tameB (b : Bool) {j : JVal} (h : tame0 j = true) :
    tameB b j = true := by
  rw [tame0_eq] at h
  obtain ⟨l, rfl⟩ := tameB_isObj h
  obtain ⟨hn, hp, hq, hkv⟩ := (tameB_obj_iff false l).mp h
  refine (tameB_obj_iff b l).mpr ⟨hn, hp, hq, ?_⟩
  rw [tameKVsB_mem]
  intro kv hkv'
  exact tameEntryB_mono b ((tameKVsB_mem false l).mp hkv kv hkv')

theorem sout0_soutB (b : Bool) {j : JVal} (h : sout0 j = true) :
    soutB b j = true := by
  obtain ⟨l, rfl⟩ := sout0_isObj h
  rw [sout0_eq] at h
  obtain ⟨hn, hp, hc, hx, hbr, hnd, hao, hkv⟩ := (soutB_obj_iff false l).mp h
  refine (soutB_obj_iff b l).mpr ⟨hn, hp, hc, hx, hbr, hnd, hao, ?_⟩
  rw [soutKVsB_mem]
  intro kv hkv'
  exact soutEntryB_mono b ((soutKVsB_mem false l).mp hkv kv hkv')

theorem soutEntryB_nondefs (b b' : Bool) (k : String) (v : JVal)
    (h7 : k ≠ "$defs") (h8 : k ≠ "definitions") :
    soutEntryB b k v = soutEntryB b' k v := by
  by_cases h1 : k = "$ref"
  · subst h1; rw [soutEntryB_ref, soutEntryB_ref]
  by_cases h2 : k = "properties"
  · subst h2; rw [soutEntryB_props, soutEntryB_props]
  by_cases h3 : k = "items"
  · subst h3; rw [soutEntryB_items, soutEntryB_items]
  by_cases h4 : k = "anyOf"
  · subst h4; rw [soutEntryB_anyOf, soutEntryB_anyOf]
  by_cases h5 : k = "allOf"
  · subst h5; rw [soutEntryB_allOf, soutEntryB_allOf]
  by_cases h6 : k = "additionalProperties"
  · subst h6; rw [soutEntryB_addl, soutEntryB_addl]
  rw [soutEntryB_other b k v h1 h2 h3 h4 h5 h6 h7 h8]
  rw [soutEntryB_other b' k v h1 h2 h3 h4 h5 h6 h7 h8]

/-- Resolution of a well-formed pointer walks exactly a definitions
container and one named definition, both required to be dicts. -/
theorem resolve_refOk {root : JVal} {r : String} {d : JVal} (hr : refOk r = true)
    (hres : resolve_ref root r = .ok d) :
    ∃ dk nm v1, (dk = "$defs" ∨ dk = "definitions") ∧
      jget root dk = some v1 ∧ isDictB v1 = true ∧
      jget v1 nm = some d ∧ isDictB d = true := by
  unfold refOk at hr
  unfold resolve_ref at hres
  cases hs : refSegs r with
  | none =>
      rw [hs] at hr
      exact nomatch hr
  | some segs =>
      rw [hs] at hr hres
      cases segs with
      | nil => exact nomatch hr
      | cons dk rest =>
          cases rest with
          | nil => exact nomatch hr
          | cons nm rest2 =>
              cases rest2 with
              | cons x xs => exact nomatch hr
              | nil =>
                  have hr' : (dk == "$defs" || dk == "definitions") = true := hr
                  have hres' : List.foldlM
                      (fun cur k =>
                        match jget cur k with
                        | some v => if isDictB v then (pure v : Except Err JVal)
                            else .error .nonDictEntry
                        | none => .error .keyErr)
                      root [dk, nm] = .ok d := hres
                  rw [List.foldlM_cons] at hres'
                  rw [bind_ok_iff] at hres'
                  obtain ⟨c1, h1, hrest⟩ := hres'
                  rw [List.foldlM_cons] at hrest
                  simp only [List.foldlM_nil] at hrest
                  rw [bind_ok_iff] at hrest
                  obtain ⟨c2, h2, hp⟩ := hrest
                  have hd : c2 = d := (pure_ok c2 d).mp hp
                  rw [hd] at h2
                  have h1' : (match jget root dk with
                      | some v => if isDictB v then (pure v : Except Err JVal)
                          else .error .nonDictEntry
                      | none => .error .keyErr) = .ok c1 := h1
                  cases hg1 : jget root dk with
                  | none => rw [hg1] at h1'; exact nomatch h1'
                  | some v1 =>
                      rw [hg1] at h1'
                      have h1x : (if isDictB v1 then (pure v1 : Except Err JVal)
                          else .error .nonDictEntry) = .ok c1 := h1'
                      by_cases hd1 : isDictB v1 = true
                      · rw [if_pos hd1] at h1x
                        have hv1 : v1 = c1 := (pure_ok v1 c1).mp h1x
                        subst hv1
                        have h2' : (match jget v1 nm with
                            | some v => if isDictB v then (pure v : Except Err JVal)
                                else .error .nonDictEntry
                            | none => .error .keyErr) = .ok d := h2
                        cases hg2 : jget v1 nm with
                        | none => rw [hg2] at h2'; exact nomatch h2'
                        | some v2 =>
                            rw [hg2] at h2'
                            have h2x : (if isDictB v2 then (pure v2 : Except Err JVal)
                                else .error .nonDictEntry) = .ok d := h2'
                            by_cases hd2 : isDictB v2 = true
                            · rw [if_pos hd2] at h2x
                              have hv2 : v2 = d := (pure_ok v2 d).mp h2x
                              subst hv2
                              refine ⟨dk, nm, v1, ?_, hg1, hd1, hg2, hd2⟩
                              simpa using hr'
                            · rw [if_neg hd2] at h2x
                              exact nomatch h2x
                      · rw [if_neg hd1] at h1x
                        exact nomatch h1x

/-- Every well-formed pointer that resolves against `R` yields a
well-formed dict: the condition the strict pass maintains about the current
whole-document state. -/
def RootOk (R : JVal) : Prop :=
  ∀ r d, refOk r = true → resolve_ref R r = .ok d → tame0 d = true

/-- Every well-formed pointer that resolves against `R` yields a
strict-output dict: the condition the ref inliner enjoys, its root being the
already strict-processed document. -/
def RootOkI (R : JVal) : Prop :=
  ∀ r d, refOk r = true → resolve_ref R r = .ok d → sout0 d = true

theorem tame_RootOk {x : JVal} (h : tameB true x = true) : RootOk x := by
  intro r d hr hres
  obtain ⟨dk, nm, v1, hdk, hg1, _, hg2, _⟩ := resolve_refOk hr hres
  obtain ⟨l, rfl⟩ := tameB_isObj h
  obtain ⟨hn, hp, hq, hkv⟩ := (tameB_obj_iff true l).mp h
  have hg1' : jgetL l dk = some v1 := hg1
  have hent := (tameKVsB_mem true l).mp hkv (dk, v1) (jgetL_some_mem l dk v1 hg1')
  have hdict : tameDict0 v1 = true := by
    rcases hdk with h7 | h8
    · subst h7
      rw [tameEntryB_defs] at hent
      exact (Bool.and_eq_true _ _).mp hent |>.2
    · subst h8
      rw [tameEntryB_defns] at hent
      exact (Bool.and_eq_true _ _).mp hent |>.2
  cases v1 with
  | obj ds =>
      have hvals : tameVals0 ds = true := hdict
      have hg2' : jgetL ds nm = some d := hg2
      exact (tameVals0_mem ds).mp hvals (nm, d) (jgetL_some_mem ds nm d hg2')
  | null => exact nomatch hdict
  | bool _ => exact nomatch hdict
  | num _ => exact nomatch hdict
  | str _ => exact nomatch hdict
  | arr _ => exact nomatch hdict

theorem sout_RootOkI {x : JVal} (h : soutB true x = true) : RootOkI x := by
  intro r d hr hres
  obtain ⟨dk, nm, v1, hdk, hg1, _, hg2, _⟩ := resolve_refOk hr hres
  obtain ⟨l, rfl⟩ := soutB_isObj h
  obtain ⟨hn, hp, hc, hx, hbr, hnd, hao, hkv⟩ := (soutB_obj_iff true l).mp h
  have hg1' : jgetL l dk = some v1 := hg1
  have hent := (soutKVsB_mem true l).mp hkv (dk, v1) (jgetL_some_mem l dk v1 hg1')
  have hdict : soutDict0 v1 = true := by
    rcases hdk with h7 | h8
    · subst h7
      rw [soutEntryB_defs] at hent
      exact (Bool.and_eq_true _ _).mp hent |>.2
    · subst h8
      rw [soutEntryB_defns] at hent
      exact (Bool.and_eq_true _ _).mp hent |>.2
  cases v1 with
  | obj ds =>
      have hvals : soutVals0 ds = true := hdict
      have hg2' : jgetL ds nm = some d := hg2
      exact (soutVals0_mem ds).mp hvals (nm, d) (jgetL_some_mem ds nm d hg2')
  | null => exact nomatch hdict
  | bool _ => exact nomatch hdict
  | num _ => exact nomatch hdict
  | str _ => exact nomatch hdict
  | arr _ => exact nomatch hdict

theorem jeraseL_of_none (l : List (String × JVal)) (k : String)
    (h : jgetL l k = none) : jeraseL l k = l := by
  have hk := (jgetL_eq_none_iff l k).mp h
  unfold jeraseL
  rw [List.filter_eq_self]
  intro kv hkv
  simp only [ne_eq, decide_not, Bool.not_eq_true', decide_eq_false_iff_not,
    Decidable.not_not]
  intro heq
  exact hk (List.mem_map.mpr ⟨kv, hkv, heq⟩)

/-- Popping the two definition containers from a strict-processed root
leaves a strict-output node (no definition containers allowed anywhere). -/
theorem sout_pops (b : Bool) (l : List (String × JVal))
    (h : soutB b (.obj l) = true) :
    sout0 (.obj (jeraseL (jeraseL l "$defs") "definitions")) = true := by
  obtain ⟨hn, hp, hc, hx, hbr, hnd, hao, hkv⟩ := (soutB_obj_iff b l).mp h
  cases hg : jgetL l "$ref" with
  | some rv =>
      have hlen : l.length = 1 := by
        unfold bareRefOnly at hbr
        rw [hg] at hbr
        simpa using hbr
      cases l with
      | nil => exact nomatch hg
      | cons kv t =>
          have ht : t = [] := by
            cases t with
            | nil => rfl
            | cons kv2 t2 => simp at hlen
          subst ht
          obtain ⟨k0, v0⟩ := kv
          have hk0 : k0 = "$ref" := by
            by_cases hh : k0 = "$ref"
            · exact hh
            · have hg' : (if k0 = "$ref" then some v0 else (none : Option JVal)) =
                  some rv := hg
              rw [if_neg hh] at hg'
              exact nomatch hg'
          subst hk0
          have e1 : jeraseL [("$ref", v0)] "$defs" = [("$ref", v0)] :=
            jeraseL_of_none _ _ (by simp [jgetL])
          have e2 : jeraseL [("$ref", v0)] "definitions" = [("$ref", v0)] :=
            jeraseL_of_none _ _ (by simp [jgetL])
          rw [e1, e2, sout0_eq]
          refine (soutB_obj_iff false _).mpr ⟨hn, hp, hc, hx, hbr, hnd, hao, ?_⟩
          rw [soutKVsB_mem]
          intro kv hkv'
          have hkve := (soutKVsB_mem b _).mp hkv kv hkv'
          have hksing := List.mem_singleton.mp hkv'
          have hne7 : kv.1 ≠ "$defs" := by rw [hksing]; simp
          have hne8 : kv.1 ≠ "definitions" := by rw [hksing]; simp
          rw [soutEntryB_nondefs false b kv.1 kv.2 hne7 hne8]
          exact hkve
  | none =>
      have hlook : ∀ key, key ≠ "$defs" → key ≠ "definitions" →
          jgetL (jeraseL (jeraseL l "$defs") "definitions") key = jgetL l key := by
        intro key h7 h8
        rw [jgetL_jeraseL, if_neg h8, jgetL_jeraseL, if_neg h7]
      rw [sout0_eq]
      refine (soutB_obj_iff false _).mpr ⟨?_, ?_, ?_, ?_, ?_, ?_, ?_, ?_⟩
      · exact nodupKeys_jeraseL _ _ (nodupKeys_jeraseL _ _ hn)
      · unfold hasPropsIfObject isObjTyped at hp ⊢
        rw [hlook "type" (by decide) (by decide),
          hlook "properties" (by decide) (by decide)]
        exact hp
      · unfold stClosed isObjTyped at hc ⊢
        rw [hlook "type" (by decide) (by decide),
          hlook "additionalProperties" (by decide) (by decide)]
        exact hc
      · unfold propReqExact at hx ⊢
        rw [hlook "properties" (by decide) (by decide),
          hlook "required" (by decide) (by decide)]
        exact hx
      · unfold bareRefOnly
        rw [hlook "$ref" (by decide) (by decide), hg]
      · unfold noNullDefault at hnd ⊢
        rw [hlook "default" (by decide) (by decide)]
        exact hnd
      · unfold allOfLenOk at hao ⊢
        rw [hlook "allOf" (by decide) (by decide)]
        exact hao
      · rw [soutKVsB_mem]
        intro kv hkv'
        obtain ⟨hm1, hne8⟩ := mem_jeraseL _ _ _ hkv'
        obtain ⟨hm2, hne7⟩ := mem_jeraseL _ _ _ hm1
        have hkve := (soutKVsB_mem b l).mp hkv kv hm2
        rw [soutEntryB_nondefs false b kv.1 kv.2 hne7 hne8]
        exact hkve

/-! ## Master lemmas: list processing under the strict pass -/

theorem tameDict0_obj {v : JVal} (h : tameDict0 v = true) :
    ∃ ds, v = .obj ds ∧ tameVals0 ds = true := by
  cases v with
  | obj ds => exact ⟨ds, rfl, h⟩
  | null => exact nomatch h
  | bool _ => exact nomatch h
  | num _ => exact nomatch h
  | str _ => exact nomatch h
  | arr _ => exact nomatch h

theorem soutDict0_obj {v : JVal} (h : soutDict0 v = true) :
    ∃ ds, v = .obj ds ∧ soutVals0 ds = true := by
  cases v with
  | obj ds => exact ⟨ds, rfl, h⟩
  | null => exact nomatch h
  | bool _ => exact nomatch h
  | num _ => exact nomatch h
  | str _ => exact nomatch h
  | arr _ => exact nomatch h

theorem tameList0_arr {v : JVal} (h : tameList0 v = true) :
    ∃ vs, v = .arr vs ∧ tameElems0 vs = true := by
  cases v with
  | arr vs => exact ⟨vs, rfl, h⟩
  | null => exact nomatch h
  | bool _ => exact nomatch h
  | num _ => exact nomatch h
  | str _ => exact nomatch h
  | obj _ => exact nomatch h

theorem soutList0_arr {v : JVal} (h : soutList0 v = true) :
    ∃ vs, v = .arr vs ∧ soutElems0 vs = true := by
  cases v with
  | arr vs => exact ⟨vs, rfl, h⟩
  | null => exact nomatch h
  | bool _ => exact nomatch h
  | num _ => exact nomatch h
  | str _ => exact nomatch h
  | obj _ => exact nomatch h

/-- `required` lists built from property keys contain no dicts. -/
theorem NoDictV_strArr : ∀ ps : List (String × JVal),
    NoDictV (.arr (ps.map (fun kv => JVal.str kv.1))) = true
  | [] => rfl
  | (k, v) :: t => by
      show (NoDictV (.str k) && NoDictL (t.map (fun kv => JVal.str kv.1))) = true
      rw [Bool.and_eq_true]
      exact ⟨rfl, NoDictV_strArr t⟩

/-- Entries outside `ex` are already strict-grade. -/
def KsP (b : Bool) (l : List (String × JVal)) (ex : List String) : Prop :=
  ∀ k v, k ∉ ex → jgetL l k = some v → soutEntryB b k v = true

/-- In a well-formed node, every entry other than the six recursion keys is
already strict-grade. -/
theorem tame_KsP {b : Bool} {l : List (String × JVal)}
    (h : tameKVsB b l = true) :
    KsP b l ["properties", "items", "anyOf", "allOf", "$defs", "definitions"] := by
  intro k v hex hg
  have hent := (tameKVsB_mem b l).mp h (k, v) (jgetL_some_mem l k v hg)
  simp only [List.mem_cons, List.mem_singleton, not_or] at hex
  obtain ⟨h2, h3, h4, h5, h7, h8, -⟩ := hex
  by_cases h1 : k = "$ref"
  · subst h1; rw [tameEntryB_ref] at hent; rw [soutEntryB_ref]; exact hent
  by_cases h6 : k = "additionalProperties"
  · subst h6; rw [tameEntryB_addl] at hent; rw [soutEntryB_addl]; exact hent
  rw [tameEntryB_other b k v h1 h2 h3 h4 h5 h6 h7 h8] at hent
  rw [soutEntryB_other b k v h1 h2 h3 h4 h5 h6 h7 h8]
  exact hent

theorem mapMWithCtx_master {fuel : Nat}
    (IH : ∀ (ctx' : JVal → JVal) (j r : JVal),
      (∀ x, tame0 x = true → RootOk (ctx' x)) → tame0 j = true →
      strictAux fuel ctx' j = .ok r → sout0 r = true) :
    ∀ (l : List (String × JVal)) (ctxd : List (String × JVal) → JVal),
    (∀ kv ∈ l, tame0 kv.2 = true) →
    (∀ m, keysL m = keysL l → (∀ kv ∈ m, tame0 kv.2 = true) → RootOk (ctxd m)) →
    ∀ l', mapMWithCtx (strictAux fuel) ctxd l = .ok l' →
      keysL l' = keysL l ∧ ∀ kv ∈ l', sout0 kv.2 = true
  | [], ctxd, _, _, l', h => by
      have h' : (pure [] : Except Err (List (String × JVal))) = .ok l' := h
      cases (pure_ok _ _).mp h'
      exact ⟨rfl, by simp⟩
  | (k, v) :: rest, ctxd, hall, hctx, l', h => by
      have h' : (do
          let v' ← strictAux fuel (fun x => ctxd ((k, x) :: rest)) v
          let rest' ← mapMWithCtx (strictAux fuel) (fun r => ctxd ((k, v') :: r)) rest
          pure ((k, v') :: rest')) = .ok l' := h
      rw [bind_ok_iff] at h'
      obtain ⟨v', hv, h2⟩ := h'
      rw [bind_ok_iff] at h2
      obtain ⟨rest', hrest, h3⟩ := h2
      cases (pure_ok _ _).mp h3
      have hcv : ∀ x, tame0 x = true → RootOk (ctxd ((k, x) :: rest)) := by
        intro x hx
        refine hctx ((k, x) :: rest) rfl ?_
        intro kv hkv
        rcases List.mem_cons.mp hkv with hh | hh
        · rw [hh]; exact hx
        · exact hall kv (List.mem_cons_of_mem _ hh)
      have hv' : sout0 v' = true :=
        IH _ v v' hcv (hall (k, v) (List.mem_cons_self _ _)) hv
      have hres := mapMWithCtx_master IH rest (fun r => ctxd ((k, v') :: r))
        (fun kv hkv => hall kv (List.mem_cons_of_mem _ hkv))
        (fun m hm hmall =>
          hctx ((k, v') :: m)
            (by show k :: keysL m = k :: keysL rest; rw [hm])
            (by
              intro kv hkv
              rcases List.mem_cons.mp hkv with hh | hh
              · rw [hh]; exact sout_tame v' hv'
              · exact hmall kv hh))
        rest' hrest
      refine ⟨?_, ?_⟩
      · show k :: keysL rest' = k :: keysL rest
        rw [hres.1]
      · intro kv hkv
        rcases List.mem_cons.mp hkv with hh | hh
        · rw [hh]; exact hv'
        · exact hres.2 kv hh

theorem mapMWithCtxL_master {fuel : Nat}
    (IH : ∀ (ctx' : JVal → JVal) (j r : JVal),
      (∀ x, tame0 x = true → RootOk (ctx' x)) → tame0 j = true →
      strictAux fuel ctx' j = .ok r → sout0 r = true) :
    ∀ (l : List JVal) (ctxd : List JVal → JVal),
    (∀ v ∈ l, tame0 v = true) →
    (∀ m, (∀ v ∈ m, tame0 v = true) → RootOk (ctxd m)) →
    ∀ l', mapMWithCtxL (strictAux fuel) ctxd l = .ok l' →
      l'.length = l.length ∧ ∀ v ∈ l', sout0 v = true
  | [], ctxd, _, _, l', h => by
      have h' : (pure [] : Except Err (List JVal)) = .ok l' := h
      cases (pure_ok _ _).mp h'
      exact ⟨rfl, by simp⟩
  | v :: rest, ctxd, hall, hctx, l', h => by
      have h' : (do
          let v' ← strictAux fuel (fun x => ctxd (x :: rest)) v
          let rest' ← mapMWithCtxL (strictAux fuel) (fun r => ctxd (v' :: r)) rest
          pure (v' :: rest')) = .ok l' := h
      rw [bind_ok_iff] at h'
      obtain ⟨v', hv, h2⟩ := h'
      rw [bind_ok_iff] at h2
      obtain ⟨rest', hrest, h3⟩ := h2
      cases (pure_ok _ _).mp h3
      have hcv : ∀ x, tame0 x = true → RootOk (ctxd (x :: rest)) := by
        intro x hx
        refine hctx (x :: rest) ?_
        intro w hw
        rcases List.mem_cons.mp hw with hh | hh
        · rw [hh]; exact hx
        · exact hall w (List.mem_cons_of_mem _ hh)
      have hv' : sout0 v' = true :=
        IH _ v v' hcv (hall v (List.mem_cons_self _ _)) hv
      have hres := mapMWithCtxL_master IH rest (fun r => ctxd (v' :: r))
        (fun w hw => hall w (List.mem_cons_of_mem _ hw))
        (fun m hmall =>
          hctx (v' :: m)
            (by
              intro w hw
              rcases List.mem_cons.mp hw with hh | hh
              · rw [hh]; exact sout_tame v' hv'
              · exact hmall w hh))
        rest' hrest
      refine ⟨?_, ?_⟩
      · show rest'.length + 1 = rest.length + 1
        rw [hres.1]
      · intro w hw
        rcases List.mem_cons.mp hw with hh | hh
        · rw [hh]; exact hv'
        · exact hres.2 w hh

/-! ## Per-stage master lemmas for the strict pass -/

theorem tame0_isObj {j : JVal} (h : tame0 j = true) : isDictB j = true := by
  cases j with
  | obj _ => rfl
  | null => exact nomatch h
  | bool _ => exact nomatch h
  | num _ => exact nomatch h
  | str _ => exact nomatch h
  | arr _ => exact nomatch h

theorem sout0_isDict {j : JVal} (h : sout0 j = true) : isDictB j = true := by
  cases j with
  | obj _ => rfl
  | null => exact nomatch h
  | bool _ => exact nomatch h
  | num _ => exact nomatch h
  | str _ => exact nomatch h
  | arr _ => exact nomatch h

theorem strKeys_eq {a c : List (String × JVal)} (h : keysL a = keysL c) :
    a.map (fun kv => JVal.str kv.1) = c.map (fun kv => JVal.str kv.1) := by
  have hgen : ∀ l : List (String × JVal),
      l.map (fun kv => JVal.str kv.1) = (keysL l).map JVal.str := by
    intro l
    rw [keysL, List.map_map]
    rfl
  rw [hgen a, hgen c, h]

/-- Replacing or adding an entry away from the `type` / `properties` /
`required` triangle preserves well-formedness. -/
theorem tameB_jsetL {b : Bool} {l : List (String × JVal)} {key : String}
    {v : JVal} (hT : tameB b (.obj l) = true)
    (hne1 : key ≠ "type") (hne2 : key ≠ "properties") (hne3 : key ≠ "required")
    (hent : tameEntryB b key v = true) :
    tameB b (.obj (jsetL l key v)) = true := by
  obtain ⟨hn, hp, hq, hkv⟩ := (tameB_obj_iff b l).mp hT
  refine (tameB_obj_iff b _).mpr ⟨nodupKeys_jsetL l key v hn, ?_, ?_, ?_⟩
  · unfold hasPropsIfObject isObjTyped at hp ⊢
    rw [jgetL_jsetL, if_neg hne1, jgetL_jsetL, if_neg hne2]
    exact hp
  · unfold reqImpliesProps at hq ⊢
    rw [jgetL_jsetL, if_neg hne3, jgetL_jsetL, if_neg hne2]
    exact hq
  · rw [tameKVsB_mem]
    intro kv hkv'
    rcases mem_jsetL l key v kv hkv' with hh | hh
    · rw [hh]
      exact hent
    · exact (tameKVsB_mem b l).mp hkv kv hh

theorem stageDefs_master {fuel : Nat} {b : Bool} {ctx : JVal → JVal}
    {l : List (String × JVal)} {key : String} {out : JVal}
    (hkey : key = "$defs" ∨ key = "definitions")
    (Hc : ∀ x, tameB b x = true → RootOk (ctx x))
    (IH : ∀ (ctx' : JVal → JVal) (j r : JVal),
      (∀ x, tame0 x = true → RootOk (ctx' x)) → tame0 j = true →
      strictAux fuel ctx' j = .ok r → sout0 r = true)
    (hT : tameB b (.obj l) = true)
    (h : stageDefs (strictAux fuel) ctx (.obj l) key = .ok out) :
    ∃ l', out = .obj l' ∧ tameB b (.obj l') = true ∧
      (∀ k, k ≠ key → jgetL l' k = jgetL l k) ∧
      (∀ v, jgetL l' key = some v → soutEntryB b key v = true) := by
  have hkne1 : key ≠ "type" := by rcases hkey with h | h <;> subst h <;> decide
  have hkne2 : key ≠ "properties" := by rcases hkey with h | h <;> subst h <;> decide
  have hkne3 : key ≠ "required" := by rcases hkey with h | h <;> subst h <;> decide
  have hdefsEq : ∀ (w : JVal), tameEntryB b key w = (b && tameDict0 w) := by
    intro w
    rcases hkey with h | h
    · subst h; exact tameEntryB_defs b w
    · subst h; exact tameEntryB_defns b w
  have hdefsEqS : ∀ (w : JVal), soutEntryB b key w = (b && soutDict0 w) := by
    intro w
    rcases hkey with h | h
    · subst h; exact soutEntryB_defs b w
    · subst h; exact soutEntryB_defns b w
  obtain ⟨hn, hp, hq, hkv⟩ := (tameB_obj_iff b l).mp hT
  have h' : (match jgetL l key with
      | some (.obj ds) => do
          let ds' ← mapMWithCtx (strictAux fuel)
            (fun r => ctx (jset (.obj l) key (.obj r))) ds
          pure (jset (.obj l) key (.obj ds'))
      | _ => pure (.obj l)) = .ok out := h
  cases hg : jgetL l key with
  | none =>
      rw [hg] at h'
      cases (pure_ok _ _).mp h'
      refine ⟨l, rfl, hT, fun k _ => rfl, ?_⟩
      intro v hv
      rw [hg] at hv
      exact nomatch hv
  | some v =>
      have hent := (tameKVsB_mem b l).mp hkv (key, v) (jgetL_some_mem l key v hg)
      rw [hdefsEq v, Bool.and_eq_true] at hent
      obtain ⟨hb, hdict⟩ := hent
      obtain ⟨ds, rfl, hvals⟩ := tameDict0_obj hdict
      rw [hg] at h'
      rw [bind_ok_iff] at h'
      obtain ⟨ds', hds, h2⟩ := h'
      cases (pure_ok _ _).mp h2
      have hres := mapMWithCtx_master IH ds
        (fun r => ctx (jset (.obj l) key (.obj r)))
        ((tameVals0_mem ds).mp hvals)
        (fun m hm hmall => by
          refine Hc _ ?_
          show tameB b (.obj (jsetL l key (.obj m))) = true
          refine tameB_jsetL hT hkne1 hkne2 hkne3 ?_
          rw [hdefsEq, Bool.and_eq_true]
          exact ⟨hb, (tameVals0_mem m).mpr hmall⟩)
        ds' hds
      refine ⟨jsetL l key (.obj ds'), rfl, ?_, ?_, ?_⟩
      · refine tameB_jsetL hT hkne1 hkne2 hkne3 ?_
        rw [hdefsEq, Bool.and_eq_true]
        refine ⟨hb, (tameVals0_mem ds').mpr ?_⟩
        intro kv hkv'
        exact sout_tame _ (hres.2 kv hkv')
      · intro k hk
        rw [jgetL_jsetL, if_neg (fun hh => hk hh.symm)]
      · intro w hw
        rw [jgetL_jsetL, if_pos rfl] at hw
        cases hw
        rw [hdefsEqS, Bool.and_eq_true]
        refine ⟨hb, ?_⟩
        show soutVals0 ds' = true
        exact (soutVals0_mem ds').mpr hres.2

theorem stageType_master {b : Bool} {l : List (String × JVal)} {out : JVal}
    (hT : tameB b (.obj l) = true)
    (h : stageType (.obj l) = .ok out) :
    ∃ l', out = .obj l' ∧ tameB b (.obj l') = true ∧
      (∀ k, k ≠ "additionalProperties" → jgetL l' k = jgetL l k) ∧
      stClosed l' = true := by
  obtain ⟨hn, hp, hq, hkv⟩ := (tameB_obj_iff b l).mp hT
  have h' : ((if jgetL l "type" = some (.str "object") then
      match jgetL l "additionalProperties" with
      | none => pure (jset (.obj l) "additionalProperties" (.bool false))
      | some ap => if jTruthy ap then .error .addlPropsErr else pure (.obj l)
    else pure (.obj l)) : Except Err JVal) = .ok out := h
  by_cases hty : jgetL l "type" = some (.str "object")
  · rw [if_pos hty] at h'
    cases hga : jgetL l "additionalProperties" with
    | none =>
        rw [hga] at h'
        cases (pure_ok _ _).mp h'
        refine ⟨jsetL l "additionalProperties" (.bool false), rfl, ?_, ?_, ?_⟩
        · refine tameB_jsetL hT (by decide) (by decide) (by decide) ?_
          rw [tameEntryB_addl]
          decide
        · intro k hk
          rw [jgetL_jsetL, if_neg (fun hh => hk hh.symm)]
        · unfold stClosed
          rw [jgetL_jsetL, if_pos rfl]
          simp
    | some ap =>
        have hent := (tameKVsB_mem b l).mp hkv ("additionalProperties", ap)
          (jgetL_some_mem l _ ap hga)
        rw [tameEntryB_addl] at hent
        have hap : ap = .bool false := by simpa using hent
        subst hap
        rw [hga] at h'
        have hred : ((if jTruthy (.bool false) then (Except.error Err.addlPropsErr :
            Except Err JVal) else pure (.obj l))) = .ok out := h'
        rw [if_neg (by decide)] at hred
        cases (pure_ok _ _).mp hred
        refine ⟨l, rfl, hT, fun k _ => rfl, ?_⟩
        unfold stClosed
        rw [hga]
        simp
  · rw [if_neg hty] at h'
    cases (pure_ok _ _).mp h'
    refine ⟨l, rfl, hT, fun k _ => rfl, ?_⟩
    unfold stClosed isObjTyped
    simp [hty]

theorem stageProps_master {fuel : Nat} {b : Bool} {ctx : JVal → JVal}
    {l : List (String × JVal)} {out : JVal}
    (Hc : ∀ x, tameB b x = true → RootOk (ctx x))
    (IH : ∀ (ctx' : JVal → JVal) (j r : JVal),
      (∀ x, tame0 x = true → RootOk (ctx' x)) → tame0 j = true →
      strictAux fuel ctx' j = .ok r → sout0 r = true)
    (hT : tameB b (.obj l) = true)
    (h : stageProps (strictAux fuel) ctx (.obj l) = .ok out) :
    ∃ l', out = .obj l' ∧ tameB b (.obj l') = true ∧
      (∀ k, k ≠ "required" → k ≠ "properties" → jgetL l' k = jgetL l k) ∧
      propReqExact l' = true ∧
      (∀ v, jgetL l' "properties" = some v → soutEntryB b "properties" v = true) := by
  obtain ⟨hn, hp, hq, hkv⟩ := (tameB_obj_iff b l).mp hT
  have h' : (match jgetL l "properties" with
      | some (.obj ps) => do
          let j1 := jset (.obj l) "required"
            (.arr (ps.map (fun kv : String × JVal => JVal.str kv.1)))
          let ps' ← mapMWithCtx (strictAux fuel)
            (fun r => ctx (jset j1 "properties" (.obj r))) ps
          pure (jset j1 "properties" (.obj ps'))
      | _ => pure (.obj l)) = .ok out := h
  cases hg : jgetL l "properties" with
  | none =>
      rw [hg] at h'
      cases (pure_ok _ _).mp h'
      have hreq : jgetL l "required" = none := by
        cases hr : jgetL l "required" with
        | none => rfl
        | some w =>
            unfold reqImpliesProps at hq
            rw [hr, hg] at hq
            exact nomatch hq
      refine ⟨l, rfl, hT, fun k _ _ => rfl, ?_, ?_⟩
      · unfold propReqExact
        rw [hg, hreq]
        simp
      · intro v hv
        rw [hg] at hv
        exact nomatch hv
  | some v =>
      have hent := (tameKVsB_mem b l).mp hkv ("properties", v)
        (jgetL_some_mem l _ v hg)
      rw [tameEntryB_props] at hent
      obtain ⟨ps, rfl, hvals⟩ := tameDict0_obj hent
      rw [hg] at h'
      rw [bind_ok_iff] at h'
      obtain ⟨ps', hps, h2⟩ := h'
      cases (pure_ok _ _).mp h2
      set R : JVal := .arr (ps.map (fun kv => JVal.str kv.1)) with hR
      set l1 : List (String × JVal) := jsetL l "required" R with hl1
      have ht1 : tameB b (.obj l1) = true := by
        refine (tameB_obj_iff b l1).mpr ⟨nodupKeys_jsetL l _ R hn, ?_, ?_, ?_⟩
        · unfold hasPropsIfObject isObjTyped at hp ⊢
          rw [hl1, jgetL_jsetL, if_neg (by decide), jgetL_jsetL, if_neg (by decide)]
          exact hp
        · unfold reqImpliesProps
          rw [hl1, jgetL_jsetL, if_pos rfl, jgetL_jsetL, if_neg (by decide), hg]
        · rw [tameKVsB_mem]
          intro kv hkv'
          rcases mem_jsetL l "required" R kv hkv' with hh | hh
          · rw [hh]
            rw [tameEntryB_other b "required" R (by decide) (by decide) (by decide)
              (by decide) (by decide) (by decide) (by decide) (by decide)]
            exact NoDictV_strArr ps
          · exact (tameKVsB_mem b l).mp hkv kv hh
      have hmid : ∀ m : List (String × JVal), (∀ kv ∈ m, tame0 kv.2 = true) →
          tameB b (.obj (jsetL l1 "properties" (.obj m))) = true := by
        intro m hmall
        refine (tameB_obj_iff b _).mpr
          ⟨nodupKeys_jsetL l1 _ _ ((tameB_obj_iff b l1).mp ht1).1, ?_, ?_, ?_⟩
        · unfold hasPropsIfObject
          rw [jgetL_jsetL, if_pos rfl]
          simp
        · unfold reqImpliesProps
          rw [jgetL_jsetL, if_neg (by decide), hl1, jgetL_jsetL, if_pos rfl,
            jgetL_jsetL, if_pos rfl]
        · rw [tameKVsB_mem]
          intro kv hkv'
          rcases mem_jsetL l1 "properties" (.obj m) kv hkv' with hh | hh
          · rw [hh, tameEntryB_props]
            show tameVals0 m = true
            exact (tameVals0_mem m).mpr hmall
          · exact (tameKVsB_mem b l1).mp ((tameB_obj_iff b l1).mp ht1).2.2.2 kv hh
      have hres := mapMWithCtx_master IH ps
        (fun r => ctx (jset (.obj l1) "properties" (.obj r)))
        ((tameVals0_mem ps).mp hvals)
        (fun m _ hmall => Hc _ (hmid m hmall))
        ps' hps
      refine ⟨jsetL l1 "properties" (.obj ps'), rfl, ?_, ?_, ?_, ?_⟩
      · exact hmid ps' (fun kv hkv' => sout_tame _ (hres.2 kv hkv'))
      · intro k hk1 hk2
        rw [jgetL_jsetL, if_neg (fun hh => hk2 hh.symm), hl1,
          jgetL_jsetL, if_neg (fun hh => hk1 hh.symm)]
      · unfold propReqExact
        rw [jgetL_jsetL, if_pos rfl, jgetL_jsetL, if_neg (by decide), hl1,
          jgetL_jsetL, if_pos rfl]
        show decide (some R = some (.arr (ps'.map (fun kv => JVal.str kv.1)))) = true
        rw [strKeys_eq hres.1]
        simp [hR]
      · intro w hw
        rw [jgetL_jsetL, if_pos rfl] at hw
        cases hw
        rw [soutEntryB_props]
        show soutVals0 ps' = true
        exact (soutVals0_mem ps').mpr hres.2

theorem stageItems_master {fuel : Nat} {b : Bool} {ctx : JVal → JVal}
    {l : List (String × JVal)} {out : JVal}
    (Hc : ∀ x, tameB b x = true → RootOk (ctx x))
    (IH : ∀ (ctx' : JVal → JVal) (j r : JVal),
      (∀ x, tame0 x = true → RootOk (ctx' x)) → tame0 j = true →
      strictAux fuel ctx' j = .ok r → sout0 r = true)
    (hT : tameB b (.obj l) = true)
    (h : stageItems (strictAux fuel) ctx (.obj l) = .ok out) :
    ∃ l', out = .obj l' ∧ tameB b (.obj l') = true ∧
      (∀ k, k ≠ "items" → jgetL l' k = jgetL l k) ∧
      (∀ v, jgetL l' "items" = some v → soutEntryB b "items" v = true) := by
  obtain ⟨hn, hp, hq, hkv⟩ := (tameB_obj_iff b l).mp hT
  have h' : (match jgetL l "items" with
      | some it =>
          if isDictB it then do
            let it' ← strictAux fuel (fun x => ctx (jset (.obj l) "items" x)) it
            pure (jset (.obj l) "items" it')
          else pure (.obj l)
      | none => pure (.obj l)) = .ok out := h
  cases hg : jgetL l "items" with
  | none =>
      rw [hg] at h'
      cases (pure_ok _ _).mp h'
      refine ⟨l, rfl, hT, fun k _ => rfl, ?_⟩
      intro v hv
      rw [hg] at hv
      exact nomatch hv
  | some it =>
      have hent := (tameKVsB_mem b l).mp hkv ("items", it)
        (jgetL_some_mem l _ it hg)
      rw [tameEntryB_items] at hent
      rw [hg] at h'
      have hx' : (if isDictB it then
          (do
            let it' ← strictAux fuel (fun x => ctx (jset (.obj l) "items" x)) it
            pure (jset (.obj l) "items" it') : Except Err JVal)
          else pure (.obj l)) = .ok out := h'
      by_cases hdi : isDictB it = true
      · rw [if_pos hdi] at hx' hent
        rw [bind_ok_iff] at hx'
        obtain ⟨it', hit, h2⟩ := hx'
        cases (pure_ok _ _).mp h2
        have hcv : ∀ x, tame0 x = true → RootOk (ctx (jset (.obj l) "items" x)) := by
          intro x hx
          refine Hc _ ?_
          show tameB b (.obj (jsetL l "items" x)) = true
          refine tameB_jsetL hT (by decide) (by decide) (by decide) ?_
          rw [tameEntryB_items, if_pos (tame0_isObj hx)]
          exact hx
        have hit' : sout0 it' = true := IH _ it it' hcv hent hit
        refine ⟨jsetL l "items" it', rfl, ?_, ?_, ?_⟩
        · refine tameB_jsetL hT (by decide) (by decide) (by decide) ?_
          rw [tameEntryB_items, if_pos (sout0_isDict hit')]
          exact sout_tame it' hit'
        · intro k hk
          rw [jgetL_jsetL, if_neg (fun hh => hk hh.symm)]
        · intro w hw
          rw [jgetL_jsetL, if_pos rfl] at hw
          cases hw
          rw [soutEntryB_items, if_pos (sout0_isDict hit')]
          exact hit'
      · rw [if_neg hdi] at hx'
        rw [if_neg hdi] at hent
        cases (pure_ok _ _).mp hx'
        refine ⟨l, rfl, hT, fun k _ => rfl, ?_⟩
        intro w hw
        rw [hg] at hw
        cases hw
        rw [soutEntryB_items, if_neg hdi]
        exact hent

theorem stageAnyOf_master {fuel : Nat} {b : Bool} {ctx : JVal → JVal}
    {l : List (String × JVal)} {out : JVal}
    (Hc : ∀ x, tameB b x = true → RootOk (ctx x))
    (IH : ∀ (ctx' : JVal → JVal) (j r : JVal),
      (∀ x, tame0 x = true → RootOk (ctx' x)) → tame0 j = true →
      strictAux fuel ctx' j = .ok r → sout0 r = true)
    (hT : tameB b (.obj l) = true)
    (h : stageAnyOf (strictAux fuel) ctx (.obj l) = .ok out) :
    ∃ l', out = .obj l' ∧ tameB b (.obj l') = true ∧
      (∀ k, k ≠ "anyOf" → jgetL l' k = jgetL l k) ∧
      (∀ v, jgetL l' "anyOf" = some v → soutEntryB b "anyOf" v = true) := by
  obtain ⟨hn, hp, hq, hkv⟩ := (tameB_obj_iff b l).mp hT
  have h' : (match jgetL l "anyOf" with
      | some (.arr vs) => do
          let vs' ← mapMWithCtxL (strictAux fuel)
            (fun r => ctx (jset (.obj l) "anyOf" (.arr r))) vs
          pure (jset (.obj l) "anyOf" (.arr vs'))
      | _ => pure (.obj l)) = .ok out := h
  cases hg : jgetL l "anyOf" with
  | none =>
      rw [hg] at h'
      cases (pure_ok _ _).mp h'
      refine ⟨l, rfl, hT, fun k _ => rfl, ?_⟩
      intro v hv
      rw [hg] at hv
      exact nomatch hv
  | some v =>
      have hent := (tameKVsB_mem b l).mp hkv ("anyOf", v)
        (jgetL_some_mem l _ v hg)
      rw [tameEntryB_anyOf] at hent
      obtain ⟨vs, rfl, helems⟩ := tameList0_arr hent
      rw [hg] at h'
      rw [bind_ok_iff] at h'
      obtain ⟨vs', hvs, h2⟩ := h'
      cases (pure_ok _ _).mp h2
      have hres := mapMWithCtxL_master IH vs
        (fun r => ctx (jset (.obj l) "anyOf" (.arr r)))
        ((tameElems0_mem vs).mp helems)
        (fun m hmall => by
          refine Hc _ ?_
          show tameB b (.obj (jsetL l "anyOf" (.arr m))) = true
          refine tameB_jsetL hT (by decide) (by decide) (by decide) ?_
          rw [tameEntryB_anyOf]
          show tameElems0 m = true
          exact (tameElems0_mem m).mpr hmall)
        vs' hvs
      refine ⟨jsetL l "anyOf" (.arr vs'), rfl, ?_, ?_, ?_⟩
      · refine tameB_jsetL hT (by decide) (by decide) (by decide) ?_
        rw [tameEntryB_anyOf]
        show tameElems0 vs' = true
        exact (tameElems0_mem vs').mpr (fun w hw => sout_tame w (hres.2 w hw))
      · intro k hk
        rw [jgetL_jsetL, if_neg (fun hh => hk hh.symm)]
      · intro w hw
        rw [jgetL_jsetL, if_pos rfl] at hw
        cases hw
        rw [soutEntryB_anyOf]
        show soutElems0 vs' = true
        exact (soutElems0_mem vs').mpr hres.2

/-- The `allOf` singleton splice `{**j, **a'} minus allOf` of a processed
member `a'` into the mid-pipeline node `j` preserves every fact established
so far and leaves no `allOf` behind: `a'`'s strict-output facts cover every
key it overrides, and `propReqExact`'s both-or-neither shape makes
`required`/`properties` override together. -/
theorem splice_sout {b : Bool} {l am : List (String × JVal)}
    (hT : tameB b (.obj l) = true)
    (hcl : stClosed l = true) (hrx : propReqExact l = true)
    (hks : KsP b l ["allOf"])
    (hA : sout0 (.obj am) = true) :
    tameB b (.obj (jeraseL (updL l am) "allOf")) = true ∧
    stClosed (jeraseL (updL l am) "allOf") = true ∧
    propReqExact (jeraseL (updL l am) "allOf") = true ∧
    KsP b (jeraseL (updL l am) "allOf") [] ∧
    allOfLenOk (jeraseL (updL l am) "allOf") = true := by
  obtain ⟨hn, hp, hq, hkv⟩ := (tameB_obj_iff b l).mp hT
  have hA' := hA
  rw [sout0_eq] at hA'
  obtain ⟨hnA, hpA, hcA, hxA, hbrA, hndA, haoA, hkvA⟩ := (soutB_obj_iff false am).mp hA'
  have hu : ∀ k, jgetL (updL l am) k =
      (match jgetL am k with | some v => some v | none => jgetL l k) :=
    fun k => jgetL_updL am hnA l k
  have hlke : ∀ k, k ≠ "allOf" →
      jgetL (jeraseL (updL l am) "allOf") k = jgetL (updL l am) k := by
    intro k hk
    rw [jgetL_jeraseL, if_neg hk]
  have hAent : ∀ k v, jgetL am k = some v → soutEntryB b k v = true := by
    intro k v hgv
    exact soutEntryB_mono b
      ((soutKVsB_mem false am).mp hkvA (k, v) (jgetL_some_mem am k v hgv))
  have hpropsAm : ∀ pv, jgetL am "properties" = some pv →
      ∃ ds, pv = .obj ds := by
    intro pv hpv
    have hent := hAent "properties" pv hpv
    rw [soutEntryB_props] at hent
    obtain ⟨ds, h1, _⟩ := soutDict0_obj hent
    exact ⟨ds, h1⟩
  -- entries of the merge are strict-grade except possibly at `allOf`
  have hKs : KsP b (jeraseL (updL l am) "allOf") [] := by
    intro k v _ hget
    by_cases hka : k = "allOf"
    · subst hka
      rw [jgetL_jeraseL, if_pos rfl] at hget
      exact nomatch hget
    · rw [hlke k hka, hu k] at hget
      cases hgA : jgetL am k with
      | some w =>
          rw [hgA] at hget
          exact (Option.some.inj hget) ▸ hAent k w hgA
      | none =>
          rw [hgA] at hget
          exact hks k v (by simp [hka]) hget
  -- object closure of the merge
  have hcl' : stClosed (jeraseL (updL l am) "allOf") = true := by
    unfold stClosed isObjTyped
    rw [hlke "type" (by decide), hu "type",
      hlke "additionalProperties" (by decide), hu "additionalProperties"]
    cases hta : jgetL am "type" with
    | some tv =>
        by_cases hto : tv = .str "object"
        · subst hto
          have hcA2 : decide (jgetL am "additionalProperties" =
              some (.bool false)) = true := by
            unfold stClosed isObjTyped at hcA
            rw [hta] at hcA
            simpa using hcA
          have haA : jgetL am "additionalProperties" = some (.bool false) := by
            simpa using hcA2
          rw [haA]
          simp
        · have hdec : decide ((some tv : Option JVal) =
              some (.str "object")) = false := by
            simp [hto]
          show (!decide ((some tv : Option JVal) = some (.str "object")) || _) = true
          rw [hdec]
          rfl
    | none =>
        by_cases hlo : jgetL l "type" = some (.str "object")
        · have hclA : jgetL l "additionalProperties" = some (.bool false) := by
            unfold stClosed isObjTyped at hcl
            rw [hlo] at hcl
            simpa using hcl
          cases haa : jgetL am "additionalProperties" with
          | some av =>
              have hent := hAent "additionalProperties" av haa
              rw [soutEntryB_addl] at hent
              have hav : av = .bool false := by simpa using hent
              subst hav
              simp [hlo]
          | none =>
              rw [hclA]
              simp
        · show (!decide (jgetL l "type" = some (.str "object")) || _) = true
          simp [hlo]
  -- required/properties exactness of the merge
  have hrx' : propReqExact (jeraseL (updL l am) "allOf") = true := by
    unfold propReqExact
    rw [hlke "properties" (by decide), hu "properties",
      hlke "required" (by decide), hu "required"]
    cases hpa : jgetL am "properties" with
    | some pv =>
        obtain ⟨ds, rfl⟩ := hpropsAm pv hpa
        have hxA2 : decide (jgetL am "required" =
            some (.arr (ds.map (fun kv => JVal.str kv.1)))) = true := by
          unfold propReqExact at hxA
          rw [hpa] at hxA
          exact hxA
        have hra : jgetL am "required" =
            some (.arr (ds.map (fun kv => JVal.str kv.1))) := by
          simpa using hxA2
        rw [hra]
        simp
    | none =>
        have hra : jgetL am "required" = none := by
          have hxA2 : decide (jgetL am "required" = none) = true := by
            unfold propReqExact at hxA
            rw [hpa] at hxA
            exact hxA
          simpa using hxA2
        rw [hra]
        exact hrx
  -- well-formedness of the merge
  have hp' : hasPropsIfObject (jeraseL (updL l am) "allOf") = true := by
    unfold hasPropsIfObject isObjTyped
    rw [hlke "type" (by decide), hu "type",
      hlke "properties" (by decide), hu "properties"]
    cases hpa : jgetL am "properties" with
    | some pv =>
        obtain ⟨ds, rfl⟩ := hpropsAm pv hpa
        exact Bool.or_true _
    | none =>
        cases hta : jgetL am "type" with
        | none => exact hp
        | some tv =>
            by_cases hto : tv = .str "object"
            · subst hto
              have hcontra : hasPropsIfObject am = true := hpA
              unfold hasPropsIfObject isObjTyped at hcontra
              rw [hta, hpa] at hcontra
              simp at hcontra
            · have hdec : decide ((some tv : Option JVal) =
                  some (.str "object")) = false := by
                simp [hto]
              show (!decide ((some tv : Option JVal) = some (.str "object")) || _) = true
              rw [hdec]
              rfl
  have hT' : tameB b (.obj (jeraseL (updL l am) "allOf")) = true := by
    refine (tameB_obj_iff b _).mpr
      ⟨nodupKeys_jeraseL _ _ (nodupKeys_updL l am hn), hp',
        propReqExact_reqImplies _ hrx', ?_⟩
    rw [tameKVsB_mem]
    intro kv hkv'
    obtain ⟨hm1, _⟩ := mem_jeraseL _ _ _ hkv'
    rcases mem_updL am l kv hm1 with hh | hh
    · exact (tameKVsB_mem b l).mp hkv kv hh
    · exact sout_entryB (soutEntryB_mono b
        ((soutKVsB_mem false am).mp hkvA kv hh))
  have hao' : allOfLenOk (jeraseL (updL l am) "allOf") = true := by
    unfold allOfLenOk
    rw [jgetL_jeraseL, if_pos rfl]
  exact ⟨hT', hcl', hrx', hKs, hao'⟩

theorem stageAllOf_master {fuel : Nat} {b : Bool} {ctx : JVal → JVal}
    {l : List (String × JVal)} {out : JVal}
    (Hc : ∀ x, tameB b x = true → RootOk (ctx x))
    (IH : ∀ (ctx' : JVal → JVal) (j r : JVal),
      (∀ x, tame0 x = true → RootOk (ctx' x)) → tame0 j = true →
      strictAux fuel ctx' j = .ok r → sout0 r = true)
    (hT : tameB b (.obj l) = true)
    (hcl : stClosed l = true) (hrx : propReqExact l = true)
    (hks : KsP b l ["allOf"])
    (h : stageAllOf (strictAux fuel) ctx (.obj l) = .ok out) :
    ∃ l', out = .obj l' ∧ tameB b (.obj l') = true ∧
      stClosed l' = true ∧ propReqExact l' = true ∧
      KsP b l' [] ∧ allOfLenOk l' = true := by
  obtain ⟨hn, hp, hq, hkv⟩ := (tameB_obj_iff b l).mp hT
  have h' : (match jgetL l "allOf" with
      | some (.arr [a]) => do
          let a' ← strictAux fuel (fun x => ctx (jset (.obj l) "allOf" (.arr [x]))) a
          pure (jerase (pyUpdate (.obj l) a') "allOf")
      | some (.arr vs) => do
          let vs' ← mapMWithCtxL (strictAux fuel)
            (fun r => ctx (jset (.obj l) "allOf" (.arr r))) vs
          pure (jset (.obj l) "allOf" (.arr vs'))
      | _ => pure (.obj l)) = .ok out := h
  have hmulti : ∀ vs : List JVal, tameElems0 vs = true → vs.length ≠ 1 →
      jgetL l "allOf" = some (.arr vs) →
      ((do
        let vs' ← mapMWithCtxL (strictAux fuel)
          (fun r => ctx (jset (.obj l) "allOf" (.arr r))) vs
        pure (jset (.obj l) "allOf" (.arr vs'))) : Except Err JVal) = .ok out →
      ∃ l', out = .obj l' ∧ tameB b (.obj l') = true ∧
        stClosed l' = true ∧ propReqExact l' = true ∧
        KsP b l' [] ∧ allOfLenOk l' = true := by
    intro vs helems hlen hg hdo
    rw [bind_ok_iff] at hdo
    obtain ⟨vs', hvs, h2⟩ := hdo
    cases (pure_ok _ _).mp h2
    have hres := mapMWithCtxL_master IH vs
      (fun r => ctx (jset (.obj l) "allOf" (.arr r)))
      ((tameElems0_mem vs).mp helems)
      (fun m hmall => by
        refine Hc _ ?_
        show tameB b (.obj (jsetL l "allOf" (.arr m))) = true
        refine tameB_jsetL hT (by decide) (by decide) (by decide) ?_
        rw [tameEntryB_allOf]
        show tameElems0 m = true
        exact (tameElems0_mem m).mpr hmall)
      vs' hvs
    refine ⟨jsetL l "allOf" (.arr vs'), rfl, ?_, ?_, ?_, ?_, ?_⟩
    · refine tameB_jsetL hT (by decide) (by decide) (by decide) ?_
      rw [tameEntryB_allOf]
      show tameElems0 vs' = true
      exact (tameElems0_mem vs').mpr (fun w hw => sout_tame w (hres.2 w hw))
    · unfold stClosed isObjTyped at hcl ⊢
      rw [jgetL_jsetL, if_neg (by decide), jgetL_jsetL, if_neg (by decide)]
      exact hcl
    · unfold propReqExact at hrx ⊢
      rw [jgetL_jsetL, if_neg (by decide), jgetL_jsetL, if_neg (by decide)]
      exact hrx
    · intro k v _ hget
      by_cases hka : k = "allOf"
      · subst hka
        rw [jgetL_jsetL, if_pos rfl] at hget
        cases hget
        rw [soutEntryB_allOf]
        show soutElems0 vs' = true
        exact (soutElems0_mem vs').mpr hres.2
      · rw [jgetL_jsetL, if_neg (fun hh => hka hh.symm)] at hget
        exact hks k v (by simp [hka]) hget
    · unfold allOfLenOk
      rw [jgetL_jsetL, if_pos rfl]
      show decide (vs'.length ≠ 1) = true
      rw [hres.1]
      simp [hlen]
  cases hg : jgetL l "allOf" with
  | none =>
      rw [hg] at h'
      cases (pure_ok _ _).mp h'
      refine ⟨l, rfl, hT, hcl, hrx, ?_, ?_⟩
      · intro k v _ hget
        by_cases hka : k = "allOf"
        · subst hka
          rw [hg] at hget
          exact nomatch hget
        · exact hks k v (by simp [hka]) hget
      · unfold allOfLenOk
        rw [hg]
  | some v =>
      have hent := (tameKVsB_mem b l).mp hkv ("allOf", v)
        (jgetL_some_mem l _ v hg)
      rw [tameEntryB_allOf] at hent
      obtain ⟨vs, rfl, helems⟩ := tameList0_arr hent
      rw [hg] at h'
      cases vs with
      | nil =>
          exact hmulti [] helems (by decide) hg h'
      | cons a rest =>
          cases rest with
          | nil =>
              have hone : ((do
                  let a' ← strictAux fuel
                    (fun x => ctx (jset (.obj l) "allOf" (.arr [x]))) a
                  pure (jerase (pyUpdate (.obj l) a') "allOf")) :
                  Except Err JVal) = .ok out := h'
              rw [bind_ok_iff] at hone
              obtain ⟨a', ha, h2⟩ := hone
              cases (pure_ok _ _).mp h2
              have hta : tame0 a = true := by
                have : (tame0 a && tameElems0 ([] : List JVal)) = true := helems
                rw [Bool.and_eq_true] at this
                exact this.1
              have hcv : ∀ x, tame0 x = true →
                  RootOk (ctx (jset (.obj l) "allOf" (.arr [x]))) := by
                intro x hx
                refine Hc _ ?_
                show tameB b (.obj (jsetL l "allOf" (.arr [x]))) = true
                refine tameB_jsetL hT (by decide) (by decide) (by decide) ?_
                rw [tameEntryB_allOf]
                show (tame0 x && tameElems0 ([] : List JVal)) = true
                rw [Bool.and_eq_true]
                exact ⟨hx, rfl⟩
              have ha' : sout0 a' = true := IH _ a a' hcv hta ha
              obtain ⟨am, rfl⟩ := sout0_isObj ha'
              obtain ⟨hT', hcl', hrx', hKs, hao'⟩ := splice_sout hT hcl hrx hks ha'
              exact ⟨jeraseL (updL l am) "allOf", rfl, hT', hcl', hrx', hKs, hao'⟩
          | cons c t =>
              exact hmulti (a :: c :: t) helems (by simp) hg h'

/-- Python dict merge of two well-formed nodes is well-formed. -/
theorem tame_updL {b : Bool} {a bs : List (String × JVal)}
    (ha : tameB b (.obj a) = true) (hb : tameB b (.obj bs) = true) :
    tameB b (.obj (updL a bs)) = true := by
  obtain ⟨hna, hpa, hqa, hkva⟩ := (tameB_obj_iff b a).mp ha
  obtain ⟨hnb, hpb, hqb, hkvb⟩ := (tameB_obj_iff b bs).mp hb
  have hu : ∀ k, jgetL (updL a bs) k =
      (match jgetL bs k with | some v => some v | none => jgetL a k) :=
    fun k => jgetL_updL bs hnb a k
  have hpropsB : ∀ pv, jgetL bs "properties" = some pv → ∃ ds, pv = .obj ds := by
    intro pv hpv
    have hent := (tameKVsB_mem b bs).mp hkvb ("properties", pv)
      (jgetL_some_mem bs _ pv hpv)
    rw [tameEntryB_props] at hent
    obtain ⟨ds, h1, _⟩ := tameDict0_obj hent
    exact ⟨ds, h1⟩
  have hpropsA : ∀ pv, jgetL a "properties" = some pv → ∃ ds, pv = .obj ds := by
    intro pv hpv
    have hent := (tameKVsB_mem b a).mp hkva ("properties", pv)
      (jgetL_some_mem a _ pv hpv)
    rw [tameEntryB_props] at hent
    obtain ⟨ds, h1, _⟩ := tameDict0_obj hent
    exact ⟨ds, h1⟩
  refine (tameB_obj_iff b _).mpr ⟨nodupKeys_updL a bs hna, ?_, ?_, ?_⟩
  · unfold hasPropsIfObject isObjTyped
    rw [hu "type", hu "properties"]
    cases hpv : jgetL bs "properties" with
    | some pv =>
        obtain ⟨ds, rfl⟩ := hpropsB pv hpv
        exact Bool.or_true _
    | none =>
        cases hta : jgetL bs "type" with
        | none =>
            cases hpv2 : jgetL a "properties" with
            | some pv =>
                obtain ⟨ds, rfl⟩ := hpropsA pv hpv2
                exact Bool.or_true _
            | none =>
                unfold hasPropsIfObject isObjTyped at hpa
                rw [hpv2] at hpa
                simpa using hpa
        | some tv =>
            by_cases hto : tv = .str "object"
            · subst hto
              unfold hasPropsIfObject isObjTyped at hpb
              rw [hta, hpv] at hpb
              simp at hpb
            · have hdec : decide ((some tv : Option JVal) =
                  some (.str "object")) = false := by simp [hto]
              show (!decide ((some tv : Option JVal) = some (.str "object")) || _) = true
              rw [hdec]
              rfl
  · unfold reqImpliesProps
    rw [hu "required", hu "properties"]
    cases hrb : jgetL bs "required" with
    | some w =>
        unfold reqImpliesProps at hqb
        rw [hrb] at hqb
        cases hpv : jgetL bs "properties" with
        | some pv =>
            obtain ⟨ds, rfl⟩ := hpropsB pv hpv
            rfl
        | none =>
            rw [hpv] at hqb
            exact nomatch hqb
    | none =>
        cases hra : jgetL a "required" with
        | none => rfl
        | some w =>
            unfold reqImpliesProps at hqa
            rw [hra] at hqa
            cases hpv : jgetL bs "properties" with
            | some pv =>
                obtain ⟨ds, rfl⟩ := hpropsB pv hpv
                rfl
            | none =>
                cases hpv2 : jgetL a "properties" with
                | some pv =>
                    obtain ⟨ds, rfl⟩ := hpropsA pv hpv2
                    rfl
                | none =>
                    rw [hpv2] at hqa
                    exact nomatch hqa
  · rw [tameKVsB_mem]
    intro kv hkv'
    rcases mem_updL bs a kv hkv' with hh | hh
    · exact (tameKVsB_mem b a).mp hkva kv hh
    · exact (tameKVsB_mem b bs).mp hkvb kv hh

/-- Removing an entry away from the `type` / `properties` / `required`
triangle preserves well-formedness. -/
theorem tameB_jeraseL {b : Bool} {l : List (String × JVal)} {key : String}
    (hT : tameB b (.obj l) = true)
    (hne1 : key ≠ "type") (hne2 : key ≠ "properties") (hne3 : key ≠ "required") :
    tameB b (.obj (jeraseL l key)) = true := by
  obtain ⟨hn, hp, hq, hkv⟩ := (tameB_obj_iff b l).mp hT
  refine (tameB_obj_iff b _).mpr ⟨nodupKeys_jeraseL l key hn, ?_, ?_, ?_⟩
  · unfold hasPropsIfObject isObjTyped at hp ⊢
    rw [jgetL_jeraseL, if_neg (fun hh => hne1 hh.symm),
      jgetL_jeraseL, if_neg (fun hh => hne2 hh.symm)]
    exact hp
  · unfold reqImpliesProps at hq ⊢
    rw [jgetL_jeraseL, if_neg (fun hh => hne3 hh.symm),
      jgetL_jeraseL, if_neg (fun hh => hne2 hh.symm)]
    exact hq
  · rw [tameKVsB_mem]
    intro kv hkv'
    obtain ⟨hm, _⟩ := mem_jeraseL l key kv hkv'
    exact (tameKVsB_mem b l).mp hkv kv hm

theorem stageDefault_master {b : Bool} {l : List (String × JVal)}
    (hT : tameB b (.obj l) = true)
    (hcl : stClosed l = true) (hrx : propReqExact l = true)
    (hks : KsP b l []) (hao : allOfLenOk l = true) :
    ∃ l', stageDefault (.obj l) = .obj l' ∧ tameB b (.obj l') = true ∧
      stClosed l' = true ∧ propReqExact l' = true ∧ KsP b l' [] ∧
      allOfLenOk l' = true ∧ noNullDefault l' = true := by
  have hsd : stageDefault (.obj l) =
      (if jgetL l "default" = some .null then .obj (jeraseL l "default")
       else .obj l) := rfl
  rw [hsd]
  by_cases hd : jgetL l "default" = some .null
  · rw [if_pos hd]
    refine ⟨jeraseL l "default", rfl, ?_, ?_, ?_, ?_, ?_, ?_⟩
    · exact tameB_jeraseL hT (by decide) (by decide) (by decide)
    · unfold stClosed isObjTyped at hcl ⊢
      rw [jgetL_jeraseL, if_neg (by decide), jgetL_jeraseL, if_neg (by decide)]
      exact hcl
    · unfold propReqExact at hrx ⊢
      rw [jgetL_jeraseL, if_neg (by decide), jgetL_jeraseL, if_neg (by decide)]
      exact hrx
    · intro k v _ hget
      by_cases hkd : k = "default"
      · subst hkd
        rw [jgetL_jeraseL, if_pos rfl] at hget
        exact nomatch hget
      · rw [jgetL_jeraseL, if_neg hkd] at hget
        exact hks k v (by simp) hget
    · unfold allOfLenOk at hao ⊢
      rw [jgetL_jeraseL, if_neg (by decide)]
      exact hao
    · unfold noNullDefault
      rw [jgetL_jeraseL, if_pos rfl]
      simp
  · rw [if_neg hd]
    refine ⟨l, rfl, hT, hcl, hrx, hks, hao, ?_⟩
    unfold noNullDefault
    simpa using hd

theorem stageRef_master {fuel : Nat} {b : Bool} {ctx : JVal → JVal}
    {l : List (String × JVal)} {out : JVal}
    (Hc : ∀ x, tameB b x = true → RootOk (ctx x))
    (IHB : ∀ (ctx' : JVal → JVal) (j r : JVal),
      (∀ x, tameB b x = true → RootOk (ctx' x)) → tameB b j = true →
      strictAux fuel ctx' j = .ok r → soutB b r = true)
    (hT : tameB b (.obj l) = true)
    (hcl : stClosed l = true) (hrx : propReqExact l = true)
    (hks : KsP b l []) (hao : allOfLenOk l = true) (hnd : noNullDefault l = true)
    (h : stageRef (strictAux fuel) ctx (.obj l) = .ok out) :
    soutB b out = true := by
  obtain ⟨hn, hp, hq, hkv⟩ := (tameB_obj_iff b l).mp hT
  have hentries : soutKVsB b l = true := by
    rw [soutKVsB_mem]
    intro kv hkv'
    exact hks kv.1 kv.2 (by simp) (mem_jgetL l hn kv.1 kv.2 hkv')
  have h' : (match jgetL l "$ref" with
      | some rv =>
          if jTruthy rv then
            match rv with
            | .str r =>
                if hasMoreThanOneKey (.obj l) then do
                  let resolved ← resolve_ref (ctx (.obj l)) r
                  if isDictB resolved then
                    strictAux fuel ctx
                      (jerase (pyUpdate (.obj l) (pyUpdate resolved (.obj l))) "$ref")
                  else .error (.refNotDict r)
                else pure (.obj l)
            | _ => .error .nonStringRef
          else pure (.obj l)
      | none => pure (.obj l)) = .ok out := h
  cases hg : jgetL l "$ref" with
  | none =>
      rw [hg] at h'
      cases (pure_ok _ _).mp h'
      refine (soutB_obj_iff b l).mpr ⟨hn, hp, hcl, hrx, ?_, hnd, hao, hentries⟩
      unfold bareRefOnly
      rw [hg]
  | some rv =>
      have hent := (tameKVsB_mem b l).mp hkv ("$ref", rv)
        (jgetL_some_mem l _ rv hg)
      rw [tameEntryB_ref] at hent
      cases rv with
      | null => exact nomatch hent
      | bool _ => exact nomatch hent
      | num _ => exact nomatch hent
      | arr _ => exact nomatch hent
      | obj _ => exact nomatch hent
      | str r =>
          have hrefok : refOk r = true := hent
          rw [hg] at h'
          have htr : jTruthy (.str r) = true := by
            show decide (r ≠ "") = true
            simp [refOk_ne_empty hrefok]
          have hx : ((if jTruthy (.str r) then
              (if hasMoreThanOneKey (.obj l) then do
                  let resolved ← resolve_ref (ctx (.obj l)) r
                  if isDictB resolved then
                    strictAux fuel ctx
                      (jerase (pyUpdate (.obj l) (pyUpdate resolved (.obj l))) "$ref")
                  else .error (.refNotDict r)
                else pure (.obj l))
            else pure (.obj l)) : Except Err JVal) = .ok out := h'
          rw [if_pos htr] at hx
          by_cases hmore : hasMoreThanOneKey (.obj l) = true
          · rw [if_pos hmore] at hx
            rw [bind_ok_iff] at hx
            obtain ⟨resolved, hres, h2⟩ := hx
            have hrt : tame0 resolved = true := Hc (.obj l) hT r resolved hrefok hres
            obtain ⟨dm, rfl⟩ := tameB_isObj (tame0_tameB false hrt : tameB false _ = true)
            rw [if_pos (show isDictB (JVal.obj dm) = true from rfl)] at h2
            have hdm : tameB b (.obj dm) = true := by
              rw [tame0_eq] at hrt
              obtain ⟨hn2, hp2, hq2, hkv2⟩ := (tameB_obj_iff false dm).mp hrt
              refine (tameB_obj_iff b dm).mpr ⟨hn2, hp2, hq2, ?_⟩
              rw [tameKVsB_mem]
              intro kv hkv'
              exact tameEntryB_mono b ((tameKVsB_mem false dm).mp hkv2 kv hkv')
            have hmerge : tameB b
                (.obj (jeraseL (updL l (updL dm l)) "$ref")) = true :=
              tameB_jeraseL (tame_updL hT (tame_updL hdm hT))
                (by decide) (by decide) (by decide)
            exact IHB ctx _ out Hc hmerge h2
          · rw [if_neg hmore] at hx
            cases (pure_ok _ _).mp hx
            refine (soutB_obj_iff b l).mpr ⟨hn, hp, hcl, hrx, ?_, hnd, hao, hentries⟩
            unfold bareRefOnly
            rw [hg]
            have hlen1 : 1 ≤ l.length :=
              List.length_pos.mpr (List.ne_nil_of_mem (jgetL_some_mem l _ _ hg))
            have hlen2 : ¬(1 < l.length) := by
              intro hlt
              exact hmore (by simpa [hasMoreThanOneKey] using hlt)
            have : l.length = 1 := by omega
            simp [this]

/-- Master invariant of the strict pass: on a well-formed node whose context
rebuilds only well-formed documents, every successful run returns a node
satisfying the full strict-output invariant (closure, exact `required`,
bare-ref-only, stripped null defaults, no singleton `allOf`, definition
containers only where allowed). -/
theorem strict_masterB : ∀ (fuel : Nat) (b : Bool) (ctx : JVal → JVal) (j r : JVal),
    (∀ x, tameB b x = true → RootOk (ctx x)) → tameB b j = true →
    strictAux fuel ctx j = .ok r → soutB b r = true
  | 0, _, _, _, _, _, _, h => nomatch h
  | fuel + 1, b, ctx, j, r, Hc, hT, h => by
      obtain ⟨l, rfl⟩ := tameB_isObj hT
      have h' : (do
          let j1 ← stageDefs (strictAux fuel) ctx (.obj l) "$defs"
          let j2 ← stageDefs (strictAux fuel) ctx j1 "definitions"
          let j3 ← stageType j2
          let j4 ← stageProps (strictAux fuel) ctx j3
          let j5 ← stageItems (strictAux fuel) ctx j4
          let j6 ← stageAnyOf (strictAux fuel) ctx j5
          let j7 ← stageAllOf (strictAux fuel) ctx j6
          stageRef (strictAux fuel) ctx (stageDefault j7)) = .ok r := h
      have IHB : ∀ (ctx' : JVal → JVal) (j' r' : JVal),
          (∀ x, tameB b x = true → RootOk (ctx' x)) → tameB b j' = true →
          strictAux fuel ctx' j' = .ok r' → soutB b r' = true :=
        fun ctx' j' r' => strict_masterB fuel b ctx' j' r'
      have IH0 : ∀ (ctx' : JVal → JVal) (j' r' : JVal),
          (∀ x, tame0 x = true → RootOk (ctx' x)) → tame0 j' = true →
          strictAux fuel ctx' j' = .ok r' → sout0 r' = true := by
        intro ctx' j' r' hc' ht' hrun
        rw [sout0_eq]
        refine strict_masterB fuel false ctx' j' r' ?_ ?_ hrun
        · intro x hx
          rw [← tame0_eq] at hx
          exact hc' x hx
        · rw [← tame0_eq]
          exact ht'
      rw [bind_ok_iff] at h'
      obtain ⟨o1, h1, h'⟩ := h'
      obtain ⟨l1, rfl, hT1, hlk1, hK1⟩ := stageDefs_master (Or.inl rfl) Hc IH0 hT h1
      rw [bind_ok_iff] at h'
      obtain ⟨o2, h2, h'⟩ := h'
      obtain ⟨l2, rfl, hT2, hlk2, hK2⟩ := stageDefs_master (Or.inr rfl) Hc IH0 hT1 h2
      rw [bind_ok_iff] at h'
      obtain ⟨o3, h3, h'⟩ := h'
      obtain ⟨l3, rfl, hT3, hlk3, hcl3⟩ := stageType_master hT2 h3
      rw [bind_ok_iff] at h'
      obtain ⟨o4, h4, h'⟩ := h'
      obtain ⟨l4, rfl, hT4, hlk4, hrx4, hK4⟩ := stageProps_master Hc IH0 hT3 h4
      rw [bind_ok_iff] at h'
      obtain ⟨o5, h5, h'⟩ := h'
      obtain ⟨l5, rfl, hT5, hlk5, hK5⟩ := stageItems_master Hc IH0 hT4 h5
      rw [bind_ok_iff] at h'
      obtain ⟨o6, h6, h'⟩ := h'
      obtain ⟨l6, rfl, hT6, hlk6, hK6⟩ := stageAnyOf_master Hc IH0 hT5 h6
      rw [bind_ok_iff] at h'
      obtain ⟨o7, h7, h'⟩ := h'
      -- transport closure and exactness to the pre-allOf state
      have hty : jgetL l6 "type" = jgetL l3 "type" := by
        rw [hlk6 "type" (by decide), hlk5 "type" (by decide),
          hlk4 "type" (by decide) (by decide)]
      have had : jgetL l6 "additionalProperties" =
          jgetL l3 "additionalProperties" := by
        rw [hlk6 _ (by decide), hlk5 _ (by decide), hlk4 _ (by decide) (by decide)]
      have hcl6 : stClosed l6 = true := by
        unfold stClosed isObjTyped at hcl3 ⊢
        rw [hty, had]
        exact hcl3
      have hpr : jgetL l6 "properties" = jgetL l4 "properties" := by
        rw [hlk6 _ (by decide), hlk5 _ (by decide)]
      have hrq : jgetL l6 "required" = jgetL l4 "required" := by
        rw [hlk6 _ (by decide), hlk5 _ (by decide)]
      have hrx6 : propReqExact l6 = true := by
        unfold propReqExact at hrx4 ⊢
        rw [hpr, hrq]
        exact hrx4
      have hks6 : KsP b l6 ["allOf"] := by
        intro k v hkex hget
        have hka : k ≠ "allOf" := by simpa using hkex
        by_cases h7k : k = "$defs"
        · subst h7k
          rw [hlk6 _ (by decide), hlk5 _ (by decide),
            hlk4 _ (by decide) (by decide), hlk3 _ (by decide),
            hlk2 _ (by decide)] at hget
          exact hK1 v hget
        by_cases h8k : k = "definitions"
        · subst h8k
          rw [hlk6 _ (by decide), hlk5 _ (by decide),
            hlk4 _ (by decide) (by decide), hlk3 _ (by decide)] at hget
          exact hK2 v hget
        by_cases h2k : k = "properties"
        · subst h2k
          rw [hlk6 _ (by decide), hlk5 _ (by decide)] at hget
          exact hK4 v hget
        by_cases h3k : k = "items"
        · subst h3k
          rw [hlk6 _ (by decide)] at hget
          exact hK5 v hget
        by_cases h4k : k = "anyOf"
        · subst h4k
          exact hK6 v hget
        · exact tame_KsP ((tameB_obj_iff b l6).mp hT6).2.2.2 k v
            (by simp [h2k, h3k, h4k, hka, h7k, h8k]) hget
      obtain ⟨l7, rfl, hT7, hcl7, hrx7, hK7, hao7⟩ :=
        stageAllOf_master Hc IH0 hT6 hcl6 hrx6 hks6 h7
      obtain ⟨l8, hdef8, hT8, hcl8, hrx8, hK8, hao8, hnd8⟩ :=
        stageDefault_master hT7 hcl7 hrx7 hK7 hao7
      rw [hdef8] at h'
      exact stageRef_master Hc IHB hT8 hcl8 hrx8 hK8 hao8 hnd8 h'

/-! ## Master lemmas for the ref inliner -/

theorem cleanKVs_mem : ∀ (key : String) (l : List (String × JVal)),
    cleanKVs key l = true ↔
      ∀ kv ∈ l, (if kv.1 = "properties" || kv.1 = "$defs" || kv.1 = "definitions"
        then cleanCont key kv.2 else cleanDeep key kv.2) = true
  | key, [] => by simp [cleanKVs]
  | key, (k, v) :: t => by
      rw [cleanKVs_cons, Bool.and_eq_true, cleanKVs_mem key t]
      constructor
      · rintro ⟨h1, h2⟩ kv hkv
        rcases List.mem_cons.mp hkv with hh | hh
        · rw [hh]
          exact h1
        · exact h2 kv hh
      · intro h
        exact ⟨h (k, v) (List.mem_cons_self _ _),
          fun kv hkv => h kv (List.mem_cons_of_mem _ hkv)⟩

theorem mapMKV_master {f : JVal → Except Err JVal}
    (hf : ∀ x y, sout0 x = true → f x = .ok y →
      sout0 y = true ∧ cleanDeep "$ref" y = true) :
    ∀ l : List (String × JVal), (∀ kv ∈ l, sout0 kv.2 = true) →
    ∀ l', mapMKV f l = .ok l' →
      keysL l' = keysL l ∧
        ∀ kv ∈ l', sout0 kv.2 = true ∧ cleanDeep "$ref" kv.2 = true
  | [], _, l', h => by
      have h' : (pure [] : Except Err (List (String × JVal))) = .ok l' := h
      cases (pure_ok _ _).mp h'
      exact ⟨rfl, by simp⟩
  | (k, v) :: rest, hall, l', h => by
      have hv : sout0 v = true := hall (k, v) (List.mem_cons_self _ _)
      have h' : (do
          let v' ← f (if isDictB v then v else .obj [])
          let rest' ← mapMKV f rest
          pure ((k, v') :: rest')) = .ok l' := h
      rw [if_pos (sout0_isDict hv)] at h'
      rw [bind_ok_iff] at h'
      obtain ⟨v', hv', h2⟩ := h'
      rw [bind_ok_iff] at h2
      obtain ⟨rest', hrest, h3⟩ := h2
      cases (pure_ok _ _).mp h3
      have hres := mapMKV_master hf rest
        (fun kv hkv => hall kv (List.mem_cons_of_mem _ hkv)) rest' hrest
      refine ⟨?_, ?_⟩
      · show k :: keysL rest' = k :: keysL rest
        rw [hres.1]
      · intro kv hkv
        rcases List.mem_cons.mp hkv with hh | hh
        · rw [hh]
          exact hf v v' hv hv'
        · exact hres.2 kv hh

theorem mapMJ_master {f : JVal → Except Err JVal}
    (hf : ∀ x y, sout0 x = true → f x = .ok y →
      sout0 y = true ∧ cleanDeep "$ref" y = true) :
    ∀ l : List JVal, (∀ v ∈ l, sout0 v = true) →
    ∀ l', mapMJ f l = .ok l' →
      l'.length = l.length ∧
        ∀ v ∈ l', sout0 v = true ∧ cleanDeep "$ref" v = true
  | [], _, l', h => by
      have h' : (pure [] : Except Err (List JVal)) = .ok l' := h
      cases (pure_ok _ _).mp h'
      exact ⟨rfl, by simp⟩
  | v :: rest, hall, l', h => by
      have hv : sout0 v = true := hall v (List.mem_cons_self _ _)
      have h' : (do
          let v' ← f (if isDictB v then v else .obj [])
          let rest' ← mapMJ f rest
          pure (v' :: rest')) = .ok l' := h
      rw [if_pos (sout0_isDict hv)] at h'
      rw [bind_ok_iff] at h'
      obtain ⟨v', hv', h2⟩ := h'
      rw [bind_ok_iff] at h2
      obtain ⟨rest', hrest, h3⟩ := h2
      cases (pure_ok _ _).mp h3
      have hres := mapMJ_master hf rest
        (fun w hw => hall w (List.mem_cons_of_mem _ hw)) rest' hrest
      refine ⟨?_, ?_⟩
      · show rest'.length + 1 = rest.length + 1
        rw [hres.1]
      · intro w hw
        rcases List.mem_cons.mp hw with hh | hh
        · rw [hh]
          exact hf v v' hv hv'
        · exact hres.2 w hh

/-- Replacing an entry away from every node-predicate key preserves the
strict-output invariant (for nodes carrying no `$ref`). -/
theorem soutB_jsetL_easy {b : Bool} {l : List (String × JVal)} {key : String}
    {v : JVal} (hS : soutB b (.obj l) = true)
    (hre : jgetL l "$ref" = none)
    (hne1 : key ≠ "type") (hne2 : key ≠ "properties") (hne3 : key ≠ "required")
    (hne4 : key ≠ "additionalProperties") (hne5 : key ≠ "$ref")
    (hne6 : key ≠ "default") (hne7 : key ≠ "allOf")
    (hent : soutEntryB b key v = true) :
    soutB b (.obj (jsetL l key v)) = true := by
  obtain ⟨hn, hp, hc, hx, hbr, hnd, hao, hkv⟩ := (soutB_obj_iff b l).mp hS
  refine (soutB_obj_iff b _).mpr
    ⟨nodupKeys_jsetL l key v hn, ?_, ?_, ?_, ?_, ?_, ?_, ?_⟩
  · unfold hasPropsIfObject isObjTyped at hp ⊢
    rw [jgetL_jsetL, if_neg hne1, jgetL_jsetL, if_neg hne2]
    exact hp
  · unfold stClosed isObjTyped at hc ⊢
    rw [jgetL_jsetL, if_neg hne1, jgetL_jsetL, if_neg hne4]
    exact hc
  · unfold propReqExact at hx ⊢
    rw [jgetL_jsetL, if_neg hne2, jgetL_jsetL, if_neg hne3]
    exact hx
  · unfold bareRefOnly
    rw [jgetL_jsetL, if_neg hne5, hre]
  · unfold noNullDefault at hnd ⊢
    rw [jgetL_jsetL, if_neg hne6]
    exact hnd
  · unfold allOfLenOk at hao ⊢
    rw [jgetL_jsetL, if_neg hne7]
    exact hao
  · rw [soutKVsB_mem]
    intro kv hkv'
    rcases mem_jsetL l key v kv hkv' with hh | hh
    · rw [hh]
      exact hent
    · exact (soutKVsB_mem b l).mp hkv kv hh

theorem inlineMapStage_master {fuel : Nat} {b : Bool} {root : JVal}
    {visited : List String} {l : List (String × JVal)} {key : String} {out : JVal}
    (hkey : key = "properties" ∨ key = "$defs" ∨ key = "definitions")
    (hS : soutB b (.obj l) = true)
    (hre : jgetL l "$ref" = none)
    (hf : ∀ x y, sout0 x = true →
      inline_all_refs fuel x root visited = .ok y →
      sout0 y = true ∧ cleanDeep "$ref" y = true)
    (h : inlineMapStage (fun x => inline_all_refs fuel x root visited) key
      (.obj l) = .ok out) :
    ∃ l', out = .obj l' ∧ soutB b (.obj l') = true ∧
      jgetL l' "$ref" = none ∧
      (∀ k, k ≠ key → jgetL l' k = jgetL l k) ∧
      (∀ v, jgetL l' key = some v → cleanCont "$ref" v = true) := by
  obtain ⟨hn, hp, hc, hx, hbr, hnd, hao, hkv⟩ := (soutB_obj_iff b l).mp hS
  have hkne5 : key ≠ "$ref" := by
    rcases hkey with h | h | h <;> subst h <;> decide
  have h' : (match jgetL l key with
      | some (.obj ds) => do
          let ds' ← mapMKV (fun x => inline_all_refs fuel x root visited) ds
          pure (jset (.obj l) key (.obj ds'))
      | _ => pure (.obj l)) = .ok out := h
  cases hg : jgetL l key with
  | none =>
      rw [hg] at h'
      cases (pure_ok _ _).mp h'
      refine ⟨l, rfl, hS, hre, fun k _ => rfl, ?_⟩
      intro v hv
      rw [hg] at hv
      exact nomatch hv
  | some v =>
      have hent := (soutKVsB_mem b l).mp hkv (key, v) (jgetL_some_mem l key v hg)
      have hextract : (b = true ∨ key = "properties") ∧ soutDict0 v = true := by
        rcases hkey with h | h | h
        · subst h
          rw [soutEntryB_props] at hent
          exact ⟨Or.inr rfl, hent⟩
        · subst h
          rw [soutEntryB_defs] at hent
          rw [Bool.and_eq_true] at hent
          exact ⟨Or.inl hent.1, hent.2⟩
        · subst h
          rw [soutEntryB_defns] at hent
          rw [Bool.and_eq_true] at hent
          exact ⟨Or.inl hent.1, hent.2⟩
      obtain ⟨ds, rfl, hvals⟩ := soutDict0_obj hextract.2
      rw [hg] at h'
      rw [bind_ok_iff] at h'
      obtain ⟨ds', hds, h2⟩ := h'
      cases (pure_ok _ _).mp h2
      have hres := mapMKV_master hf ds ((soutVals0_mem ds).mp hvals) ds' hds
      have hvals' : soutVals0 ds' = true :=
        (soutVals0_mem ds').mpr (fun kv hkv' => (hres.2 kv hkv').1)
      have hS' : soutB b (.obj (jsetL l key (.obj ds'))) = true := by
        rcases hkey with hk | hk | hk
        · subst hk
          refine (soutB_obj_iff b _).mpr
            ⟨nodupKeys_jsetL l _ _ hn, ?_, ?_, ?_, ?_, ?_, ?_, ?_⟩
          · unfold hasPropsIfObject
            rw [jgetL_jsetL, if_pos rfl]
            exact Bool.or_true _
          · unfold stClosed isObjTyped at hc ⊢
            rw [jgetL_jsetL, if_neg (by decide), jgetL_jsetL, if_neg (by decide)]
            exact hc
          · unfold propReqExact at hx ⊢
            rw [hg] at hx
            rw [jgetL_jsetL, if_pos rfl, jgetL_jsetL, if_neg (by decide)]
            have hxe : jgetL l "required" =
                some (.arr (ds.map (fun kv => JVal.str kv.1))) := by
              simpa using hx
            rw [hxe]
            show decide (some (JVal.arr (ds.map (fun kv => JVal.str kv.1))) =
              some (.arr (ds'.map (fun kv => JVal.str kv.1)))) = true
            rw [strKeys_eq hres.1]
            simp
          · unfold bareRefOnly
            rw [jgetL_jsetL, if_neg (by decide), hre]
          · unfold noNullDefault at hnd ⊢
            rw [jgetL_jsetL, if_neg (by decide)]
            exact hnd
          · unfold allOfLenOk at hao ⊢
            rw [jgetL_jsetL, if_neg (by decide)]
            exact hao
          · rw [soutKVsB_mem]
            intro kv hkv'
            rcases mem_jsetL l _ _ kv hkv' with hh | hh
            · rw [hh, soutEntryB_props]
              exact hvals'
            · exact (soutKVsB_mem b l).mp hkv kv hh
        · subst hk
          refine soutB_jsetL_easy hS hre (by decide) (by decide) (by decide)
            (by decide) (by decide) (by decide) (by decide) ?_
          rw [soutEntryB_defs, Bool.and_eq_true]
          rcases hextract.1 with hb | hb
          · exact ⟨hb, hvals'⟩
          · exact absurd hb (by decide)
        · subst hk
          refine soutB_jsetL_easy hS hre (by decide) (by decide) (by decide)
            (by decide) (by decide) (by decide) (by decide) ?_
          rw [soutEntryB_defns, Bool.and_eq_true]
          rcases hextract.1 with hb | hb
          · exact ⟨hb, hvals'⟩
          · exact absurd hb (by decide)
      refine ⟨jsetL l key (.obj ds'), rfl, hS', ?_, ?_, ?_⟩
      · rw [jgetL_jsetL, if_neg hkne5]
        exact hre
      · intro k hk
        rw [jgetL_jsetL, if_neg (fun hh => hk hh.symm)]
      · intro w hw
        rw [jgetL_jsetL, if_pos rfl] at hw
        cases hw
        show cleanVals "$ref" ds' = true
        exact (cleanVals_mem _ ds').mpr (fun kv hkv' => (hres.2 kv hkv').2)

theorem inlineItemsStage_master {fuel : Nat} {b : Bool} {root : JVal}
    {visited : List String} {l : List (String × JVal)} {out : JVal}
    (hS : soutB b (.obj l) = true)
    (hre : jgetL l "$ref" = none)
    (hf : ∀ x y, sout0 x = true →
      inline_all_refs fuel x root visited = .ok y →
      sout0 y = true ∧ cleanDeep "$ref" y = true)
    (h : inlineItemsStage (fun x => inline_all_refs fuel x root visited)
      (.obj l) = .ok out) :
    ∃ l', out = .obj l' ∧ soutB b (.obj l') = true ∧
      jgetL l' "$ref" = none ∧
      (∀ k, k ≠ "items" → jgetL l' k = jgetL l k) ∧
      (∀ v, jgetL l' "items" = some v → cleanDeep "$ref" v = true) := by
  obtain ⟨hn, hp, hc, hx, hbr, hnd, hao, hkv⟩ := (soutB_obj_iff b l).mp hS
  have h' : (match jgetL l "items" with
      | some it =>
          if isDictB it then do
            let it' ← inline_all_refs fuel it root visited
            pure (jset (.obj l) "items" it')
          else pure (.obj l)
      | none => pure (.obj l)) = .ok out := h
  cases hg : jgetL l "items" with
  | none =>
      rw [hg] at h'
      cases (pure_ok _ _).mp h'
      refine ⟨l, rfl, hS, hre, fun k _ => rfl, ?_⟩
      intro v hv
      rw [hg] at hv
      exact nomatch hv
  | some it =>
      have hent := (soutKVsB_mem b l).mp hkv ("items", it)
        (jgetL_some_mem l _ it hg)
      rw [soutEntryB_items] at hent
      rw [hg] at h'
      have hx' : (if isDictB it then
          (do
            let it' ← inline_all_refs fuel it root visited
            pure (jset (.obj l) "items" it') : Except Err JVal)
          else pure (.obj l)) = .ok out := h'
      by_cases hdi : isDictB it = true
      · rw [if_pos hdi] at hx' hent
        rw [bind_ok_iff] at hx'
        obtain ⟨it', hit, h2⟩ := hx'
        cases (pure_ok _ _).mp h2
        obtain ⟨hit'S, hit'C⟩ := hf it it' hent hit
        refine ⟨jsetL l "items" it', rfl, ?_, ?_, ?_, ?_⟩
        · refine soutB_jsetL_easy hS hre (by decide) (by decide) (by decide)
            (by decide) (by decide) (by decide) (by decide) ?_
          rw [soutEntryB_items, if_pos (sout0_isDict hit'S)]
          exact hit'S
        · rw [jgetL_jsetL, if_neg (by decide)]
          exact hre
        · intro k hk
          rw [jgetL_jsetL, if_neg (fun hh => hk hh.symm)]
        · intro w hw
          rw [jgetL_jsetL, if_pos rfl] at hw
          cases hw
          exact hit'C
      · rw [if_neg hdi] at hx'
        rw [if_neg hdi] at hent
        cases (pure_ok _ _).mp hx'
        refine ⟨l, rfl, hS, hre, fun k _ => rfl, ?_⟩
        intro w hw
        rw [hg] at hw
        cases hw
        exact NoDictV_clean it "$ref" hent

theorem inlineListStage_master {fuel : Nat} {b : Bool} {root : JVal}
    {visited : List String} {l : List (String × JVal)} {key : String} {out : JVal}
    (hkey : key = "anyOf" ∨ key = "allOf")
    (hS : soutB b (.obj l) = true)
    (hre : jgetL l "$ref" = none)
    (hf : ∀ x y, sout0 x = true →
      inline_all_refs fuel x root visited = .ok y →
      sout0 y = true ∧ cleanDeep "$ref" y = true)
    (h : inlineListStage (fun x => inline_all_refs fuel x root visited) key
      (.obj l) = .ok out) :
    ∃ l', out = .obj l' ∧ soutB b (.obj l') = true ∧
      jgetL l' "$ref" = none ∧
      (∀ k, k ≠ key → jgetL l' k = jgetL l k) ∧
      (∀ v, jgetL l' key = some v → cleanDeep "$ref" v = true) := by
  obtain ⟨hn, hp, hc, hx, hbr, hnd, hao, hkv⟩ := (soutB_obj_iff b l).mp hS
  have hkeq : ∀ (w : JVal), soutEntryB b key w = soutList0 w := by
    intro w
    rcases hkey with h | h
    · subst h; exact soutEntryB_anyOf b w
    · subst h; exact soutEntryB_allOf b w
  have hkne5 : key ≠ "$ref" := by
    rcases hkey with h | h <;> subst h <;> decide
  have h' : (match jgetL l key with
      | some (.arr vs) => do
          let vs' ← mapMJ (fun x => inline_all_refs fuel x root visited) vs
          pure (jset (.obj l) key (.arr vs'))
      | _ => pure (.obj l)) = .ok out := h
  cases hg : jgetL l key with
  | none =>
      rw [hg] at h'
      cases (pure_ok _ _).mp h'
      refine ⟨l, rfl, hS, hre, fun k _ => rfl, ?_⟩
      intro v hv
      rw [hg] at hv
      exact nomatch hv
  | some v =>
      have hent := (soutKVsB_mem b l).mp hkv (key, v) (jgetL_some_mem l key v hg)
      rw [hkeq] at hent
      obtain ⟨vs, rfl, helems⟩ := soutList0_arr hent
      rw [hg] at h'
      rw [bind_ok_iff] at h'
      obtain ⟨vs', hvs, h2⟩ := h'
      cases (pure_ok _ _).mp h2
      have hres := mapMJ_master hf vs ((soutElems0_mem vs).mp helems) vs' hvs
      have helems' : soutElems0 vs' = true :=
        (soutElems0_mem vs').mpr (fun w hw => (hres.2 w hw).1)
      have hS' : soutB b (.obj (jsetL l key (.arr vs'))) = true := by
        rcases hkey with hk | hk
        · subst hk
          refine soutB_jsetL_easy hS hre (by decide) (by decide) (by decide)
            (by decide) (by decide) (by decide) (by decide) ?_
          rw [soutEntryB_anyOf]
          exact helems'
        · subst hk
          refine (soutB_obj_iff b _).mpr
            ⟨nodupKeys_jsetL l _ _ hn, ?_, ?_, ?_, ?_, ?_, ?_, ?_⟩
          · unfold hasPropsIfObject isObjTyped at hp ⊢
            rw [jgetL_jsetL, if_neg (by decide), jgetL_jsetL, if_neg (by decide)]
            exact hp
          · unfold stClosed isObjTyped at hc ⊢
            rw [jgetL_jsetL, if_neg (by decide), jgetL_jsetL, if_neg (by decide)]
            exact hc
          · unfold propReqExact at hx ⊢
            rw [jgetL_jsetL, if_neg (by decide), jgetL_jsetL, if_neg (by decide)]
            exact hx
          · unfold bareRefOnly
            rw [jgetL_jsetL, if_neg (by decide), hre]
          · unfold noNullDefault at hnd ⊢
            rw [jgetL_jsetL, if_neg (by decide)]
            exact hnd
          · unfold allOfLenOk at hao ⊢
            rw [jgetL_jsetL, if_pos rfl]
            rw [hg] at hao
            show decide (vs'.length ≠ 1) = true
            rw [hres.1]
            simpa using hao
          · rw [soutKVsB_mem]
            intro kv hkv'
            rcases mem_jsetL l _ _ kv hkv' with hh | hh
            · rw [hh, soutEntryB_allOf]
              exact helems'
            · exact (soutKVsB_mem b l).mp hkv kv hh
      refine ⟨jsetL l key (.arr vs'), rfl, hS', ?_, ?_, ?_⟩
      · rw [jgetL_jsetL, if_neg hkne5]
        exact hre
      · intro k hk
        rw [jgetL_jsetL, if_neg (fun hh => hk hh.symm)]
      · intro w hw
        rw [jgetL_jsetL, if_pos rfl] at hw
        cases hw
        show cleanL "$ref" vs' = true
        exact (cleanL_mem _ vs').mpr (fun w hw => (hres.2 w hw).2)

theorem inlineStructural_master {fuel : Nat} {b : Bool} {root : JVal}
    {visited : List String} {ls : List (String × JVal)} {out : JVal}
    (hS : soutB b (.obj ls) = true)
    (hre : jgetL ls "$ref" = none)
    (hf : ∀ x y, sout0 x = true →
      inline_all_refs fuel x root visited = .ok y →
      sout0 y = true ∧ cleanDeep "$ref" y = true)
    (h : inlineStructural (fun x => inline_all_refs fuel x root visited)
      (.obj ls) = .ok out) :
    ∃ l6, out = .obj l6 ∧ soutB b (.obj l6) = true ∧
      cleanDeep "$ref" (.obj l6) = true := by
  have h' : (do
      let r1 ← inlineMapStage (fun x => inline_all_refs fuel x root visited)
        "properties" (.obj ls)
      let r2 ← inlineItemsStage (fun x => inline_all_refs fuel x root visited) r1
      let r3 ← inlineListStage (fun x => inline_all_refs fuel x root visited)
        "anyOf" r2
      let r4 ← inlineListStage (fun x => inline_all_refs fuel x root visited)
        "allOf" r3
      let r5 ← inlineMapStage (fun x => inline_all_refs fuel x root visited)
        "$defs" r4
      let r6 ← inlineMapStage (fun x => inline_all_refs fuel x root visited)
        "definitions" r5
      pure r6) = .ok out := h
  rw [bind_ok_iff] at h'
  obtain ⟨o1, h1, h'⟩ := h'
  obtain ⟨l1, rfl, hS1, hre1, hlk1, hK1⟩ :=
    inlineMapStage_master (Or.inl rfl) hS hre hf h1
  rw [bind_ok_iff] at h'
  obtain ⟨o2, h2, h'⟩ := h'
  obtain ⟨l2, rfl, hS2, hre2, hlk2, hK2⟩ := inlineItemsStage_master hS1 hre1 hf h2
  rw [bind_ok_iff] at h'
  obtain ⟨o3, h3, h'⟩ := h'
  obtain ⟨l3, rfl, hS3, hre3, hlk3, hK3⟩ :=
    inlineListStage_master (Or.inl rfl) hS2 hre2 hf h3
  rw [bind_ok_iff] at h'
  obtain ⟨o4, h4, h'⟩ := h'
  obtain ⟨l4, rfl, hS4, hre4, hlk4, hK4⟩ :=
    inlineListStage_master (Or.inr rfl) hS3 hre3 hf h4
  rw [bind_ok_iff] at h'
  obtain ⟨o5, h5, h'⟩ := h'
  obtain ⟨l5, rfl, hS5, hre5, hlk5, hK5⟩ :=
    inlineMapStage_master (Or.inr (Or.inl rfl)) hS4 hre4 hf h5
  rw [bind_ok_iff] at h'
  obtain ⟨o6, h6, h'⟩ := h'
  obtain ⟨l6, rfl, hS6, hre6, hlk6, hK6⟩ :=
    inlineMapStage_master (Or.inr (Or.inr rfl)) hS5 hre5 hf h6
  cases (pure_ok _ _).mp h'
  obtain ⟨hn6, hp6, hc6, hx6, hbr6, hnd6, hao6, hkv6⟩ := (soutB_obj_iff b l6).mp hS6
  refine ⟨l6, rfl, hS6, ?_⟩
  show (!hasKeyB l6 "$ref" && cleanKVs "$ref" l6) = true
  rw [Bool.and_eq_true]
  constructor
  · unfold hasKeyB
    rw [hre6]
    rfl
  · rw [cleanKVs_mem]
    intro kv hkv'
    have hget := mem_jgetL l6 hn6 kv.1 kv.2 hkv'
    by_cases hk2 : kv.1 = "properties"
    · rw [if_pos (by simp [hk2])]
      rw [hk2] at hget
      rw [hlk6 "properties" (by decide), hlk5 "properties" (by decide),
        hlk4 "properties" (by decide), hlk3 "properties" (by decide),
        hlk2 "properties" (by decide)] at hget
      exact hK1 kv.2 hget
    by_cases hk7 : kv.1 = "$defs"
    · rw [if_pos (by simp [hk7])]
      rw [hk7] at hget
      rw [hlk6 "$defs" (by decide)] at hget
      exact hK5 kv.2 hget
    by_cases hk8 : kv.1 = "definitions"
    · rw [if_pos (by simp [hk8])]
      rw [hk8] at hget
      exact hK6 kv.2 hget
    rw [if_neg (by simp [hk2, hk7, hk8])]
    by_cases hk3 : kv.1 = "items"
    · rw [hk3] at hget
      rw [hlk6 "items" (by decide), hlk5 "items" (by decide),
        hlk4 "items" (by decide), hlk3 "items" (by decide)] at hget
      exact hK2 kv.2 hget
    by_cases hk4 : kv.1 = "anyOf"
    · rw [hk4] at hget
      rw [hlk6 "anyOf" (by decide), hlk5 "anyOf" (by decide),
        hlk4 "anyOf" (by decide)] at hget
      exact hK3 kv.2 hget
    by_cases hk5 : kv.1 = "allOf"
    · rw [hk5] at hget
      rw [hlk6 "allOf" (by decide), hlk5 "allOf" (by decide)] at hget
      exact hK4 kv.2 hget
    have hent := (soutKVsB_mem b l6).mp hkv6 kv hkv'
    by_cases hk1 : kv.1 = "$ref"
    · rw [hk1] at hget
      rw [hre6] at hget
      exact nomatch hget
    by_cases hk6 : kv.1 = "additionalProperties"
    · rw [hk6] at hent
      rw [soutEntryB_addl] at hent
      have hb : kv.2 = .bool false := by simpa using hent
      rw [hb]
      rfl
    · rw [soutEntryB_other b kv.1 kv.2 hk1 hk2 hk3 hk4 hk5 hk6 hk7 hk8] at hent
      exact NoDictV_clean kv.2 "$ref" hent

/-- Master invariant of the ref inliner: against a strict-processed root,
every successful run on a strict-output node returns a strict-output node
carrying `$ref` at no schema node. -/
theorem inline_masterB : ∀ (fuel : Nat) (b : Bool) (s root : JVal)
    (visited : List String) (r : JVal),
    RootOkI root → soutB b s = true →
    inline_all_refs fuel s root visited = .ok r →
    soutB b r = true ∧ cleanDeep "$ref" r = true
  | 0, _, _, _, _, _, _, _, h => nomatch h
  | fuel + 1, b, s, root, visited, r, hroot, hS, h => by
      obtain ⟨ls, rfl⟩ := soutB_isObj hS
      have hf : ∀ (vis : List String) (x y : JVal), sout0 x = true →
          inline_all_refs fuel x root vis = .ok y →
          sout0 y = true ∧ cleanDeep "$ref" y = true := by
        intro vis x y hx0 hxy
        have hrec := inline_masterB fuel false x root vis y hroot
          (by rw [← sout0_eq]; exact hx0) hxy
        exact ⟨by rw [sout0_eq]; exact hrec.1, hrec.2⟩
      obtain ⟨hn, hp, hc, hx, hbr, hnd, hao, hkv⟩ := (soutB_obj_iff b ls).mp hS
      have h' : ((match jgetL ls "$ref" with
          | some rv =>
              if jTruthy rv then
                match rv with
                | .str rr =>
                    if rr ∈ visited then .error (.circularRef rr)
                    else do
                      let resolved ← resolve_ref root rr
                      if isDictB resolved then do
                        let inlined ← inline_all_refs fuel resolved root
                          (rr :: visited)
                        pure (pyUpdate inlined (jerase (.obj ls) "$ref"))
                      else .error (.refNotDict rr)
                | _ => .error .nonStringRef
              else inlineStructural
                (fun x => inline_all_refs fuel x root visited) (.obj ls)
          | none => inlineStructural
              (fun x => inline_all_refs fuel x root visited) (.obj ls)) :
          Except Err JVal) = .ok r := h
      cases hgr : jgetL ls "$ref" with
      | none =>
          rw [hgr] at h'
          obtain ⟨l6, rfl, hS6, hC6⟩ :=
            inlineStructural_master hS hgr (hf visited) h'
          exact ⟨hS6, hC6⟩
      | some rv =>
          have hent := (soutKVsB_mem b ls).mp hkv ("$ref", rv)
            (jgetL_some_mem ls _ rv hgr)
          rw [soutEntryB_ref] at hent
          cases rv with
          | null => exact nomatch hent
          | bool _ => exact nomatch hent
          | num _ => exact nomatch hent
          | arr _ => exact nomatch hent
          | obj _ => exact nomatch hent
          | str rr =>
              have hrefok : refOk rr = true := hent
              rw [hgr] at h'
              have htr : jTruthy (.str rr) = true := by
                show decide (rr ≠ "") = true
                simp [refOk_ne_empty hrefok]
              have hx1 : ((if jTruthy (.str rr) then
                  (if rr ∈ visited then (.error (.circularRef rr) : Except Err JVal)
                   else do
                      let resolved ← resolve_ref root rr
                      if isDictB resolved then do
                        let inlined ← inline_all_refs fuel resolved root
                          (rr :: visited)
                        pure (pyUpdate inlined (jerase (.obj ls) "$ref"))
                      else .error (.refNotDict rr))
                else inlineStructural
                  (fun x => inline_all_refs fuel x root visited) (.obj ls)) :
                  Except Err JVal) = .ok r := h'
              rw [if_pos htr] at hx1
              by_cases hvis : rr ∈ visited
              · rw [if_pos hvis] at hx1
                exact nomatch hx1
              · rw [if_neg hvis] at hx1
                rw [bind_ok_iff] at hx1
                obtain ⟨resolved, hres, h2⟩ := hx1
                have hrs : sout0 resolved = true := hroot rr resolved hrefok hres
                rw [if_pos (sout0_isDict hrs)] at h2
                rw [bind_ok_iff] at h2
                obtain ⟨inlined, hinl, h3⟩ := h2
                obtain ⟨hiS, hiC⟩ := hf (rr :: visited) resolved inlined hrs hinl
                obtain ⟨li, rfl⟩ := sout0_isObj hiS
                have hlen : ls.length = 1 := by
                  unfold bareRefOnly at hbr
                  rw [hgr] at hbr
                  simpa using hbr
                cases ls with
                | nil => exact nomatch hgr
                | cons kv t =>
                    have ht : t = [] := by
                      cases t with
                      | nil => rfl
                      | cons a b2 => simp at hlen
                    subst ht
                    obtain ⟨k0, v0⟩ := kv
                    have hk0 : k0 = "$ref" := by
                      by_cases hh : k0 = "$ref"
                      · exact hh
                      · have hgr' : (if k0 = "$ref" then some v0
                            else (none : Option JVal)) = some (.str rr) := hgr
                        rw [if_neg hh] at hgr'
                        exact nomatch hgr'
                    subst hk0
                    have hv0 : v0 = .str rr := by
                      have hgr' : (if "$ref" = "$ref" then some v0
                          else (none : Option JVal)) = some (.str rr) := hgr
                      rw [if_pos rfl] at hgr'
                      exact Option.some.inj hgr'
                    subst hv0
                    have herase : jerase (.obj [("$ref", JVal.str rr)]) "$ref" =
                        .obj [] := rfl
                    rw [herase] at h3
                    have hupd : pyUpdate (.obj li) (.obj []) = .obj li := rfl
                    rw [hupd] at h3
                    cases (pure_ok _ _).mp h3
                    exact ⟨sout0_soutB b hiS, hiC⟩

/-! ## The full pipeline invariant -/

theorem cleanDeep_pops {li : List (String × JVal)}
    (h : cleanDeep "$ref" (.obj li) = true) :
    cleanDeep "$ref" (.obj (jeraseL (jeraseL li "$defs") "definitions")) = true := by
  have h' : (!hasKeyB li "$ref" && cleanKVs "$ref" li) = true := h
  rw [Bool.and_eq_true] at h'
  have href : jgetL li "$ref" = none := by
    have := h'.1
    unfold hasKeyB at this
    cases hg : jgetL li "$ref" with
    | none => rfl
    | some v => rw [hg] at this; exact nomatch this
  show (!hasKeyB (jeraseL (jeraseL li "$defs") "definitions") "$ref" &&
    cleanKVs "$ref" (jeraseL (jeraseL li "$defs") "definitions")) = true
  rw [Bool.and_eq_true]
  constructor
  · unfold hasKeyB
    rw [jgetL_jeraseL, if_neg (by decide), jgetL_jeraseL, if_neg (by decide), href]
    rfl
  · rw [cleanKVs_mem]
    intro kv hkv
    obtain ⟨hm1, _⟩ := mem_jeraseL _ _ _ hkv
    obtain ⟨hm2, _⟩ := mem_jeraseL _ _ _ hm1
    exact (cleanKVs_mem "$ref" li).mp h'.2 kv hm2

/-- The pipeline invariant: a successful normalization of a well-formed
schema yields a strict-output document with no reference node and no
definition container at any schema node. -/
theorem normalize_master {fuel : Nat} {S O : JVal}
    (hT : tameB true S = true)
    (h : ensure_strict_json_schema fuel S = .ok O) :
    sout0 O = true ∧ cleanDeep "$ref" O = true ∧
      cleanDeep "$defs" O = true ∧ cleanDeep "definitions" O = true := by
  have h' : (if S = .obj [] then (pure EMPTY_SCHEMA : Except Err JVal)
      else do
        let s ← strictAux fuel id S
        let i ← inline_all_refs fuel s s []
        pure (jerase (jerase i "$defs") "definitions")) = .ok O := h
  by_cases hS0 : S = .obj []
  · rw [if_pos hS0] at h'
    cases (pure_ok _ _).mp h'
    exact ⟨by decide, by decide, by decide, by decide⟩
  · rw [if_neg hS0] at h'
    rw [bind_ok_iff] at h'
    obtain ⟨s, hs, h2⟩ := h'
    rw [bind_ok_iff] at h2
    obtain ⟨i, hi, h3⟩ := h2
    have hsS : soutB true s = true :=
      strict_masterB fuel true id S s (fun x hx => tame_RootOk hx) hT hs
    obtain ⟨hiS, hiC⟩ :=
      inline_masterB fuel true s s [] i (sout_RootOkI hsS) hsS hi
    obtain ⟨li, rfl⟩ := soutB_isObj hiS
    cases (pure_ok _ _).mp h3
    have hO : sout0 (.obj (jeraseL (jeraseL li "$defs") "definitions")) = true :=
      sout_pops true li hiS
    exact ⟨hO, cleanDeep_pops hiC,
      sout_cleanD _ "$defs" (Or.inl rfl) hO,
      sout_cleanD _ "definitions" (Or.inr rfl) hO⟩

/-! ## Second-run identity: the normalizer fixes its own output -/

theorem jdepth_val_le : ∀ (l : List (String × JVal)) (kv : String × JVal),
    kv ∈ l → jdepth kv.2 ≤ jdepthKVs l
  | (k, v) :: t, kv, h => by
      rcases List.mem_cons.mp h with hh | hh
      · rw [hh]
        show jdepth v ≤ max (jdepth v) (jdepthKVs t)
        exact le_max_left _ _
      · calc jdepth kv.2 ≤ jdepthKVs t := jdepth_val_le t kv hh
          _ ≤ max (jdepth v) (jdepthKVs t) := le_max_right _ _

theorem jdepth_elem_le : ∀ (l : List JVal) (v : JVal),
    v ∈ l → jdepth v ≤ jdepthL l
  | w :: t, v, h => by
      rcases List.mem_cons.mp h with hh | hh
      · rw [hh]
        show jdepth w ≤ max (jdepth w) (jdepthL t)
        exact le_max_left _ _
      · calc jdepth v ≤ jdepthL t := jdepth_elem_le t v hh
          _ ≤ max (jdepth w) (jdepthL t) := le_max_right _ _

theorem ok_bind {α β : Type} (a : α) (f : α → Except Err β) :
    ((Except.ok a : Except Err α) >>= f) = f a := rfl

theorem mapMWithCtx_id {f : (JVal → JVal) → JVal → Except Err JVal} :
    ∀ (l : List (String × JVal)) (ctxd : List (String × JVal) → JVal),
    (∀ kv ∈ l, ∀ c, f c kv.2 = .ok kv.2) →
    mapMWithCtx f ctxd l = .ok l
  | [], ctxd, _ => rfl
  | (k, v) :: t, ctxd, hall => by
      show (do
        let v' ← f (fun x => ctxd ((k, x) :: t)) v
        let rest' ← mapMWithCtx f (fun r => ctxd ((k, v') :: r)) t
        pure ((k, v') :: rest')) = .ok ((k, v) :: t)
      rw [hall (k, v) (List.mem_cons_self _ _) _, ok_bind,
        mapMWithCtx_id t _ (fun kv hkv c => hall kv (List.mem_cons_of_mem _ hkv) c),
        ok_bind]
      rfl

theorem mapMWithCtxL_id {f : (JVal → JVal) → JVal → Except Err JVal} :
    ∀ (l : List JVal) (ctxd : List JVal → JVal),
    (∀ v ∈ l, ∀ c, f c v = .ok v) →
    mapMWithCtxL f ctxd l = .ok l
  | [], ctxd, _ => rfl
  | v :: t, ctxd, hall => by
      show (do
        let v' ← f (fun x => ctxd (x :: t)) v
        let rest' ← mapMWithCtxL f (fun r => ctxd (v' :: r)) t
        pure (v' :: rest')) = .ok (v :: t)
      rw [hall v (List.mem_cons_self _ _) _, ok_bind,
        mapMWithCtxL_id t _ (fun w hw c => hall w (List.mem_cons_of_mem _ hw) c),
        ok_bind]
      rfl

theorem mapMKV_id {f : JVal → Except Err JVal} :
    ∀ (l : List (String × JVal)),
    (∀ kv ∈ l, isDictB kv.2 = true ∧ f kv.2 = .ok kv.2) →
    mapMKV f l = .ok l
  | [], _ => rfl
  | (k, v) :: t, hall => by
      show (do
        let v' ← f (if isDictB v then v else .obj [])
        let rest' ← mapMKV f t
        pure ((k, v') :: rest')) = .ok ((k, v) :: t)
      obtain ⟨hd, hfv⟩ := hall (k, v) (List.mem_cons_self _ _)
      rw [if_pos hd, hfv, ok_bind,
        mapMKV_id t (fun kv hkv => hall kv (List.mem_cons_of_mem _ hkv)),
        ok_bind]
      rfl

theorem mapMJ_id {f : JVal → Except Err JVal} :
    ∀ (l : List JVal),
    (∀ v ∈ l, isDictB v = true ∧ f v = .ok v) →
    mapMJ f l = .ok l
  | [], _ => rfl
  | v :: t, hall => by
      show (do
        let v' ← f (if isDictB v then v else .obj [])
        let rest' ← mapMJ f t
        pure (v' :: rest')) = .ok (v :: t)
      obtain ⟨hd, hfv⟩ := hall v (List.mem_cons_self _ _)
      rw [if_pos hd, hfv, ok_bind,
        mapMJ_id t (fun w hw => hall w (List.mem_cons_of_mem _ hw)),
        ok_bind]
      rfl

/-- A strict-output, ref-free node is a fixed point of the strict pass. -/
theorem strict_id : ∀ (fuel : Nat) (ctx : JVal → JVal) (j : JVal),
    sout0 j = true → cleanDeep "$ref" j = true → jdepth j < fuel →
    strictAux fuel ctx j = .ok j
  | 0, _, _, _, _, hd => absurd hd (Nat.not_lt_zero _)
  | fuel + 1, ctx, j, hS, hC, hd => by
      obtain ⟨ls, rfl⟩ := sout0_isObj hS
      have hS' := hS
      rw [sout0_eq] at hS'
      obtain ⟨hn, hp, hc, hx, hbr, hnd, hao, hkv⟩ := (soutB_obj_iff false ls).mp hS'
      have hkv0 : soutKVs0 ls = true := by rw [soutKVs0_eq]; exact hkv
      have hC' : (!hasKeyB ls "$ref" && cleanKVs "$ref" ls) = true := hC
      rw [Bool.and_eq_true] at hC'
      have href : jgetL ls "$ref" = none := by
        have h1 := hC'.1
        unfold hasKeyB at h1
        cases hg : jgetL ls "$ref" with
        | none => rfl
        | some v => rw [hg] at h1; exact nomatch h1
      have hdepth : jdepthKVs ls < fuel := by
        have he : jdepth (.obj ls) = 1 + jdepthKVs ls := rfl
        omega
      have e1 : stageDefs (strictAux fuel) ctx (.obj ls) "$defs" = pure (.obj ls) :=
        stageDefs_skip _ _ _ _ (soutKVs_no_defs ls "$defs" (Or.inl rfl) hkv0)
      have e2 : stageDefs (strictAux fuel) ctx (.obj ls) "definitions" =
          pure (.obj ls) :=
        stageDefs_skip _ _ _ _ (soutKVs_no_defs ls "definitions" (Or.inr rfl) hkv0)
      have e3 : stageType (.obj ls) = pure (.obj ls) := by
        rw [show stageType (.obj ls) =
          (if jgetL ls "type" = some (.str "object") then
            match jgetL ls "additionalProperties" with
            | none => pure (jset (.obj ls) "additionalProperties" (.bool false))
            | some ap => if jTruthy ap then .error .addlPropsErr else pure (.obj ls)
          else pure (.obj ls)) from rfl]
        by_cases hty : jgetL ls "type" = some (.str "object")
        · rw [if_pos hty]
          have hcA : jgetL ls "additionalProperties" = some (.bool false) := by
            unfold stClosed isObjTyped at hc
            rw [hty] at hc
            simpa using hc
          rw [hcA]
          rfl
        · rw [if_neg hty]
      have e4 : stageProps (strictAux fuel) ctx (.obj ls) = pure (.obj ls) := by
        cases hgp : jgetL ls "properties" with
        | none => exact stageProps_skip _ _ _ hgp
        | some pv =>
            have hent := (soutKVsB_mem false ls).mp hkv ("properties", pv)
              (jgetL_some_mem ls _ pv hgp)
            rw [soutEntryB_props] at hent
            obtain ⟨ps, rfl, hvals⟩ := soutDict0_obj hent
            have hreqR : jgetL ls "required" =
                some (.arr (ps.map (fun kv => JVal.str kv.1))) := by
              unfold propReqExact at hx
              rw [hgp] at hx
              simpa using hx
            have hclean : cleanVals "$ref" ps = true := by
              have := (cleanKVs_mem "$ref" ls).mp hC'.2 ("properties", .obj ps)
                (jgetL_some_mem ls _ _ hgp)
              rw [if_pos (by simp)] at this
              exact this
            have hvid : ∀ kv ∈ ps, ∀ c, strictAux fuel c kv.2 = .ok kv.2 := by
              intro kv hkv' c
              have hdv : jdepth kv.2 < fuel := by
                have h1 := jdepth_val_le ps kv hkv'
                have h2 := jdepth_val_le ls ("properties", .obj ps)
                  (jgetL_some_mem ls _ _ hgp)
                have h3 : jdepth (("properties", JVal.obj ps).2) =
                    1 + jdepthKVs ps := rfl
                omega
              exact strict_id fuel c kv.2 ((soutVals0_mem ps).mp hvals kv hkv')
                ((cleanVals_mem "$ref" ps).mp hclean kv hkv') hdv
            rw [show stageProps (strictAux fuel) ctx (.obj ls) =
              (match jgetL ls "properties" with
                | some (.obj ps) => do
                    let j1 := jset (.obj ls) "required"
                      (.arr (ps.map (fun kv : String × JVal => JVal.str kv.1)))
                    let ps' ← mapMWithCtx (strictAux fuel)
                      (fun r => ctx (jset j1 "properties" (.obj r))) ps
                    pure (jset j1 "properties" (.obj ps'))
                | _ => pure (.obj ls)) from rfl, hgp]
            have hset1 : jset (.obj ls) "required"
                (.arr (ps.map (fun kv : String × JVal => JVal.str kv.1))) =
                .obj ls := by
              show JVal.obj (jsetL ls "required" _) = .obj ls
              rw [jsetL_of_jgetL_eq ls "required" _ hreqR]
            show (do
              let ps' ← mapMWithCtx (strictAux fuel)
                (fun r => ctx (jset (jset (.obj ls) "required"
                  (.arr (ps.map (fun kv : String × JVal => JVal.str kv.1))))
                  "properties" (.obj r))) ps
              pure (jset (jset (.obj ls) "required"
                (.arr (ps.map (fun kv : String × JVal => JVal.str kv.1))))
                "properties" (.obj ps'))) = pure (.obj ls)
            rw [hset1, mapMWithCtx_id ps _ hvid, ok_bind]
            show pure (jset (.obj ls) "properties" (.obj ps)) = pure (.obj ls)
            rw [show jset (.obj ls) "properties" (.obj ps) = .obj ls from by
              show JVal.obj (jsetL ls "properties" (.obj ps)) = .obj ls
              rw [jsetL_of_jgetL_eq ls "properties" _ hgp]]
      have e5 : stageItems (strictAux fuel) ctx (.obj ls) = pure (.obj ls) := by
        cases hgi : jgetL ls "items" with
        | none => exact stageItems_skip _ _ _ hgi
        | some it =>
            have hent := (soutKVsB_mem false ls).mp hkv ("items", it)
              (jgetL_some_mem ls _ it hgi)
            rw [soutEntryB_items] at hent
            rw [show stageItems (strictAux fuel) ctx (.obj ls) =
              (match jgetL ls "items" with
                | some it =>
                    if isDictB it then do
                      let it' ← strictAux fuel (fun x => ctx (jset (.obj ls) "items" x)) it
                      pure (jset (.obj ls) "items" it')
                    else pure (.obj ls)
                | none => pure (.obj ls)) from rfl, hgi]
            show (if isDictB it then
                (do
                  let it' ← strictAux fuel (fun x => ctx (jset (.obj ls) "items" x)) it
                  pure (jset (.obj ls) "items" it') : Except Err JVal)
              else pure (.obj ls)) = pure (.obj ls)
            by_cases hdi : isDictB it = true
            · rw [if_pos hdi]
              rw [if_pos hdi] at hent
              have hcit : cleanDeep "$ref" it = true := by
                have := (cleanKVs_mem "$ref" ls).mp hC'.2 ("items", it)
                  (jgetL_some_mem ls _ it hgi)
                rw [if_neg (by simp)] at this
                exact this
              have hdit : jdepth it < fuel := by
                have h1 := jdepth_val_le ls ("items", it)
                  (jgetL_some_mem ls _ it hgi)
                have h2 : jdepth (("items", it).2) = jdepth it := rfl
                omega
              rw [strict_id fuel _ it hent hcit hdit, ok_bind]
              show pure (jset (.obj ls) "items" it) = pure (.obj ls)
              rw [show jset (.obj ls) "items" it = .obj ls from by
                show JVal.obj (jsetL ls "items" it) = .obj ls
                rw [jsetL_of_jgetL_eq ls "items" it hgi]]
            · rw [if_neg hdi]
      have e6 : stageAnyOf (strictAux fuel) ctx (.obj ls) = pure (.obj ls) := by
        cases hga : jgetL ls "anyOf" with
        | none => exact stageAnyOf_skip _ _ _ hga
        | some av =>
            have hent := (soutKVsB_mem false ls).mp hkv ("anyOf", av)
              (jgetL_some_mem ls _ av hga)
            rw [soutEntryB_anyOf] at hent
            obtain ⟨vs, rfl, helems⟩ := soutList0_arr hent
            have hcvs : cleanL "$ref" vs = true := by
              have := (cleanKVs_mem "$ref" ls).mp hC'.2 ("anyOf", .arr vs)
                (jgetL_some_mem ls _ _ hga)
              rw [if_neg (by simp)] at this
              exact this
            have hvid : ∀ v ∈ vs, ∀ c, strictAux fuel c v = .ok v := by
              intro v hv c
              have hdv : jdepth v < fuel := by
                have h1 := jdepth_elem_le vs v hv
                have h2 := jdepth_val_le ls ("anyOf", .arr vs)
                  (jgetL_some_mem ls _ _ hga)
                have h3 : jdepth (("anyOf", JVal.arr vs).2) = 1 + jdepthL vs := rfl
                omega
              exact strict_id fuel c v ((soutElems0_mem vs).mp helems v hv)
                ((cleanL_mem "$ref" vs).mp hcvs v hv) hdv
            rw [show stageAnyOf (strictAux fuel) ctx (.obj ls) =
              (match jgetL ls "anyOf" with
                | some (.arr vs) => do
                    let vs' ← mapMWithCtxL (strictAux fuel)
                      (fun r => ctx (jset (.obj ls) "anyOf" (.arr r))) vs
                    pure (jset (.obj ls) "anyOf" (.arr vs'))
                | _ => pure (.obj ls)) from rfl, hga]
            show (do
              let vs' ← mapMWithCtxL (strictAux fuel)
                (fun r => ctx (jset (.obj ls) "anyOf" (.arr r))) vs
              pure (jset (.obj ls) "anyOf" (.arr vs'))) = pure (.obj ls)
            rw [mapMWithCtxL_id vs _ hvid, ok_bind]
            show pure (jset (.obj ls) "anyOf" (.arr vs)) = pure (.obj ls)
            rw [show jset (.obj ls) "anyOf" (.arr vs) = .obj ls from by
              show JVal.obj (jsetL ls "anyOf" (.arr vs)) = .obj ls
              rw [jsetL_of_jgetL_eq ls "anyOf" _ hga]]
      have e7 : stageAllOf (strictAux fuel) ctx (.obj ls) = pure (.obj ls) := by
        cases hga : jgetL ls "allOf" with
        | none => exact stageAllOf_skip _ _ _ hga
        | some av =>
            have hent := (soutKVsB_mem false ls).mp hkv ("allOf", av)
              (jgetL_some_mem ls _ av hga)
            rw [soutEntryB_allOf] at hent
            obtain ⟨vs, rfl, helems⟩ := soutList0_arr hent
            have hlen : vs.length ≠ 1 := by
              unfold allOfLenOk at hao
              rw [hga] at hao
              simpa using hao
            have hcvs : cleanL "$ref" vs = true := by
              have := (cleanKVs_mem "$ref" ls).mp hC'.2 ("allOf", .arr vs)
                (jgetL_some_mem ls _ _ hga)
              rw [if_neg (by simp)] at this
              exact this
            have hvid : ∀ v ∈ vs, ∀ c, strictAux fuel c v = .ok v := by
              intro v hv c
              have hdv : jdepth v < fuel := by
                have h1 := jdepth_elem_le vs v hv
                have h2 := jdepth_val_le ls ("allOf", .arr vs)
                  (jgetL_some_mem ls _ _ hga)
                have h3 : jdepth (("allOf", JVal.arr vs).2) = 1 + jdepthL vs := rfl
                omega
              exact strict_id fuel c v ((soutElems0_mem vs).mp helems v hv)
                ((cleanL_mem "$ref" vs).mp hcvs v hv) hdv
            have hjset : jset (.obj ls) "allOf" (.arr vs) = .obj ls := by
              show JVal.obj (jsetL ls "allOf" (.arr vs)) = .obj ls
              rw [jsetL_of_jgetL_eq ls "allOf" _ hga]
            rw [show stageAllOf (strictAux fuel) ctx (.obj ls) =
              (match jgetL ls "allOf" with
                | some (.arr [a]) => do
                    let a' ← strictAux fuel
                      (fun x => ctx (jset (.obj ls) "allOf" (.arr [x]))) a
                    pure (jerase (pyUpdate (.obj ls) a') "allOf")
                | some (.arr vs) => do
                    let vs' ← mapMWithCtxL (strictAux fuel)
                      (fun r => ctx (jset (.obj ls) "allOf" (.arr r))) vs
                    pure (jset (.obj ls) "allOf" (.arr vs'))
                | _ => pure (.obj ls)) from rfl, hga]
            cases vs with
            | nil =>
                show (do
                  let vs' ← mapMWithCtxL (strictAux fuel)
                    (fun r => ctx (jset (.obj ls) "allOf" (.arr r))) ([] : List JVal)
                  pure (jset (.obj ls) "allOf" (.arr vs'))) = pure (.obj ls)
                rw [mapMWithCtxL_id [] _ (by simp), ok_bind, hjset]
            | cons a t =>
                cases t with
                | nil => exact absurd rfl hlen
                | cons c2 t2 =>
                    show (do
                      let vs' ← mapMWithCtxL (strictAux fuel)
                        (fun r => ctx (jset (.obj ls) "allOf" (.arr r))) (a :: c2 :: t2)
                      pure (jset (.obj ls) "allOf" (.arr vs'))) = pure (.obj ls)
                    rw [mapMWithCtxL_id (a :: c2 :: t2) _ hvid, ok_bind, hjset]
      have e8 : stageDefault (.obj ls) = .obj ls := by
        have hdne : jgetL ls "default" ≠ some .null := by
          unfold noNullDefault at hnd
          simpa using hnd
        rw [show stageDefault (.obj ls) =
          (if jgetL ls "default" = some .null then .obj (jeraseL ls "default")
           else .obj ls) from rfl, if_neg hdne]
      have e9 : stageRef (strictAux fuel) ctx (.obj ls) = pure (.obj ls) := by
        rw [show stageRef (strictAux fuel) ctx (.obj ls) =
          (match jgetL ls "$ref" with
            | some rv =>
                if jTruthy rv then
                  match rv with
                  | .str r =>
                      if hasMoreThanOneKey (.obj ls) then do
                        let resolved ← resolve_ref (ctx (.obj ls)) r
                        if isDictB resolved then
                          strictAux fuel ctx
                            (jerase (pyUpdate (.obj ls)
                              (pyUpdate resolved (.obj ls))) "$ref")
                        else .error (.refNotDict r)
                      else pure (.obj ls)
                  | _ => .error .nonStringRef
                else pure (.obj ls)
            | none => pure (.obj ls)) from rfl, href]
      show (do
        let j1 ← stageDefs (strictAux fuel) ctx (.obj ls) "$defs"
        let j2 ← stageDefs (strictAux fuel) ctx j1 "definitions"
        let j3 ← stageType j2
        let j4 ← stageProps (strictAux fuel) ctx j3
        let j5 ← stageItems (strictAux fuel) ctx j4
        let j6 ← stageAnyOf (strictAux fuel) ctx j5
        let j7 ← stageAllOf (strictAux fuel) ctx j6
        stageRef (strictAux fuel) ctx (stageDefault j7)) = .ok (.obj ls)
      rw [e1, pure_bind, e2, pure_bind, e3, pure_bind, e4, pure_bind, e5,
        pure_bind, e6, pure_bind, e7, pure_bind, e8, e9]
      rfl

/-- A strict-output, ref-free node is a fixed point of the ref inliner. -/
theorem inline_id : ∀ (fuel : Nat) (j root : JVal) (visited : List String),
    sout0 j = true → cleanDeep "$ref" j = true → jdepth j < fuel →
    inline_all_refs fuel j root visited = .ok j
  | 0, _, _, _, _, _, hd => absurd hd (Nat.not_lt_zero _)
  | fuel + 1, j, root, visited, hS, hC, hd => by
      obtain ⟨ls, rfl⟩ := sout0_isObj hS
      have hS' := hS
      rw [sout0_eq] at hS'
      obtain ⟨hn, hp, hc, hx, hbr, hnd, hao, hkv⟩ := (soutB_obj_iff false ls).mp hS'
      have hkv0 : soutKVs0 ls = true := by rw [soutKVs0_eq]; exact hkv
      have hC' : (!hasKeyB ls "$ref" && cleanKVs "$ref" ls) = true := hC
      rw [Bool.and_eq_true] at hC'
      have href : jgetL ls "$ref" = none := by
        have h1 := hC'.1
        unfold hasKeyB at h1
        cases hg : jgetL ls "$ref" with
        | none => rfl
        | some v => rw [hg] at h1; exact nomatch h1
      have hdepth : jdepthKVs ls < fuel := by
        have he : jdepth (.obj ls) = 1 + jdepthKVs ls := rfl
        omega
      rw [show inline_all_refs (fuel + 1) (.obj ls) root visited =
        (match jgetL ls "$ref" with
          | some rv =>
              if jTruthy rv then
                match rv with
                | .str rr =>
                    if rr ∈ visited then .error (.circularRef rr)
                    else do
                      let resolved ← resolve_ref root rr
                      if isDictB resolved then do
                        let inlined ← inline_all_refs fuel resolved root
                          (rr :: visited)
                        pure (pyUpdate inlined (jerase (.obj ls) "$ref"))
                      else .error (.refNotDict rr)
                | _ => .error .nonStringRef
              else inlineStructural
                (fun x => inline_all_refs fuel x root visited) (.obj ls)
          | none => inlineStructural
              (fun x => inline_all_refs fuel x root visited) (.obj ls)) from rfl,
        href]
      have s1 : inlineMapStage (fun x => inline_all_refs fuel x root visited)
          "properties" (.obj ls) = pure (.obj ls) := by
        cases hgp : jgetL ls "properties" with
        | none =>
            rw [show inlineMapStage (fun x => inline_all_refs fuel x root visited)
              "properties" (.obj ls) =
              (match jgetL ls "properties" with
                | some (.obj ds) => do
                    let ds' ← mapMKV (fun x => inline_all_refs fuel x root visited) ds
                    pure (jset (.obj ls) "properties" (.obj ds'))
                | _ => pure (.obj ls)) from rfl, hgp]
        | some pv =>
            have hent := (soutKVsB_mem false ls).mp hkv ("properties", pv)
              (jgetL_some_mem ls _ pv hgp)
            rw [soutEntryB_props] at hent
            obtain ⟨ps, rfl, hvals⟩ := soutDict0_obj hent
            have hclean : cleanVals "$ref" ps = true := by
              have hcc := (cleanKVs_mem "$ref" ls).mp hC'.2 ("properties", .obj ps)
                (jgetL_some_mem ls _ _ hgp)
              rw [if_pos (by simp)] at hcc
              exact hcc
            have hvid : ∀ kv ∈ ps, isDictB kv.2 = true ∧
                inline_all_refs fuel kv.2 root visited = .ok kv.2 := by
              intro kv hkv'
              have hsv := (soutVals0_mem ps).mp hvals kv hkv'
              have hdv : jdepth kv.2 < fuel := by
                have h1 := jdepth_val_le ps kv hkv'
                have h2 := jdepth_val_le ls ("properties", .obj ps)
                  (jgetL_some_mem ls _ _ hgp)
                have h3 : jdepth (("properties", JVal.obj ps).2) =
                    1 + jdepthKVs ps := rfl
                omega
              exact ⟨sout0_isDict hsv, inline_id fuel kv.2 root visited hsv
                ((cleanVals_mem "$ref" ps).mp hclean kv hkv') hdv⟩
            rw [show inlineMapStage (fun x => inline_all_refs fuel x root visited)
              "properties" (.obj ls) =
              (match jgetL ls "properties" with
                | some (.obj ds) => do
                    let ds' ← mapMKV (fun x => inline_all_refs fuel x root visited) ds
                    pure (jset (.obj ls) "properties" (.obj ds'))
                | _ => pure (.obj ls)) from rfl, hgp]
            show (do
              let ds' ← mapMKV (fun x => inline_all_refs fuel x root visited) ps
              pure (jset (.obj ls) "properties" (.obj ds'))) = pure (.obj ls)
            rw [mapMKV_id ps hvid, ok_bind]
            show pure (jset (.obj ls) "properties" (.obj ps)) = pure (.obj ls)
            rw [show jset (.obj ls) "properties" (.obj ps) = .obj ls from by
              show JVal.obj (jsetL ls "properties" (.obj ps)) = .obj ls
              rw [jsetL_of_jgetL_eq ls "properties" _ hgp]]
      have s2 : inlineItemsStage (fun x => inline_all_refs fuel x root visited)
          (.obj ls) = pure (.obj ls) := by
        rw [show inlineItemsStage (fun x => inline_all_refs fuel x root visited)
          (.obj ls) =
          (match jgetL ls "items" with
            | some it =>
                if isDictB it then do
                  let it' ← inline_all_refs fuel it root visited
                  pure (jset (.obj ls) "items" it')
                else pure (.obj ls)
            | none => pure (.obj ls)) from rfl]
        cases hgi : jgetL ls "items" with
        | none => rfl
        | some it =>
            have hent := (soutKVsB_mem false ls).mp hkv ("items", it)
              (jgetL_some_mem ls _ it hgi)
            rw [soutEntryB_items] at hent
            show (if isDictB it then
                (do
                  let it' ← inline_all_refs fuel it root visited
                  pure (jset (.obj ls) "items" it') : Except Err JVal)
              else pure (.obj ls)) = pure (.obj ls)
            by_cases hdi : isDictB it = true
            · rw [if_pos hdi]
              rw [if_pos hdi] at hent
              have hcit : cleanDeep "$ref" it = true := by
                have hcc := (cleanKVs_mem "$ref" ls).mp hC'.2 ("items", it)
                  (jgetL_some_mem ls _ it hgi)
                rw [if_neg (by simp)] at hcc
                exact hcc
              have hdit : jdepth it < fuel := by
                have h1 := jdepth_val_le ls ("items", it)
                  (jgetL_some_mem ls _ it hgi)
                have h2 : jdepth (("items", it).2) = jdepth it := rfl
                omega
              rw [inline_id fuel it root visited hent hcit hdit, ok_bind]
              show pure (jset (.obj ls) "items" it) = pure (.obj ls)
              rw [show jset (.obj ls) "items" it = .obj ls from by
                show JVal.obj (jsetL ls "items" it) = .obj ls
                rw [jsetL_of_jgetL_eq ls "items" it hgi]]
            · rw [if_neg hdi]
      have slist : ∀ key : String, key = "anyOf" ∨ key = "allOf" →
          inlineListStage (fun x => inline_all_refs fuel x root visited) key
            (.obj ls) = pure (.obj ls) := by
        intro key hkey
        have hkeq : ∀ (w : JVal), soutEntryB false key w = soutList0 w := by
          intro w
          rcases hkey with h | h
          · subst h; exact soutEntryB_anyOf false w
          · subst h; exact soutEntryB_allOf false w
        have hknc : (key = "properties" || key = "$defs" ||
            key = "definitions") = false := by
          rcases hkey with h | h <;> subst h <;> decide
        rw [show inlineListStage (fun x => inline_all_refs fuel x root visited)
          key (.obj ls) =
          (match jgetL ls key with
            | some (.arr vs) => do
                let vs' ← mapMJ (fun x => inline_all_refs fuel x root visited) vs
                pure (jset (.obj ls) key (.arr vs'))
            | _ => pure (.obj ls)) from rfl]
        cases hga : jgetL ls key with
        | none => rfl
        | some av =>
            have hent := (soutKVsB_mem false ls).mp hkv (key, av)
              (jgetL_some_mem ls _ av hga)
            rw [hkeq] at hent
            obtain ⟨vs, rfl, helems⟩ := soutList0_arr hent
            have hcvs : cleanL "$ref" vs = true := by
              have hcc := (cleanKVs_mem "$ref" ls).mp hC'.2 (key, .arr vs)
                (jgetL_some_mem ls _ _ hga)
              rw [show ((key, JVal.arr vs).1 = "properties" ||
                (key, JVal.arr vs).1 = "$defs" ||
                (key, JVal.arr vs).1 = "definitions") = false from hknc] at hcc
              rw [if_neg (by simp)] at hcc
              exact hcc
            have hvid : ∀ v ∈ vs, isDictB v = true ∧
                inline_all_refs fuel v root visited = .ok v := by
              intro v hv
              have hsv := (soutElems0_mem vs).mp helems v hv
              have hdv : jdepth v < fuel := by
                have h1 := jdepth_elem_le vs v hv
                have h2 := jdepth_val_le ls (key, .arr vs)
                  (jgetL_some_mem ls _ _ hga)
                have h3 : jdepth ((key, JVal.arr vs).2) = 1 + jdepthL vs := rfl
                omega
              exact ⟨sout0_isDict hsv, inline_id fuel v root visited hsv
                ((cleanL_mem "$ref" vs).mp hcvs v hv) hdv⟩
            show (do
              let vs' ← mapMJ (fun x => inline_all_refs fuel x root visited) vs
              pure (jset (.obj ls) key (.arr vs'))) = pure (.obj ls)
            rw [mapMJ_id vs hvid, ok_bind]
            show pure (jset (.obj ls) key (.arr vs)) = pure (.obj ls)
            rw [show jset (.obj ls) key (.arr vs) = .obj ls from by
              show JVal.obj (jsetL ls key (.arr vs)) = .obj ls
              rw [jsetL_of_jgetL_eq ls key _ hga]]
      have sdefs : ∀ key : String, key = "$defs" ∨ key = "definitions" →
          inlineMapStage (fun x => inline_all_refs fuel x root visited) key
            (.obj ls) = pure (.obj ls) := by
        intro key hkey
        rw [show inlineMapStage (fun x => inline_all_refs fuel x root visited)
          key (.obj ls) =
          (match jgetL ls key with
            | some (.obj ds) => do
                let ds' ← mapMKV (fun x => inline_all_refs fuel x root visited) ds
                pure (jset (.obj ls) key (.obj ds'))
            | _ => pure (.obj ls)) from rfl,
          soutKVs_no_defs ls key hkey hkv0]
      show (do
        let r1 ← inlineMapStage (fun x => inline_all_refs fuel x root visited)
          "properties" (.obj ls)
        let r2 ← inlineItemsStage (fun x => inline_all_refs fuel x root visited) r1
        let r3 ← inlineListStage (fun x => inline_all_refs fuel x root visited)
          "anyOf" r2
        let r4 ← inlineListStage (fun x => inline_all_refs fuel x root visited)
          "allOf" r3
        let r5 ← inlineMapStage (fun x => inline_all_refs fuel x root visited)
          "$defs" r4
        let r6 ← inlineMapStage (fun x => inline_all_refs fuel x root visited)
          "definitions" r5
        pure r6) = .ok (.obj ls)
      rw [s1, pure_bind, s2, pure_bind, slist "anyOf" (Or.inl rfl), pure_bind,
        slist "allOf" (Or.inr rfl), pure_bind, sdefs "$defs" (Or.inl rfl),
        pure_bind, sdefs "definitions" (Or.inr rfl), pure_bind]
      rfl

/-! ## Claim theorems: object closure, ref-freedom, idempotence -/

/-- The normalized form of `schemaBA` (declaration order `b` before `a`). -/
def schemaBAOut : JVal :=
  .obj [("type", .str "object"),
    ("properties", .obj [("b", .obj [("type", .str "string")]),
      ("a", .obj [("type", .str "string")])]),
    ("additionalProperties", .bool false),
    ("required", .arr [.str "b", .str "a"])]

/-- C1 (amended): object closure holds with `required` in declaration
order.  For every well-formed schema `S`, every object node at every depth
of a successful `normalize(S)` carries `additionalProperties: false` and a
`required` list equal to its `properties` key list in the order the
properties are declared — insertion order, which is not the sorted order
(the counterexample above refutes the sorted version). -/
theorem object_closure_declaration_order (fuel : Nat) (S O : JVal)
    (hS : tameB true S = true)
    (h : ensure_strict_json_schema fuel S = .ok O) :
    closedDeep O = true :=
  sout_closed O (normalize_master hS h).1

theorem object_closure_declaration_order_witness :
    tameB true schemaBA = true ∧
    ensure_strict_json_schema 20 schemaBA = .ok schemaBAOut ∧
    closedDeep schemaBAOut = true :=
  ⟨by decide, by decide,
    object_closure_declaration_order 20 schemaBA schemaBAOut
      (by decide) (by decide)⟩

/-- C2: reference and definition-container freedom.  For every well-formed
schema `S` (in particular any `S` containing `$ref` nodes or definition
containers), a successful `normalize(S)` contains no schema node carrying
`$ref`, `$defs` or `definitions`, at any depth. -/
theorem ref_and_definition_freedom (fuel : Nat) (S O : JVal)
    (hS : tameB true S = true)
    (h : ensure_strict_json_schema fuel S = .ok O) :
    cleanDeep "$ref" O = true ∧ cleanDeep "$defs" O = true ∧
      cleanDeep "definitions" O = true :=
  ⟨(normalize_master hS h).2.1, (normalize_master hS h).2.2.1,
    (normalize_master hS h).2.2.2⟩

theorem ref_and_definition_freedom_witness :
    tameB true schemaDiamond = true ∧
    ensure_strict_json_schema 20 schemaDiamond = .ok diamondOut ∧
    (cleanDeep "$ref" diamondOut = true ∧ cleanDeep "$defs" diamondOut = true ∧
      cleanDeep "definitions" diamondOut = true) :=
  ⟨by decide, by decide,
    ref_and_definition_freedom 20 schemaDiamond diamondOut
      (by decide) (by decide)⟩

/-- C4 counterexample: the decorated self-referential definition is a
well-formed schema in which a `$ref` pointer occurs on its own resolution
path, yet `normalize` succeeds with no circular-reference error: the strict
pass unravels a ref that carries sibling keys (`{**resolved, **json_schema}`
then `pop("$ref")`) before the ref inliner — the only place the cycle check
lives — ever sees it. -/
theorem decorated_self_reference_normalizes_counterexample :
    tameB true decoratedCycle = true ∧
    ensure_strict_json_schema 20 decoratedCycle = .ok decoratedCycleOut :=
  ⟨by decide, by decide⟩

/-- A well-formed schema whose normal form is the empty dict: a singleton
`allOf` of the empty schema is spliced away entirely. -/
def schemaAllOfEmpty : JVal := .obj [("allOf", .arr [.obj []])]

/-- C5 (counterexample): `normalize` is not idempotent.  On
`{"allOf": [{}]}` the first run returns `{}` (the singleton `allOf` splice
of an empty member erases everything), but the second run hits the
empty-input special case and returns `_EMPTY_SCHEMA`, a different
document. -/
theorem normalize_not_idempotent_counterexample :
    tameB true schemaAllOfEmpty = true ∧
    ensure_strict_json_schema 20 schemaAllOfEmpty = .ok (.obj []) ∧
    ensure_strict_json_schema 20 (.obj []) = .ok EMPTY_SCHEMA ∧
    JVal.obj [] ≠ EMPTY_SCHEMA :=
  ⟨by decide, by decide, by decide, by decide⟩

/-- C5 (amended): `normalize` is idempotent away from the empty normal
form.  Whenever a successful run on a well-formed schema returns `O ≠ {}`,
a second run on `O` (at any fuel exceeding `O`'s nesting depth — the first
run's fuel-freeness is `ensure_strict_json_schema_mono`) returns `O`
unchanged. -/
theorem normalize_idempotent_off_empty (f g : Nat) (S O : JVal)
    (hS : tameB true S = true)
    (h : ensure_strict_json_schema f S = .ok O)
    (hO : O ≠ .obj [])
    (hg : jdepth O < g) :
    ensure_strict_json_schema g O = .ok O := by
  obtain ⟨hsO, hrO, hdO, hfO⟩ := normalize_master hS h
  show (if O = .obj [] then (pure EMPTY_SCHEMA : Except Err JVal)
      else do
        let s ← strictAux g id O
        let i ← inline_all_refs g s s []
        pure (jerase (jerase i "$defs") "definitions")) = .ok O
  rw [if_neg hO, strict_id g id O hsO hrO hg, ok_bind,
    inline_id g O O [] hsO hrO hg, ok_bind]
  obtain ⟨lO, rfl⟩ := sout0_isObj hsO
  have hd1 : jgetL lO "$defs" = none := by
    have h1 : (!hasKeyB lO "$defs" && cleanKVs "$defs" lO) = true := hdO
    rw [Bool.and_eq_true] at h1
    have h2 := h1.1
    unfold hasKeyB at h2
    cases hg2 : jgetL lO "$defs" with
    | none => rfl
    | some v => rw [hg2] at h2; exact nomatch h2
  have hd2 : jgetL lO "definitions" = none := by
    have h1 : (!hasKeyB lO "definitions" && cleanKVs "definitions" lO) = true := hfO
    rw [Bool.and_eq_true] at h1
    have h2 := h1.1
    unfold hasKeyB at h2
    cases hg2 : jgetL lO "definitions" with
    | none => rfl
    | some v => rw [hg2] at h2; exact nomatch h2
  show pure (jerase (jerase (.obj lO) "$defs") "definitions") = .ok (.obj lO)
  rw [show jerase (.obj lO) "$defs" = .obj lO from by
      show JVal.obj (jeraseL lO "$defs") = .obj lO
      rw [jeraseL_of_none lO _ hd1],
    show jerase (.obj lO) "definitions" = .obj lO from by
      show JVal.obj (jeraseL lO "definitions") = .obj lO
      rw [jeraseL_of_none lO _ hd2]]
  rfl

theorem normalize_idempotent_off_empty_witness :
    tameB true schemaA = true ∧
    ensure_strict_json_schema 20 schemaA = .ok schemaAPost ∧
    schemaAPost ≠ .obj [] ∧ jdepth schemaAPost < 20 ∧
    ensure_strict_json_schema 20 schemaAPost = .ok schemaAPost :=
  ⟨by decide, by decide, by decide, by decide,
    normalize_idempotent_off_empty 20 20 schemaA schemaAPost
      (by decide) (by decide) (by decide) (by decide)⟩
